import Mathlib

/-!
# Distributed partitioning and local-size estimation (`mpi/api.c`)

A shallow embedding of the size-query and plan-construction entry points of
`mpi/api.c`.  C integers (`int`, `ptrdiff_t`, `INT`) are mathematical integers
(`Int`); `/` and `%` are C's truncating operations (`Int.tdiv`, `Int.tmod`).
Arithmetic is assumed to stay inside the range of `ptrdiff_t`.  A C array of
`rnk` entries is the list of its first `rnk` entries.  A communicator is the
pair `(my_pe, n_pes)` that `MPI_Comm_rank` / `MPI_Comm_size` read from it.
-/

namespace FFTW.MPI

/-! ## Data model -/

/-- The two sides of a distribution: input blocks and output blocks. -/
inductive block_kind where
  | IB
  | OB
  deriving DecidableEq, Repr

open block_kind

/-- The API-level dimension `XM(ddim)`: extent `n` and the two block hints
(`0` = `FFTW_MPI_DEFAULT_BLOCK`). -/
structure mpi_ddim where
  n : Int
  ib : Int
  ob : Int
  deriving DecidableEq, Repr

/-- The internal dimension `ddim`: extent `n` and a block size for each
block kind (`b[IB]`, `b[OB]`). -/
structure ddim where
  n : Int
  bIB : Int
  bOB : Int
  deriving DecidableEq, Repr

/-- Read `d.b[k]`. -/
def ddim.b (d : ddim) : block_kind → Int
  | IB => d.bIB
  | OB => d.bOB

/-- Write `d.b[k] = v`. -/
def ddim.set_b (d : ddim) (k : block_kind) (v : Int) : ddim :=
  match k with
  | IB => { d with bIB := v }
  | OB => { d with bOB := v }

/-- Read `d.ib` / `d.ob` of an API dimension by block kind (this is what
`mkdtensor_api` stores in `b[IB]` / `b[OB]`). -/
def mpi_ddim.hint (d : mpi_ddim) : block_kind → Int
  | IB => d.ib
  | OB => d.ob

/-- The distributed tensor `dtensor`: `rnk` dimensions. -/
structure dtensor where
  dims : List ddim
  deriving DecidableEq, Repr

/-- The rank `sz->rnk`. -/
def dtensor.rnk (sz : dtensor) : Int := sz.dims.length

/-- The communicator, as far as this file reads it: the calling process's
index (`MPI_Comm_rank`) and the process count (`MPI_Comm_size`). -/
structure MPI_Comm where
  my_pe : Int
  n_pes : Int
  deriving DecidableEq, Repr

/-- C's `a / b` on signed integers (truncation toward zero). -/
def cdiv (a b : Int) : Int := Int.tdiv a b

/-- C's `a % b` on signed integers. -/
def cmod (a b : Int) : Int := Int.tmod a b

/-- Modelled from the spec: `X(imax)` (kernel, not among the sources), the
larger of two integers. -/
def imax (a b : Int) : Int := if a >= b then a else b

/-! ## Block arithmetic (`mpi/block.c`, not among the sources) -/

/-- Modelled from the spec: `XM(num_blocks)`, `numBlocks(n, b) = ceil(n/b)`,
computed as `(n + b - 1) / b`. -/
def num_blocks (n block : Int) : Int := cdiv (n + block - 1) block

/-- Modelled from the spec: `XM(default_block)`, `defaultBlock(n, p) =
ceil(n/p)`, computed as `(n + p - 1) / p`. -/
def default_block (n n_pes : Int) : Int := cdiv (n + n_pes - 1) n_pes

/-- Modelled from the spec: `XM(block)`, `blockSize(n, b, i) =
max(0, min(b, n - i*b))`. -/
def block (n block which_block : Int) : Int :=
  let d := n - which_block * block
  if d <= 0 then 0 else (if d > block then block else d)

/-- Modelled from the spec: `num_blocks_kind` (`mpi/block.c`), the block count
of one dimension for kind `k`. -/
def num_blocks_kind (d : ddim) (k : block_kind) : Int := num_blocks d.n (d.b k)

/-- Modelled from the spec: `XM(num_blocks_total)`, the number of blocks the
distribution needs for kind `k`: the product over the dimensions of the
per-dimension block counts. -/
def num_blocks_total (sz : dtensor) (k : block_kind) : Int :=
  sz.dims.foldl (fun ntot d => ntot * num_blocks_kind d k) 1

/-- Modelled from the spec: the loop of `XM(block_coords)`, over the dimensions
listed from the last one to the first: `coords[i] = which_pe % nb;
which_pe /= nb`. -/
def block_coords_loop (k : block_kind) : List ddim → Int → List Int
  | [], _ => []
  | d :: ds, which_pe =>
      let nb := num_blocks_kind d k
      cmod which_pe nb :: block_coords_loop k ds (cdiv which_pe nb)

/-- Modelled from the spec: `XM(block_coords)`, the mixed-radix decomposition
of the linear process index over the per-kind block counts; the last
dimension varies fastest. -/
def block_coords (sz : dtensor) (k : block_kind) (which_pe : Int) : List Int :=
  (block_coords_loop k sz.dims.reverse which_pe).reverse

/-- Modelled from the spec: `XM(is_local_after)` (`mpi/block.c`), whether every
dimension from index `dim` on is held in a single block. -/
def is_local_after (dim : Nat) (sz : dtensor) (k : block_kind) : Bool :=
  (sz.dims.drop dim).all (fun d => !(decide (num_blocks_kind d k > 1)))

/-- Modelled from the spec: the search loop of `XM(is_block1d)`, the index of
the first dimension that is split into more than one block (`rnk` if there is
none). -/
def first_split (k : block_kind) : List ddim → Nat
  | [] => 0
  | d :: ds => if num_blocks_kind d k = 1 then first_split k ds + 1 else 0

/-- Modelled from the spec: `XM(is_block1d)`, whether the distribution for
kind `k` is a pure one-dimensional block split: exactly one of the first two
dimensions is divided and every later dimension is held in one block. -/
def is_block1d (sz : dtensor) (k : block_kind) : Bool :=
  let i := first_split k sz.dims
  decide (i < sz.dims.length) && decide (i < 2) && is_local_after (i + 1) sz k

/-- Modelled from the spec: `XM(dtensor_canonical)` (`mpi/dtensor.c`, not among
the sources).  The canonical distribution keeps every extent; block sizes of
a dimension lie in `[1, n]`, so a block size that holds the whole extent in
one block is stored as `n`. -/
def dtensor_canonical (sz : dtensor) : dtensor :=
  let canon (d : ddim) (k : block_kind) : Int :=
    if num_blocks d.n (d.b k) = 1 then d.n else d.b k
  { dims := sz.dims.map
      (fun (d : ddim) => ({ n := d.n, bIB := canon d IB, bOB := canon d OB } : ddim)) }

/-! ## Collaborators that are not part of `mpi/api.c` -/

/-- Modelled from the spec: the transform direction forward (`FFTW_FORWARD`
of `fftw3.h`). -/
def FFTW_FORWARD : Int := -1

/-- Modelled from the spec: the transform direction backward (`FFTW_BACKWARD`
of `fftw3.h`). -/
def FFTW_BACKWARD : Int := 1

/-- Modelled from the spec: `FFTW_MPI_DEFAULT_BLOCK` (`fftw3-mpi.h`), the
block-size value `0` that asks for an automatic choice. -/
def FFTW_MPI_DEFAULT_BLOCK : Int := 0

/-- What `XM(choose_radix)` hands back: the radix `r` (`0` = no radix found)
and the block sizes `rblock[2]`, `mblock[2]` it fills in. -/
structure radix_choice where
  r : Int
  rblockIB : Int
  rblockOB : Int
  mblockIB : Int
  mblockOB : Int
  deriving DecidableEq, Repr

/-- Read `rblock[k]`. -/
def radix_choice.rblock (c : radix_choice) : block_kind → Int
  | IB => c.rblockIB
  | OB => c.rblockOB

/-- Read `mblock[k]`. -/
def radix_choice.mblock (c : radix_choice) : block_kind → Int
  | IB => c.mblockIB
  | OB => c.mblockOB

/-- A problem value handed to the planner. -/
inductive problem where
  | mpi_dft (sz : dtensor) (vn : Int) (inp out : Nat) (comm : MPI_Comm)
      (sign : Int) (flags : Nat)
  | mpi_transpose (nx ny vn : Int) (inp out : Nat) (block tblock : Int)
      (comm : MPI_Comm) (flags : Nat)
  deriving DecidableEq, Repr

/-- The planner of the host library, as far as `init` touches it: whether the
cost hook of this file is installed, and the registered solver set. -/
structure planner where
  cost_hook : Bool
  solvers : List Nat
  deriving DecidableEq, Repr

/-- The process-wide state: the flag `mpi_inited` and the planner. -/
structure mpi_state where
  mpi_inited : Bool
  plnr : planner
  deriving DecidableEq, Repr

/-- The parts of the program that live outside `mpi/api.c` and that the spec
does not pin down: the radix selector, the flag bits of `fftw3-mpi.h`, the
registration of the standard solvers, the host library's teardown, and the
planner entry point `X(mkapiplan)` (a plan handle is a pointer; `0` is the
absent plan). -/
structure Env where
  choose_radix : ddim → Int → Nat → Int → radix_choice
  FFTW_MPI_SCRAMBLED_IN : Nat
  FFTW_MPI_SCRAMBLED_OUT : Nat
  conf_standard : planner → planner
  cleanup : planner → planner
  mkapiplan : mpi_state → Int → Nat → problem → Nat

/-- Convert API flags to internal MPI flags: `MPI_FLAGS(f) = f >> 28`. -/
def MPI_FLAGS (f : Nat) : Nat := f >>> 28

/-! ## Initialisation -/

/-- `XM(init)`: on the first call install the cost hook, register the
standard solvers and set the flag. -/
def init (env : Env) (st : mpi_state) : mpi_state :=
  if !st.mpi_inited then
    let plnr := { st.plnr with cost_hook := true }
    let plnr := env.conf_standard plnr
    { mpi_inited := true, plnr := plnr }
  else st

/-- `XM(cleanup)`: tear the host library down and clear the flag. -/
def cleanup (env : Env) (st : mpi_state) : mpi_state :=
  { mpi_inited := false, plnr := env.cleanup st.plnr }

/-! ## Canonical distribution -/

/-- `mkdtensor_api`: copy the API dimensions, hints included. -/
def mkdtensor_api (rnk : Int) (dims0 : List mpi_ddim) : dtensor :=
  { dims := (dims0.take rnk.toNat).map
      (fun (d : mpi_ddim) => ({ n := d.n, bIB := d.ib, bOB := d.ob } : ddim)) }

/-- First loop of `default_sz`: a block size that was not specified starts
as the whole extent. -/
def default_sz_start (rnk : Int) (dims0 : List mpi_ddim) : dtensor :=
  { dims := (dims0.take rnk.toNat).map
      (fun (d : mpi_ddim) => ({ n := d.n,
                                bIB := if d.ib ≠ 0 then d.ib else d.n,
                                bOB := if d.ob ≠ 0 then d.ob else d.n } : ddim)) }

/-- Inner loop of `default_sz` for block kind `k`, from the current dimension
on: `ds0` are the remaining dimensions of `sz0`, `ds` those of `sz`; the loop
runs while `np > 1`. -/
def default_sz_fill (k : block_kind) (n_pes : Int) :
    List ddim → List ddim → Int → Int → List ddim
  | d0 :: ds0, d :: ds, nb, np =>
      if np > 1 then
        if d0.b k = 0 then
          let d1 := d.set_b k (default_block d.n np)
          let nb1 := nb * num_blocks d1.n (d1.b k)
          d1 :: default_sz_fill k n_pes ds0 ds nb1 (cdiv n_pes nb1)
        else d :: default_sz_fill k n_pes ds0 ds nb np
      else d :: ds
  | _, ds, _, _ => ds

/-- Body of the loop over `k` in `default_sz`. -/
def default_sz_kind (k : block_kind) (n_pes : Int) (sz0 sz : dtensor) : dtensor :=
  let nb := num_blocks_total sz k
  let np := cdiv n_pes nb
  { dims := default_sz_fill k n_pes sz0.dims sz.dims nb np }

/-- The two loops of `default_sz`: the distribution `sz` just before it is
made canonical. -/
def default_sz_blocks (rnk : Int) (dims0 : List mpi_ddim) (n_pes : Int) : dtensor :=
  let sz0 := mkdtensor_api rnk dims0
  let sz := default_sz_start rnk dims0
  let sz := default_sz_kind IB n_pes sz0 sz
  let sz := default_sz_kind OB n_pes sz0 sz
  sz

/-- `default_sz`: the canonical distribution of a request over `n_pes`
processes. -/
def default_sz (rnk : Int) (dims0 : List mpi_ddim) (n_pes : Int) : dtensor :=
  dtensor_canonical (default_sz_blocks rnk dims0 n_pes)

/-- `simple_dims`: local (serial) dimensions for the extents `n[rnk]`. -/
def simple_dims (rnk : Int) (n : List Int) : List mpi_ddim :=
  (n.take rnk.toNat).map (fun (ni : Int) => ({ n := ni, ib := ni, ob := ni } : mpi_ddim))

/-! ## Local sizes -/

/-- `local_size`: the extents `local_n` and offsets `local_start` of process
`my_pe` for block kind `k`. -/
def local_size (my_pe : Int) (sz : dtensor) (k : block_kind) : List Int × List Int :=
  if my_pe >= num_blocks_total sz k then
    (sz.dims.map (fun _ => 0), sz.dims.map (fun _ => 0))
  else
    let coords := block_coords sz k my_pe
    (List.zipWith (fun d c => block d.n (d.b k) c) sz.dims coords,
     List.zipWith (fun d c => c * d.b k) sz.dims coords)

/-- `prod`: the product of the first `rnk` entries of `local_n`, over the
integers: the exact product.  The source multiplies in `ptrdiff_t`; the
product as it stores it is `prod_m`. -/
def prod (rnk : Int) (local_n : List Int) : Int :=
  (local_n.take rnk.toNat).foldl (fun N x => N * x) 1

/-- Read `sz->dims[i]`. -/
def dtensor.dim (sz : dtensor) (i : Nat) : ddim := sz.dims.getD i ⟨0, 0, 0⟩

/-- Write `sz->dims[i] = d`. -/
def dtensor.set_dim (sz : dtensor) (i : Nat) (d : ddim) : dtensor :=
  { dims := sz.dims.set i d }

/-- What a size query hands back: the returned size and the first `rnk`
entries of the four output arrays. -/
structure local_size_result where
  ret : Int
  local_n_in : List Int
  local_start_in : List Int
  local_n_out : List Int
  local_start_out : List Int
  deriving DecidableEq, Repr

/-- The variables of `local_size_guru` that the candidate computations
update: the distribution `sz`, the running size `N`, and the output arrays
`local_n_in`, `local_start_in`, which one candidate uses as scratch space. -/
structure guru_state where
  sz : dtensor
  N : Int
  local_n_in : List Int
  local_start_in : List Int
  deriving DecidableEq, Repr

/-- Test of the loop `dft-rank-geq2-transposed`: dimension `i` is held in one
block on both sides. -/
def geq2_transposed_test (sz : dtensor) (i : Nat) : Bool :=
  decide (num_blocks (sz.dim i).n ((sz.dim i).b IB) = 1) &&
  decide (num_blocks (sz.dim i).n ((sz.dim i).b OB) = 1)

/-- Body of the loop `dft-rank-geq2-transposed` for index `i`; `odims` are
the saved dimensions 0 and 1. -/
def geq2_transposed_body (my_pe n_pes rnk : Int) (odims : ddim × ddim) (i : Nat)
    (st : guru_state) : guru_state :=
  let sz := st.sz
  let sz := sz.set_dim i ((sz.dim i).set_b IB (default_block (sz.dim i).n n_pes))
  let sz := sz.set_dim (1 - i) ((sz.dim (1 - i)).set_b IB (sz.dim (1 - i)).n)
  let l := local_size my_pe sz IB
  let N := imax st.N (prod rnk l.1)
  let sz := sz.set_dim i (if i = 0 then odims.1 else odims.2)
  let sz := sz.set_dim (1 - i) (if 1 - i = 0 then odims.1 else odims.2)
  { sz := sz, N := N, local_n_in := l.1, local_start_in := l.2 }

/-- The loop `dft-rank-geq2-transposed`: the first `i` in `{0, 1}` that passes
the test runs the body, then the loop is left. -/
def geq2_transposed (my_pe n_pes rnk : Int) (st : guru_state) : guru_state :=
  let odims := (st.sz.dim 0, st.sz.dim 1)
  if geq2_transposed_test st.sz 0 then geq2_transposed_body my_pe n_pes rnk odims 0 st
  else if geq2_transposed_test st.sz 1 then geq2_transposed_body my_pe n_pes rnk odims 1 st
  else st

/-- The branch `rnk > 1` with one-dimensional block distributions, over the
integers: products and sums are exact, and the quotient by `howmany` is the
total quotient, which is `0` for `howmany = 0`.  It is what the source
computes when `howmany ≠ 0` and its products and sums are values of
`ptrdiff_t` (`guru_geq2_m_eq`); the branch with the arithmetic of `ptrdiff_t`
and the division by zero is `guru_geq2_m`. -/
def guru_geq2 (my_pe n_pes rnk howmany : Int) (st : guru_state) : guru_state :=
  let st := geq2_transposed my_pe n_pes rnk st
  let sz := st.sz
  let N := st.N
  let Nafter := (sz.dims.drop 1).foldl (fun a d => a * d.n) howmany
  let N := imax N (cdiv ((sz.dim 0).n
             * block Nafter (default_block Nafter n_pes) my_pe + howmany - 1) howmany)
  let Nafter := (sz.dims.drop 2).foldl (fun a d => a * d.n) (howmany * (sz.dim 0).n)
  let N := imax N (cdiv ((sz.dim 1).n
             * block Nafter (default_block Nafter n_pes) my_pe + howmany - 1) howmany)
  { st with N := N }

/-- The branch `dft-rank1-bigvec`, over the integers (in `ptrdiff_t`:
`guru_rank1_bigvec_m`). -/
def guru_rank1_bigvec (my_pe n_pes howmany : Int) (st : guru_state) : guru_state :=
  let sz := st.sz
  let sz2 : dtensor :=
    { dims := [ (sz.dim 0).set_b IB (sz.dim 0).n,
                { n := howmany, bIB := default_block howmany n_pes, bOB := howmany } ] }
  let l := local_size my_pe sz2 IB
  { st with N := imax st.N (cdiv (prod 2 l.1 + howmany - 1) howmany) }

/-- The branch `dft-rank1` once the sign has been checked, over the integers
(in `ptrdiff_t`: `guru_rank1_radix_m`). -/
def guru_rank1_radix (env : Env) (n_pes : Int) (sign : Int) (flags : Nat)
    (st : guru_state) : guru_state :=
  let c := env.choose_radix (st.sz.dim 0) n_pes flags sign
  if c.r ≠ 0 then
    let m := cdiv (st.sz.dim 0).n c.r
    let st :=
      if flags &&& env.FFTW_MPI_SCRAMBLED_IN ≠ 0 then
        { st with sz := st.sz.set_dim 0 ((st.sz.dim 0).set_b IB (c.rblock IB * m)) }
      else
        { st with sz := st.sz.set_dim 0 ((st.sz.dim 0).set_b IB (c.r * c.mblock IB)),
                  N := imax st.N (c.rblock IB * m) }
    let st :=
      if flags &&& env.FFTW_MPI_SCRAMBLED_OUT ≠ 0 then
        { st with sz := st.sz.set_dim 0 ((st.sz.dim 0).set_b OB (c.r * c.mblock OB)) }
      else
        { st with N := imax st.N (c.r * c.mblock OB),
                  sz := st.sz.set_dim 0 ((st.sz.dim 0).set_b OB (c.rblock OB * m)) }
    st
  else st

/-- The candidate computations of `local_size_guru` (between `N = 1` and the
final two calls of `local_size`).  The result `none` is the failed assertion
`CK(sign == FFTW_FORWARD || sign == FFTW_BACKWARD)`: the request is rejected
and no size is returned (`CK` is the always-on check of `ifftw.h`; in the
spec's words the sign is validated, else the request is rejected). -/
def guru_candidates (env : Env) (rnk howmany my_pe n_pes sign : Int) (flags : Nat)
    (st : guru_state) : Option guru_state :=
  if rnk > 1 ∧ is_block1d st.sz IB = true ∧ is_block1d st.sz OB = true then
    some (guru_geq2 my_pe n_pes rnk howmany st)
  else if rnk = 1 then
    if howmany >= n_pes ∧ flags = 0 then
      some (guru_rank1_bigvec my_pe n_pes howmany st)
    else if sign = FFTW_FORWARD ∨ sign = FFTW_BACKWARD then
      some (guru_rank1_radix env n_pes sign flags st)
    else none
  else some st

/-- `XM(local_size_guru)` over the integers.  For `rnk == 0` the output arrays
are not written.  The sizes are exact and the quotients by `howmany` total:
this is the size query for `howmany ≥ 1` and sizes that are values of
`ptrdiff_t`.  The query with the arithmetic of `ptrdiff_t`, where `prod` and
`N * howmany` wrap and `howmany = 0` divides by zero, is `local_size_guru_m`;
for rank 0, and for rank 2 and above with `howmany ≠ 0`, both report the same
extents (`local_size_guru_m_rank0`, `local_size_guru_m_geq2`). -/
def local_size_guru (env : Env) (rnk : Int) (dims0 : List mpi_ddim) (howmany : Int)
    (comm : MPI_Comm) (sign : Int) (flags : Nat) : Option local_size_result :=
  if rnk = 0 then
    some { ret := howmany, local_n_in := [], local_start_in := [],
           local_n_out := [], local_start_out := [] }
  else
    let my_pe := comm.my_pe
    let n_pes := comm.n_pes
    let sz := default_sz rnk dims0 n_pes
    match guru_candidates env rnk howmany my_pe n_pes sign flags
        { sz := sz, N := 1, local_n_in := [], local_start_in := [] } with
    | none => none
    | some st =>
        let l_in := local_size my_pe st.sz IB
        let l_out := local_size my_pe st.sz OB
        let N := imax st.N (imax (prod rnk l_in.1) (prod rnk l_out.1))
        some { ret := N * howmany, local_n_in := l_in.1, local_start_in := l_in.2,
               local_n_out := l_out.1, local_start_out := l_out.2 }

/-- What the two-dimensional size queries hand back. -/
structure local_size_xy where
  ret : Int
  local_nx : Int
  local_x_start : Int
  local_ny : Int
  local_y_start : Int
  deriving DecidableEq, Repr

/-- The dimensions `local_size_many_transposed` builds for `rnk != 0`: a 1d
block distribution, with transposed output if `yblock < n[1]`. -/
def many_transposed_dims (rnk : Int) (n : List Int) (xblock yblock : Int) : List mpi_ddim :=
  let dims := simple_dims rnk n
  let dims := dims.modify (fun d => { d with ib := xblock }) 0
  if rnk > 1 then
    if yblock < n.getD 1 0 then dims.modify (fun d => { d with ob := yblock }) 1
    else dims.modify (fun d => { d with ob := xblock }) 0
  else dims.modify (fun d => { d with ob := xblock }) 0

/-- `XM(local_size_many_transposed)`. -/
def local_size_many_transposed (env : Env) (rnk : Int) (n : List Int)
    (howmany xblock yblock : Int) (comm : MPI_Comm) : Option local_size_xy :=
  if rnk = 0 then
    some { ret := howmany, local_nx := 1, local_x_start := 0,
           local_ny := 1, local_y_start := 0 }
  else
    let dims := many_transposed_dims rnk n xblock yblock
    match local_size_guru env rnk dims howmany comm 0 0 with
    | none => none
    | some r =>
        let local_nx := r.local_n_in.getD 0 0
        let local_x_start := r.local_start_in.getD 0 0
        if rnk > 1 then
          some { ret := r.ret, local_nx := local_nx, local_x_start := local_x_start,
                 local_ny := r.local_n_out.getD 1 0,
                 local_y_start := r.local_start_out.getD 1 0 }
        else
          some { ret := r.ret, local_nx := local_nx, local_x_start := local_x_start,
                 local_ny := local_nx, local_y_start := local_x_start }

/-- `XM(local_size_many)`. -/
def local_size_many (env : Env) (rnk : Int) (n : List Int) (howmany xblock : Int)
    (comm : MPI_Comm) : Option local_size_xy :=
  local_size_many_transposed env rnk n howmany xblock
    (if rnk > 1 then n.getD 1 0 else FFTW_MPI_DEFAULT_BLOCK) comm

/-- `XM(local_size_transposed)`. -/
def local_size_transposed (env : Env) (rnk : Int) (n : List Int) (comm : MPI_Comm) :
    Option local_size_xy :=
  local_size_many_transposed env rnk n 1 FFTW_MPI_DEFAULT_BLOCK FFTW_MPI_DEFAULT_BLOCK comm

/-- `XM(local_size)`, the API entry point (the file-local helper of the same
name is `local_size` above). -/
def mpi_local_size (env : Env) (rnk : Int) (n : List Int) (comm : MPI_Comm) :
    Option local_size_xy :=
  local_size_many env rnk n 1 FFTW_MPI_DEFAULT_BLOCK comm

/-- `XM(local_size_many_1d)`. -/
def local_size_many_1d (env : Env) (nx howmany : Int) (comm : MPI_Comm) (sign : Int)
    (flags : Nat) : Option local_size_result :=
  local_size_guru env 1 [{ n := nx, ib := FFTW_MPI_DEFAULT_BLOCK, ob := FFTW_MPI_DEFAULT_BLOCK }]
    howmany comm sign flags

/-- `XM(local_size_1d)`. -/
def local_size_1d (env : Env) (nx : Int) (comm : MPI_Comm) (sign : Int) (flags : Nat) :
    Option local_size_result :=
  local_size_many_1d env nx 1 comm sign flags

/-- `XM(local_size_2d_transposed)`. -/
def local_size_2d_transposed (env : Env) (nx ny : Int) (comm : MPI_Comm) :
    Option local_size_xy :=
  local_size_transposed env 2 [nx, ny] comm

/-- `XM(local_size_2d)`. -/
def local_size_2d (env : Env) (nx ny : Int) (comm : MPI_Comm) : Option local_size_xy :=
  mpi_local_size env 2 [nx, ny] comm

/-- `XM(local_size_3d_transposed)`. -/
def local_size_3d_transposed (env : Env) (nx ny nz : Int) (comm : MPI_Comm) :
    Option local_size_xy :=
  local_size_transposed env 3 [nx, ny, nz] comm

/-- `XM(local_size_3d)`. -/
def local_size_3d (env : Env) (nx ny nz : Int) (comm : MPI_Comm) : Option local_size_xy :=
  mpi_local_size env 3 [nx, ny, nz] comm

/-! ## Plan construction -/

/-- How a plan-construction call ends: it returns `0` before the planner is
reached, or it returns the value of `X(mkapiplan)(sign, flags, p)`. -/
inductive plan_call where
  | absent
  | mkapiplan (sign : Int) (flags : Nat) (p : problem)
  deriving DecidableEq, Repr

/-- The value a plan-construction call returns in state `st`. -/
def plan_call.value (env : Env) (st : mpi_state) : plan_call → Nat
  | .absent => 0
  | .mkapiplan sign flags p => env.mkapiplan st sign flags p

/-- Control flow of `XM(plan_many_transpose)` after `XM(init)()`. -/
def plan_many_transpose_call (nx ny howmany xblock yblock : Int) (inp out : Nat)
    (comm : MPI_Comm) (flags : Nat) : plan_call :=
  if howmany < 0 ∨ xblock < 0 ∨ yblock < 0 ∨ nx ≤ 0 ∨ ny ≤ 0 then .absent
  else
    let n_pes := comm.n_pes
    let xblock := if xblock = 0 then default_block nx n_pes else xblock
    let yblock := if yblock = 0 then default_block ny n_pes else yblock
    if n_pes < num_blocks nx xblock ∨ n_pes < num_blocks ny yblock then .absent
    else
      .mkapiplan FFTW_FORWARD flags
        (.mpi_transpose nx ny howmany inp out xblock yblock comm (MPI_FLAGS flags))

/-- `XM(plan_many_transpose)`: the new process-wide state and the returned
plan handle. -/
def plan_many_transpose (env : Env) (st : mpi_state) (nx ny howmany xblock yblock : Int)
    (inp out : Nat) (comm : MPI_Comm) (flags : Nat) : mpi_state × Nat :=
  let st := init env st
  (st, (plan_many_transpose_call nx ny howmany xblock yblock inp out comm flags).value env st)

/-- Control flow of `XM(plan_transpose)`. -/
def plan_transpose_call (nx ny : Int) (inp out : Nat) (comm : MPI_Comm) (flags : Nat) :
    plan_call :=
  plan_many_transpose_call nx ny 1 FFTW_MPI_DEFAULT_BLOCK FFTW_MPI_DEFAULT_BLOCK
    inp out comm flags

/-- `XM(plan_transpose)`. -/
def plan_transpose (env : Env) (st : mpi_state) (nx ny : Int) (inp out : Nat)
    (comm : MPI_Comm) (flags : Nat) : mpi_state × Nat :=
  plan_many_transpose env st nx ny 1 FFTW_MPI_DEFAULT_BLOCK FFTW_MPI_DEFAULT_BLOCK
    inp out comm flags

/-- Control flow of `XM(plan_guru_dft)` after `XM(init)()`. -/
def plan_guru_dft_call (rnk : Int) (dims0 : List mpi_ddim) (howmany : Int)
    (inp out : Nat) (comm : MPI_Comm) (sign : Int) (flags : Nat) : plan_call :=
  if howmany < 0 ∨ rnk < 1 then .absent
  else if (dims0.take rnk.toNat).any
      (fun d => decide (d.n < 1 ∨ d.ib < 0 ∨ d.ob < 0)) then .absent
  else
    let n_pes := comm.n_pes
    let sz := default_sz rnk dims0 n_pes
    if num_blocks_total sz IB > n_pes ∨ num_blocks_total sz OB > n_pes then .absent
    else
      .mkapiplan sign flags
        (.mpi_dft sz howmany inp out comm sign (MPI_FLAGS flags))

/-- `XM(plan_guru_dft)`: the new process-wide state and the returned plan
handle. -/
def plan_guru_dft (env : Env) (st : mpi_state) (rnk : Int) (dims0 : List mpi_ddim)
    (howmany : Int) (inp out : Nat) (comm : MPI_Comm) (sign : Int) (flags : Nat) :
    mpi_state × Nat :=
  let st := init env st
  (st, (plan_guru_dft_call rnk dims0 howmany inp out comm sign flags).value env st)

/-! ## Index tuples and boxes -/

/-- A global index tuple of the array: `0 ≤ x[i] < n_i` in every dimension. -/
def index_in_range (sz : dtensor) (x : List Int) : Prop :=
  List.Forall₂ (fun (d : ddim) (xi : Int) => 0 ≤ xi ∧ xi < d.n) sz.dims x

/-- The index tuple `x` lies in the box that `local_size` reported as
`(local_n, local_start)`: `local_start[i] ≤ x[i] < local_start[i] + local_n[i]`
in every dimension. -/
def index_in_box (x : List Int) (l : List Int × List Int) : Prop :=
  List.Forall₂ (fun (xi : Int) (p : Int × Int) => p.2 ≤ xi ∧ xi < p.2 + p.1) x
    (List.zip l.1 l.2)

/-! ## Concrete inputs of the examples -/

/-- An environment whose radix selector reports the failure sentinel `0` for
every request, with the flag bits at positions 28 and 29 and a planner that
yields the handle `1`. -/
def env_no_radix : Env :=
  { choose_radix := fun _ _ _ _ => ⟨0, 0, 0, 0, 0⟩
    FFTW_MPI_SCRAMBLED_IN := 2 ^ 28
    FFTW_MPI_SCRAMBLED_OUT := 2 ^ 29
    conf_standard := fun p => { p with solvers := 0 :: p.solvers }
    cleanup := fun _ => { cost_hook := false, solvers := [] }
    mkapiplan := fun _ _ _ _ => 1 }

/-! ## The cost hook -/

/-- Modelled from the spec: the cost kind `COST_SUM` of `ifftw.h` (total
aggregate work is compared). -/
def COST_SUM : Int := 0

/-- Modelled from the spec: the cost kind `COST_MAX` of `ifftw.h` (the slowest
participant is compared). -/
def COST_MAX : Int := 1

/-- The two reduction operations the cost hook asks for. -/
inductive MPI_Op where
  | MPI_SUM
  | MPI_MAX
  deriving DecidableEq, Repr

/-- A problem as the planner hands it to the cost hook: a problem of one of
the two kinds of this layer (`PROBLEM_MPI_DFT`, `PROBLEM_MPI_TRANSPOSE`), or a
problem of any other kind, of which only the kind tag is kept. -/
inductive planner_problem where
  | mpi (p : problem)
  | serial (problem_kind : Nat)
  deriving DecidableEq, Repr

/-- How a call of `cost_hook` ends: it returns `t` without a collective call,
or it returns the result of `MPI_Allreduce(&t, &tsum, 1, MPI_DOUBLE, op, comm)`.
A cost (a C `double`) is a rational number here; rounding is not modelled. -/
inductive cost_call where
  | unchanged (t : ℚ)
  | allreduce (op : MPI_Op) (comm : MPI_Comm) (t : ℚ)
  deriving DecidableEq, Repr

/-- Control flow of `cost_hook`. -/
def cost_hook_call (p : planner_problem) (t : ℚ) (k : Int) : cost_call :=
  match p with
  | .mpi (.mpi_dft _ _ _ _ comm _ _) =>
      .allreduce (if k = COST_SUM then .MPI_SUM else .MPI_MAX) comm t
  | .mpi (.mpi_transpose _ _ _ _ _ _ _ comm _) =>
      .allreduce (if k = COST_SUM then .MPI_SUM else .MPI_MAX) comm t
  | .serial _ => .unchanged t

/-- Modelled from the spec: the collective reduction of the process group,
`collectiveReduce(value, op)`: the sum, or the maximum, of the values that the
processes of the group contribute (listed by process index). -/
def MPI_Allreduce (op : MPI_Op) (ts : List ℚ) : ℚ :=
  match op with
  | .MPI_SUM => ts.sum
  | .MPI_MAX =>
      match ts with
      | [] => 0
      | t :: rest => rest.foldl max t

/-- `cost_hook` on one process.  `group_t` lists what the processes of the
communicator contribute to a collective call, by process index; the calling
process contributes its own `t`. -/
def cost_hook (group_t : List ℚ) (p : planner_problem) (t : ℚ) (k : Int) : ℚ :=
  match cost_hook_call p t k with
  | .unchanged t => t
  | .allreduce op comm t => MPI_Allreduce op (group_t.set comm.my_pe.toNat t)

/-! ## Division by zero -/

/-- C's `a / b` with the divisor checked: `none` is a division by zero. -/
def cdiv_checked (a b : Int) : Option Int := if b = 0 then none else some (cdiv a b)

/-- The two candidates `dft-rank-geq2` and `dft-rank-geq2 with dimensions
swapped` of `local_size_guru` with their divisions by `howmany` checked. -/
def guru_geq2_checked (my_pe n_pes rnk howmany : Int) (st : guru_state) :
    Option guru_state :=
  let st := geq2_transposed my_pe n_pes rnk st
  let sz := st.sz
  let N := st.N
  let Nafter := (sz.dims.drop 1).foldl (fun a d => a * d.n) howmany
  match cdiv_checked ((sz.dim 0).n
      * block Nafter (default_block Nafter n_pes) my_pe + howmany - 1) howmany with
  | none => none
  | some c1 =>
    let N := imax N c1
    let Nafter := (sz.dims.drop 2).foldl (fun a d => a * d.n) (howmany * (sz.dim 0).n)
    match cdiv_checked ((sz.dim 1).n
        * block Nafter (default_block Nafter n_pes) my_pe + howmany - 1) howmany with
    | none => none
    | some c2 => some { st with N := imax N c2 }

/-! ## Sizes in the arithmetic of `ptrdiff_t`

The definitions above compute over the integers.  The source computes sizes
in `INT`, which is `ptrdiff_t`, taken here as 64 bits wide: a sum or product
that leaves `[-2^63, 2^63)` is stored reduced modulo `2^64` (signed overflow
is undefined in C; this is what the compiled code does), and a division by
zero stops the process.  The definitions of this section follow the same
source lines with that arithmetic; the arguments are values of their C
types.  The divisors are `howmany`, the radix `r` and the block count `nb` of
`default_sz`.  The one other quotient that stops the process, `-2^63 / -1`,
is not modelled: it needs the divisor `-1`, and a batch count, a radix or a
block count of a request of the data model is not negative.  Block sizes,
block counts and offsets (`local_size`, the block arithmetic of
`mpi/block.c`) stay between `0` and the extents for a request of the data
model (`n_i ≥ 1`, hints in `[0, n_i]`, `n_pes ≥ 1`), and are taken over from
above. -/

/-- The largest value of `ptrdiff_t`, `2^63 - 1`. -/
def PTRDIFF_MAX : Int := 9223372036854775807

/-- The smallest value of `ptrdiff_t`, `-2^63`. -/
def PTRDIFF_MIN : Int := -9223372036854775808

/-- The integer `x` is a value of `ptrdiff_t`. -/
@[reducible] def in_range (x : Int) : Prop := PTRDIFF_MIN ≤ x ∧ x ≤ PTRDIFF_MAX

/-- The `ptrdiff_t` that the exact result `x` of a sum or product is stored
as: `x` reduced modulo `2^64` into `[-2^63, 2^63)`. -/
def wrap (x : Int) : Int :=
  (x + 9223372036854775808) % 18446744073709551616 - 9223372036854775808

/-- How a size query ends: it returns, it fails the assertion
`CK(sign == FFTW_FORWARD || sign == FFTW_BACKWARD)`, or it divides by zero. -/
inductive outcome (α : Type) where
  | ok (a : α)
  | assertion_failed
  | division_by_zero
  deriving DecidableEq, Repr

/-- `prod` in `ptrdiff_t`: every `N *= local_n[i]` is stored wrapped. -/
def prod_m (rnk : Int) (local_n : List Int) : Int :=
  (local_n.take rnk.toNat).foldl (fun N x => wrap (N * x)) 1

/-- Body of the loop `dft-rank-geq2-transposed` for index `i`, with `prod` in
`ptrdiff_t`. -/
def geq2_transposed_body_m (my_pe n_pes rnk : Int) (odims : ddim × ddim) (i : Nat)
    (st : guru_state) : guru_state :=
  let sz := st.sz
  let sz := sz.set_dim i ((sz.dim i).set_b IB (default_block (sz.dim i).n n_pes))
  let sz := sz.set_dim (1 - i) ((sz.dim (1 - i)).set_b IB (sz.dim (1 - i)).n)
  let l := local_size my_pe sz IB
  let N := imax st.N (prod_m rnk l.1)
  let sz := sz.set_dim i (if i = 0 then odims.1 else odims.2)
  let sz := sz.set_dim (1 - i) (if 1 - i = 0 then odims.1 else odims.2)
  { sz := sz, N := N, local_n_in := l.1, local_start_in := l.2 }

/-- The loop `dft-rank-geq2-transposed`, with `prod` in `ptrdiff_t`. -/
def geq2_transposed_m (my_pe n_pes rnk : Int) (st : guru_state) : guru_state :=
  let odims := (st.sz.dim 0, st.sz.dim 1)
  if geq2_transposed_test st.sz 0 then geq2_transposed_body_m my_pe n_pes rnk odims 0 st
  else if geq2_transposed_test st.sz 1 then geq2_transposed_body_m my_pe n_pes rnk odims 1 st
  else st

/-- The branch `rnk > 1` with one-dimensional block distributions, in
`ptrdiff_t`: `Nafter *= sz->dims[i].n`, the product with `sz->dims[0].n`, the
sum with `howmany` and the difference with `1` are stored wrapped, and the two
quotients by `howmany` are divisions by zero for `howmany = 0`. -/
def guru_geq2_m (my_pe n_pes rnk howmany : Int) (st : guru_state) : outcome guru_state :=
  let st := geq2_transposed_m my_pe n_pes rnk st
  let sz := st.sz
  let N := st.N
  let Nafter := (sz.dims.drop 1).foldl (fun a d => wrap (a * d.n)) howmany
  match cdiv_checked (wrap (wrap (wrap ((sz.dim 0).n
      * block Nafter (default_block Nafter n_pes) my_pe) + howmany) - 1)) howmany with
  | none => .division_by_zero
  | some c1 =>
    let N := imax N c1
    let Nafter := (sz.dims.drop 2).foldl (fun a d => wrap (a * d.n))
      (wrap (howmany * (sz.dim 0).n))
    match cdiv_checked (wrap (wrap (wrap ((sz.dim 1).n
        * block Nafter (default_block Nafter n_pes) my_pe) + howmany) - 1)) howmany with
    | none => .division_by_zero
    | some c2 => .ok { st with N := imax N c2 }

/-- The branch `dft-rank1-bigvec` in `ptrdiff_t`. -/
def guru_rank1_bigvec_m (my_pe n_pes howmany : Int) (st : guru_state) : outcome guru_state :=
  let sz := st.sz
  let sz2 : dtensor :=
    { dims := [ (sz.dim 0).set_b IB (sz.dim 0).n,
                { n := howmany, bIB := default_block howmany n_pes, bOB := howmany } ] }
  let l := local_size my_pe sz2 IB
  match cdiv_checked (wrap (wrap (prod_m 2 l.1 + howmany) - 1)) howmany with
  | none => .division_by_zero
  | some c => .ok { st with N := imax st.N c }

/-- The branch `dft-rank1` once the sign has been checked, in `ptrdiff_t`: the
four products of a radix-side block with a cofactor-side count are stored
wrapped.  (The quotient `sz->dims[0].n / r` is taken only for `r != 0`.) -/
def guru_rank1_radix_m (env : Env) (n_pes : Int) (sign : Int) (flags : Nat)
    (st : guru_state) : guru_state :=
  let c := env.choose_radix (st.sz.dim 0) n_pes flags sign
  if c.r ≠ 0 then
    let m := cdiv (st.sz.dim 0).n c.r
    let st :=
      if flags &&& env.FFTW_MPI_SCRAMBLED_IN ≠ 0 then
        { st with sz := st.sz.set_dim 0 ((st.sz.dim 0).set_b IB (wrap (c.rblock IB * m))) }
      else
        { st with sz := st.sz.set_dim 0 ((st.sz.dim 0).set_b IB (wrap (c.r * c.mblock IB))),
                  N := imax st.N (wrap (c.rblock IB * m)) }
    let st :=
      if flags &&& env.FFTW_MPI_SCRAMBLED_OUT ≠ 0 then
        { st with sz := st.sz.set_dim 0 ((st.sz.dim 0).set_b OB (wrap (c.r * c.mblock OB))) }
      else
        { st with N := imax st.N (wrap (c.r * c.mblock OB)),
                  sz := st.sz.set_dim 0 ((st.sz.dim 0).set_b OB (wrap (c.rblock OB * m))) }
    st
  else st

/-- The candidate computations of `local_size_guru` (between `N = 1` and the
final two calls of `local_size`) in `ptrdiff_t`. -/
def guru_candidates_m (env : Env) (rnk howmany my_pe n_pes sign : Int) (flags : Nat)
    (st : guru_state) : outcome guru_state :=
  if rnk > 1 ∧ is_block1d st.sz IB = true ∧ is_block1d st.sz OB = true then
    guru_geq2_m my_pe n_pes rnk howmany st
  else if rnk = 1 then
    if howmany >= n_pes ∧ flags = 0 then
      guru_rank1_bigvec_m my_pe n_pes howmany st
    else if sign = FFTW_FORWARD ∨ sign = FFTW_BACKWARD then
      .ok (guru_rank1_radix_m env n_pes sign flags st)
    else .assertion_failed
  else .ok st

/-- Inner loop of `default_sz` for block kind `k` with the division
`np = n_pes / nb` checked: `none` is a division by zero. -/
def default_sz_fill_m (k : block_kind) (n_pes : Int) :
    List ddim → List ddim → Int → Int → Option (List ddim)
  | d0 :: ds0, d :: ds, nb, np =>
      if np > 1 then
        if d0.b k = 0 then
          let d1 := d.set_b k (default_block d.n np)
          let nb1 := nb * num_blocks d1.n (d1.b k)
          match cdiv_checked n_pes nb1 with
          | none => none
          | some np1 => (default_sz_fill_m k n_pes ds0 ds nb1 np1).map (fun t => d1 :: t)
        else (default_sz_fill_m k n_pes ds0 ds nb np).map (fun t => d :: t)
      else some (d :: ds)
  | _, ds, _, _ => some ds

/-- Body of the loop over `k` in `default_sz`, with the divisions
`np = n_pes / nb` checked. -/
def default_sz_kind_m (k : block_kind) (n_pes : Int) (sz0 sz : dtensor) : Option dtensor :=
  let nb := num_blocks_total sz k
  match cdiv_checked n_pes nb with
  | none => none
  | some np => (default_sz_fill_m k n_pes sz0.dims sz.dims nb np).map (fun ds => { dims := ds })

/-- `default_sz` with the divisions `np = n_pes / nb` checked: `none` is a
division by zero, which happens when a block count is zero. -/
def default_sz_m (rnk : Int) (dims0 : List mpi_ddim) (n_pes : Int) : Option dtensor :=
  let sz0 := mkdtensor_api rnk dims0
  let sz := default_sz_start rnk dims0
  match default_sz_kind_m IB n_pes sz0 sz with
  | none => none
  | some sz =>
    match default_sz_kind_m OB n_pes sz0 sz with
    | none => none
    | some sz => some (dtensor_canonical sz)

/-- The value of `N` at `return N * howmany`: the running size of the
candidates, raised to the two products of the local extents of `st.sz`. -/
def guru_N_m (rnk my_pe : Int) (st : guru_state) : Int :=
  imax st.N (imax (prod_m rnk (local_size my_pe st.sz IB).1)
                  (prod_m rnk (local_size my_pe st.sz OB).1))

/-- `XM(local_size_guru)` in `ptrdiff_t`: `default_sz` runs with its divisions
checked, and the returned `N * howmany` is stored wrapped. -/
def local_size_guru_m (env : Env) (rnk : Int) (dims0 : List mpi_ddim) (howmany : Int)
    (comm : MPI_Comm) (sign : Int) (flags : Nat) : outcome local_size_result :=
  if rnk = 0 then
    .ok { ret := howmany, local_n_in := [], local_start_in := [],
          local_n_out := [], local_start_out := [] }
  else
    let my_pe := comm.my_pe
    let n_pes := comm.n_pes
    match default_sz_m rnk dims0 n_pes with
    | none => .division_by_zero
    | some sz =>
      match guru_candidates_m env rnk howmany my_pe n_pes sign flags
          { sz := sz, N := 1, local_n_in := [], local_start_in := [] } with
      | .assertion_failed => .assertion_failed
      | .division_by_zero => .division_by_zero
      | .ok st =>
          let l_in := local_size my_pe st.sz IB
          let l_out := local_size my_pe st.sz OB
          .ok { ret := wrap (guru_N_m rnk my_pe st * howmany),
                local_n_in := l_in.1, local_start_in := l_in.2,
                local_n_out := l_out.1, local_start_out := l_out.2 }

/-- An environment like `env_no_radix` whose radix selector answers radix `4`
for every length that is a multiple of 4, with the default blocks of the
radix and of the cofactor over the processes on both sides. -/
def env_radix4 : Env :=
  { env_no_radix with
    choose_radix := fun d n_pes _ _ =>
      if d.n % 4 = 0 then
        ⟨4, default_block 4 n_pes, default_block 4 n_pes,
            default_block (d.n / 4) n_pes, default_block (d.n / 4) n_pes⟩
      else ⟨0, 0, 0, 0, 0⟩ }

/-! ## Arithmetic of block counts -/

theorem cdiv_eq_ediv {a b : Int} (ha : 0 ≤ a) (hb : 0 ≤ b) : cdiv a b = a / b :=
  Int.tdiv_eq_ediv ha hb

theorem cmod_eq_emod {a b : Int} (ha : 0 ≤ a) (hb : 0 ≤ b) : cmod a b = a % b :=
  Int.tmod_eq_emod ha hb

/-- Rounding-up division: `(n + b - 1) / b ≤ p` exactly when `n ≤ p * b`. -/
theorem ceil_le_iff {n b : Int} (p : Int) (hn : 0 ≤ n) (hb : 0 < b) :
    cdiv (n + b - 1) b ≤ p ↔ n ≤ p * b := by
  rw [cdiv_eq_ediv (by omega) (by omega)]
  constructor
  · intro h
    have h1 : (n + b - 1) / b < p + 1 := by omega
    have h2 := (Int.ediv_lt_iff_lt_mul hb).1 h1
    have h3 : (p + 1) * b = p * b + b := by ring
    omega
  · intro h
    have h3 : (p + 1) * b = p * b + b := by ring
    have h2 : (n + b - 1) / b < p + 1 := (Int.ediv_lt_iff_lt_mul hb).2 (by omega)
    omega

theorem num_blocks_le_iff {n b : Int} (p : Int) (hn : 0 ≤ n) (hb : 0 < b) :
    num_blocks n b ≤ p ↔ n ≤ p * b := ceil_le_iff p hn hb

theorem default_block_le_iff {n p : Int} (b : Int) (hn : 0 ≤ n) (hp : 0 < p) :
    default_block n p ≤ b ↔ n ≤ b * p := ceil_le_iff b hn hp

theorem num_blocks_pos {n b : Int} (hn : 0 < n) (hb : 0 < b) : 0 < num_blocks n b := by
  by_contra h
  have h0 : num_blocks n b ≤ 0 := by omega
  have := (num_blocks_le_iff 0 (by omega) hb).1 h0
  omega

theorem default_block_pos {n p : Int} (hn : 0 < n) (hp : 0 < p) : 0 < default_block n p :=
  num_blocks_pos hn hp

theorem default_block_le_self {n p : Int} (hn : 0 < n) (hp : 0 < p) : default_block n p ≤ n := by
  rw [default_block_le_iff n (by omega) hp]
  nlinarith

theorem num_blocks_default_block_le {n p : Int} (hn : 0 < n) (hp : 0 < p) :
    num_blocks n (default_block n p) ≤ p := by
  rw [num_blocks_le_iff p (by omega) (default_block_pos hn hp)]
  have := (default_block_le_iff (default_block n p) (Int.le_of_lt hn) hp).1 (le_refl _)
  linarith [mul_comm p (default_block n p)]

/-! ## The size query for rank 0; the default block -/

theorem le_imax_left (a b : Int) : a ≤ imax a b := by
  unfold imax; split <;> omega

/-- C1: for rank 0 the size query returns exactly `howmany`, whatever the
communicator (process index and process count) is, and writes no local extent;
`local_size_many_transposed` with `rnk = 0` also returns `howmany` and
reports `local_nx = local_ny = 1`, `local_x_start = local_y_start = 0`. -/
theorem rank0_returns_howmany (env : Env) (dims0 : List mpi_ddim) (n : List Int)
    (howmany xblock yblock : Int) (comm : MPI_Comm) (sign : Int) (flags : Nat) :
    local_size_guru env 0 dims0 howmany comm sign flags
      = some { ret := howmany, local_n_in := [], local_start_in := [],
               local_n_out := [], local_start_out := [] } ∧
    local_size_many_transposed env 0 n howmany xblock yblock comm
      = some { ret := howmany, local_nx := 1, local_x_start := 0,
               local_ny := 1, local_y_start := 0 } := by
  constructor
  · simp [local_size_guru]
  · simp [local_size_many_transposed]

/-- C9: for `n > 0` and `p > 0` the default block `ceil(n/p)` needs at most
`p` blocks, and every positive block size below it needs more than `p`
blocks. -/
theorem default_block_minimal (n p : Int) (hn : 0 < n) (hp : 0 < p) :
    num_blocks n (default_block n p) ≤ p ∧
    ∀ b : Int, 0 < b → b < default_block n p → p < num_blocks n b := by
  refine ⟨num_blocks_default_block_le hn hp, ?_⟩
  intro b hb hlt
  by_contra hle
  have h1 : n ≤ p * b := (num_blocks_le_iff p (by omega) hb).1 (by omega)
  have h2 : default_block n p ≤ b :=
    (default_block_le_iff b (by omega) hp).2 (by linarith [mul_comm p b])
  omega

/-- C9 (witness): seventeen elements over four processes. -/
theorem default_block_minimal_witness :
    (0 : Int) < 17 ∧ (0 : Int) < 4 ∧
    num_blocks 17 (default_block 17 4) ≤ 4 ∧
    ∀ b : Int, 0 < b → b < default_block 17 4 → 4 < num_blocks 17 b :=
  ⟨by decide, by decide, default_block_minimal 17 4 (by decide) (by decide)⟩

/-! ## The canonical distribution keeps what the caller specified -/

theorem set_b_n (d : ddim) (k : block_kind) (v : Int) : (d.set_b k v).n = d.n := by
  cases k <;> rfl

theorem set_b_same (d : ddim) (k : block_kind) (v : Int) : (d.set_b k v).b k = v := by
  cases k <;> rfl

theorem set_b_other (d : ddim) (k k1 : block_kind) (v : Int) (h : k1 ≠ k) :
    (d.set_b k v).b k1 = d.b k1 := by
  cases k <;> cases k1 <;> first | rfl | exact absurd rfl h

/-- One pass of the fill loop for kind `k` keeps the rank. -/
theorem default_sz_fill_length (k : block_kind) (n_pes : Int) (ds0 ds : List ddim) (nb np : Int) :
    (default_sz_fill k n_pes ds0 ds nb np).length = ds.length := by
  induction ds0 generalizing ds nb np with
  | nil => simp [default_sz_fill]
  | cons d0 ds0 ih =>
    cases ds with
    | nil => simp [default_sz_fill]
    | cons d ds =>
      unfold default_sz_fill
      split
      · split
        · simp [ih]
        · simp [ih]
      · rfl

/-- One pass of the fill loop for kind `k` keeps every extent, every block
size of the other kind, and every block size of kind `k` whose hint in `sz0`
is not zero. -/
theorem default_sz_fill_get (k : block_kind) (n_pes : Int) (ds0 ds : List ddim) (nb np : Int)
    (i : Nat) (d0 d : ddim) (h0 : ds0[i]? = some d0) (h : ds[i]? = some d) :
    ∃ d1, (default_sz_fill k n_pes ds0 ds nb np)[i]? = some d1 ∧ d1.n = d.n ∧
      (∀ k1, k1 ≠ k → d1.b k1 = d.b k1) ∧ (d0.b k ≠ 0 → d1.b k = d.b k) := by
  induction ds0 generalizing ds nb np i with
  | nil => simp at h0
  | cons e0 ds0 ih =>
    cases ds with
    | nil => simp at h
    | cons e ds =>
      unfold default_sz_fill
      split
      · split
        · rename_i hz
          cases i with
          | zero =>
            simp only [List.getElem?_cons_zero, Option.some.injEq] at h0 h ⊢
            subst h0; subst h
            exact ⟨_, rfl, set_b_n _ _ _, fun k1 hk => set_b_other _ _ _ _ hk,
              fun hne => absurd hz hne⟩
          | succ j =>
            simp only [List.getElem?_cons_succ] at h0 h ⊢
            exact ih _ _ _ _ h0 h
        · cases i with
          | zero =>
            simp only [List.getElem?_cons_zero, Option.some.injEq] at h0 h ⊢
            subst h
            exact ⟨_, rfl, rfl, fun _ _ => rfl, fun _ => rfl⟩
          | succ j =>
            simp only [List.getElem?_cons_succ] at h0 h ⊢
            exact ih _ _ _ _ h0 h
      · exact ⟨d, h, rfl, fun _ _ => rfl, fun _ => rfl⟩

/-- Dimension `i` of the distribution built by the two loops of `default_sz`:
the extent is the request's, and a hint that is not zero is the block size. -/
theorem default_sz_blocks_get (rnk : Int) (dims0 : List mpi_ddim) (n_pes : Int) (i : Nat)
    (d0 : mpi_ddim) (h0 : (dims0.take rnk.toNat)[i]? = some d0) :
    ∃ d, (default_sz_blocks rnk dims0 n_pes).dims[i]? = some d ∧ d.n = d0.n ∧
      ∀ k, d0.hint k ≠ 0 → d.b k = d0.hint k := by
  have hs0 : (mkdtensor_api rnk dims0).dims[i]? = some ⟨d0.n, d0.ib, d0.ob⟩ := by
    simp only [mkdtensor_api, List.getElem?_map, h0, Option.map_some']
  have hs : (default_sz_start rnk dims0).dims[i]?
      = some ⟨d0.n, if d0.ib ≠ 0 then d0.ib else d0.n, if d0.ob ≠ 0 then d0.ob else d0.n⟩ := by
    simp only [default_sz_start, List.getElem?_map, h0, Option.map_some']
  obtain ⟨d1, hd1, hn1, ho1, hk1⟩ := default_sz_fill_get IB n_pes _ _
    (num_blocks_total (default_sz_start rnk dims0) IB)
    (cdiv n_pes (num_blocks_total (default_sz_start rnk dims0) IB)) i _ _ hs0 hs
  obtain ⟨d2, hd2, hn2, ho2, hk2⟩ := default_sz_fill_get OB n_pes _ _
    (num_blocks_total (default_sz_kind IB n_pes (mkdtensor_api rnk dims0)
      (default_sz_start rnk dims0)) OB)
    (cdiv n_pes (num_blocks_total (default_sz_kind IB n_pes (mkdtensor_api rnk dims0)
      (default_sz_start rnk dims0)) OB)) i _ _ hs0 hd1
  refine ⟨d2, hd2, by rw [hn2, hn1], ?_⟩
  intro k hk
  cases k with
  | IB =>
    have hk0 : d0.ib ≠ 0 := hk
    rw [ho2 IB (by decide), hk1 hk]
    simp [ddim.b, mpi_ddim.hint, hk0]
  | OB =>
    have hk0 : d0.ob ≠ 0 := hk
    rw [hk2 hk, ho1 OB (by decide)]
    simp [ddim.b, mpi_ddim.hint, hk0]

theorem num_blocks_eq_one_iff {n b : Int} (hn : 0 < n) (hb : 0 < b) :
    num_blocks n b = 1 ↔ n ≤ b := by
  have h1 := num_blocks_le_iff (n := n) (b := b) 1 (by omega) hb
  have h2 := num_blocks_pos hn hb
  constructor
  · intro h; have := h1.1 (by omega); omega
  · intro h; have := h1.2 (by omega); omega

/-- C8: a block hint that is not zero (and lies in `[1, n_i]`) is the block
size of that dimension and kind in the canonical distribution, for every
process count and whatever the other hints are; the two fill loops of
`default_sz` compute a block size only for a hint that is zero (a hint that
is not zero is still the block size when the loops are done). -/
theorem default_sz_keeps_hints (rnk : Int) (dims0 : List mpi_ddim) (n_pes : Int) (i : Nat)
    (d0 : mpi_ddim) (k : block_kind) (h0 : (dims0.take rnk.toNat)[i]? = some d0) :
    (1 ≤ d0.hint k → d0.hint k ≤ d0.n →
      ((default_sz rnk dims0 n_pes).dims[i]?).map (fun d => d.b k) = some (d0.hint k)) ∧
    (d0.hint k ≠ 0 →
      ((default_sz_blocks rnk dims0 n_pes).dims[i]?).map (fun d => d.b k)
        = some (d0.hint k)) := by
  obtain ⟨d, hd, hn, hb⟩ := default_sz_blocks_get rnk dims0 n_pes i d0 h0
  refine ⟨fun h1 h2 => ?_, fun hne => by simp [hd, hb k hne]⟩
  have hbk : d.b k = d0.hint k := hb k (by omega)
  simp only [default_sz, dtensor_canonical, List.getElem?_map, hd, Option.map_some',
    Option.some.injEq]
  have hone : num_blocks d.n (d.b k) = 1 ↔ d.n ≤ d.b k :=
    num_blocks_eq_one_iff (by omega) (by omega)
  cases k with
  | IB =>
    simp only [ddim.b] at hbk hone ⊢
    by_cases hc : num_blocks d.n d.bIB = 1
    · simp only [hc, if_true]; have := hone.1 hc; omega
    · simp only [hc, if_false]; exact hbk
  | OB =>
    simp only [ddim.b] at hbk hone ⊢
    by_cases hc : num_blocks d.n d.bOB = 1
    · simp only [hc, if_true]; have := hone.1 hc; omega
    · simp only [hc, if_false]; exact hbk

/-- C8 (witness): the output hint `2` of the second dimension of a 12 x 8
request over four processes. -/
theorem default_sz_keeps_hints_witness :
    ([⟨12, 0, 0⟩, ⟨8, 0, 2⟩].take (2 : Int).toNat)[1]? = some (⟨8, 0, 2⟩ : mpi_ddim) ∧
    1 ≤ (⟨8, 0, 2⟩ : mpi_ddim).hint OB ∧ (⟨8, 0, 2⟩ : mpi_ddim).hint OB ≤ 8 ∧
    default_sz 2 [⟨12, 0, 0⟩, ⟨8, 0, 2⟩] 4 = ⟨[⟨12, 3, 12⟩, ⟨8, 8, 2⟩]⟩ ∧
    ((default_sz 2 [⟨12, 0, 0⟩, ⟨8, 0, 2⟩] 4).dims[1]?).map (fun d => d.b OB) = some 2 :=
  ⟨by decide, by decide, by decide, by decide,
   (default_sz_keeps_hints 2 [⟨12, 0, 0⟩, ⟨8, 0, 2⟩] 4 1 ⟨8, 0, 2⟩ OB (by decide)).1
     (by decide) (by decide)⟩

/-! ## Plan construction: which requests reach the planner -/

/-- The three ways `plan_guru_dft` ends. -/
theorem plan_guru_dft_call_cases (rnk : Int) (dims0 : List mpi_ddim) (howmany : Int)
    (inp out : Nat) (comm : MPI_Comm) (sign : Int) (flags : Nat) :
    ((howmany < 0 ∨ rnk < 1 ∨
       (∃ d ∈ dims0.take rnk.toNat, d.n < 1 ∨ d.ib < 0 ∨ d.ob < 0) ∨
       num_blocks_total (default_sz rnk dims0 comm.n_pes) IB > comm.n_pes ∨
       num_blocks_total (default_sz rnk dims0 comm.n_pes) OB > comm.n_pes) ∧
      plan_guru_dft_call rnk dims0 howmany inp out comm sign flags = .absent) ∨
    (¬ (howmany < 0 ∨ rnk < 1 ∨
       (∃ d ∈ dims0.take rnk.toNat, d.n < 1 ∨ d.ib < 0 ∨ d.ob < 0) ∨
       num_blocks_total (default_sz rnk dims0 comm.n_pes) IB > comm.n_pes ∨
       num_blocks_total (default_sz rnk dims0 comm.n_pes) OB > comm.n_pes) ∧
      plan_guru_dft_call rnk dims0 howmany inp out comm sign flags
       = .mkapiplan sign flags
           (.mpi_dft (default_sz rnk dims0 comm.n_pes) howmany inp out comm sign
             (flags >>> 28))) := by
  unfold plan_guru_dft_call MPI_FLAGS
  by_cases h1 : howmany < 0 ∨ rnk < 1
  · left
    simp only [h1, if_true, and_true]
    rcases h1 with h | h
    · exact Or.inl h
    · exact Or.inr (Or.inl h)
  · by_cases h2 : (dims0.take rnk.toNat).any
        (fun d => decide (d.n < 1 ∨ d.ib < 0 ∨ d.ob < 0)) = true
    · left
      simp only [h1, h2, if_true, if_false, and_true]
      rw [List.any_eq_true] at h2
      obtain ⟨d, hd, hp⟩ := h2
      exact Or.inr (Or.inr (Or.inl ⟨d, hd, of_decide_eq_true hp⟩))
    · by_cases h3 : num_blocks_total (default_sz rnk dims0 comm.n_pes) IB > comm.n_pes ∨
          num_blocks_total (default_sz rnk dims0 comm.n_pes) OB > comm.n_pes
      · left
        refine ⟨Or.inr (Or.inr (Or.inr h3)), ?_⟩
        simp only [h1, h2, if_false]
        exact if_pos h3
      · right
        refine ⟨?_, ?_⟩
        · rintro (h | h | ⟨d, hd, hp⟩ | h)
          · exact h1 (Or.inl h)
          · exact h1 (Or.inr h)
          · exact h2 (List.any_eq_true.2 ⟨d, hd, decide_eq_true hp⟩)
          · exact h3 h
        · simp only [h1, h2, if_false]
          exact if_neg h3

/-- C6: `plan_guru_dft` returns the absent plan without reaching the planner
exactly when `howmany < 0`, or `rnk < 1`, or some dimension has `n < 1`,
`ib < 0` or `ob < 0`, or the canonical distribution needs more than `n_pes`
blocks on the input side or on the output side; in every other case it
returns what the planner yields for the distributed-DFT problem built from the
canonical distribution, `howmany`, `sign` and `flags >> 28`. -/
theorem plan_guru_dft_outcome (env : Env) (st : mpi_state) (rnk : Int)
    (dims0 : List mpi_ddim) (howmany : Int) (inp out : Nat) (comm : MPI_Comm) (sign : Int)
    (flags : Nat) :
    (plan_guru_dft_call rnk dims0 howmany inp out comm sign flags = .absent ↔
      (howmany < 0 ∨ rnk < 1 ∨
       (∃ d ∈ dims0.take rnk.toNat, d.n < 1 ∨ d.ib < 0 ∨ d.ob < 0) ∨
       num_blocks_total (default_sz rnk dims0 comm.n_pes) IB > comm.n_pes ∨
       num_blocks_total (default_sz rnk dims0 comm.n_pes) OB > comm.n_pes)) ∧
    ((plan_guru_dft_call rnk dims0 howmany inp out comm sign flags = .absent ∧
      (plan_guru_dft env st rnk dims0 howmany inp out comm sign flags).2 = 0) ∨
     (plan_guru_dft_call rnk dims0 howmany inp out comm sign flags
        = .mkapiplan sign flags
           (.mpi_dft (default_sz rnk dims0 comm.n_pes) howmany inp out comm sign
             (flags >>> 28)) ∧
      (plan_guru_dft env st rnk dims0 howmany inp out comm sign flags).2
        = env.mkapiplan (init env st) sign flags
           (.mpi_dft (default_sz rnk dims0 comm.n_pes) howmany inp out comm sign
             (flags >>> 28)))) := by
  rcases plan_guru_dft_call_cases rnk dims0 howmany inp out comm sign flags with ⟨hr, hc⟩ | ⟨hr, hc⟩
  · refine ⟨⟨fun _ => hr, fun _ => hc⟩, Or.inl ⟨hc, ?_⟩⟩
    simp only [plan_guru_dft, hc, plan_call.value]
  · refine ⟨⟨fun h => ?_, fun h => absurd h hr⟩, Or.inr ⟨hc, ?_⟩⟩
    · rw [hc] at h; cases h
    · simp only [plan_guru_dft, hc, plan_call.value]

/-- The two ways `plan_many_transpose` ends. -/
theorem plan_many_transpose_call_cases (nx ny howmany xblock yblock : Int) (inp out : Nat)
    (comm : MPI_Comm) (flags : Nat) :
    ((howmany < 0 ∨ xblock < 0 ∨ yblock < 0 ∨ nx ≤ 0 ∨ ny ≤ 0 ∨
        comm.n_pes < num_blocks nx
          (if xblock = 0 then default_block nx comm.n_pes else xblock) ∨
        comm.n_pes < num_blocks ny
          (if yblock = 0 then default_block ny comm.n_pes else yblock)) ∧
      plan_many_transpose_call nx ny howmany xblock yblock inp out comm flags = .absent) ∨
    (¬ (howmany < 0 ∨ xblock < 0 ∨ yblock < 0 ∨ nx ≤ 0 ∨ ny ≤ 0 ∨
        comm.n_pes < num_blocks nx
          (if xblock = 0 then default_block nx comm.n_pes else xblock) ∨
        comm.n_pes < num_blocks ny
          (if yblock = 0 then default_block ny comm.n_pes else yblock)) ∧
      plan_many_transpose_call nx ny howmany xblock yblock inp out comm flags
        = .mkapiplan FFTW_FORWARD flags
            (.mpi_transpose nx ny howmany inp out
              (if xblock = 0 then default_block nx comm.n_pes else xblock)
              (if yblock = 0 then default_block ny comm.n_pes else yblock)
              comm (flags >>> 28))) := by
  unfold plan_many_transpose_call MPI_FLAGS
  by_cases h1 : howmany < 0 ∨ xblock < 0 ∨ yblock < 0 ∨ nx ≤ 0 ∨ ny ≤ 0
  · left
    refine ⟨by tauto, ?_⟩
    simp only [h1, if_true]
  · by_cases h2 : comm.n_pes < num_blocks nx
          (if xblock = 0 then default_block nx comm.n_pes else xblock) ∨
        comm.n_pes < num_blocks ny
          (if yblock = 0 then default_block ny comm.n_pes else yblock)
    · left
      refine ⟨by tauto, ?_⟩
      simp only [h1, if_false]
      exact if_pos h2
    · right
      refine ⟨by tauto, ?_⟩
      simp only [h1, if_false]
      exact if_neg h2

/-- C7: `plan_many_transpose` returns the absent plan before reaching the
planner exactly when `howmany < 0`, `xblock < 0`, `yblock < 0`, `nx ≤ 0`,
`ny ≤ 0`, or one of the two block counts exceeds `n_pes` (a zero block is
first replaced by the default block); otherwise it returns what the planner
yields for the transpose problem.  With both blocks zero (`plan_transpose`),
`nx, ny ≥ 1` and `n_pes ≥ 1` the request always reaches the planner, with
blocks `ceil(nx/n_pes)` and `ceil(ny/n_pes)`. -/
theorem plan_many_transpose_outcome (env : Env) (st : mpi_state)
    (nx ny howmany xblock yblock : Int) (inp out : Nat) (comm : MPI_Comm) (flags : Nat) :
    (plan_many_transpose_call nx ny howmany xblock yblock inp out comm flags = .absent ↔
      (howmany < 0 ∨ xblock < 0 ∨ yblock < 0 ∨ nx ≤ 0 ∨ ny ≤ 0 ∨
        comm.n_pes < num_blocks nx
          (if xblock = 0 then default_block nx comm.n_pes else xblock) ∨
        comm.n_pes < num_blocks ny
          (if yblock = 0 then default_block ny comm.n_pes else yblock))) ∧
    ((plan_many_transpose_call nx ny howmany xblock yblock inp out comm flags = .absent ∧
      (plan_many_transpose env st nx ny howmany xblock yblock inp out comm flags).2 = 0) ∨
     (plan_many_transpose_call nx ny howmany xblock yblock inp out comm flags
        = .mkapiplan FFTW_FORWARD flags
            (.mpi_transpose nx ny howmany inp out
              (if xblock = 0 then default_block nx comm.n_pes else xblock)
              (if yblock = 0 then default_block ny comm.n_pes else yblock)
              comm (flags >>> 28)) ∧
      (plan_many_transpose env st nx ny howmany xblock yblock inp out comm flags).2
        = env.mkapiplan (init env st) FFTW_FORWARD flags
            (.mpi_transpose nx ny howmany inp out
              (if xblock = 0 then default_block nx comm.n_pes else xblock)
              (if yblock = 0 then default_block ny comm.n_pes else yblock)
              comm (flags >>> 28)))) ∧
    (1 ≤ nx → 1 ≤ ny → 1 ≤ comm.n_pes →
      plan_transpose_call nx ny inp out comm flags
        = .mkapiplan FFTW_FORWARD flags
            (.mpi_transpose nx ny 1 inp out (default_block nx comm.n_pes)
              (default_block ny comm.n_pes) comm (flags >>> 28)) ∧
      (plan_transpose env st nx ny inp out comm flags).2
        = env.mkapiplan (init env st) FFTW_FORWARD flags
            (.mpi_transpose nx ny 1 inp out (default_block nx comm.n_pes)
              (default_block ny comm.n_pes) comm (flags >>> 28))) := by
  refine ⟨?_, ?_, ?_⟩
  · rcases plan_many_transpose_call_cases nx ny howmany xblock yblock inp out comm flags
      with ⟨hr, hc⟩ | ⟨hr, hc⟩
    · exact ⟨fun _ => hr, fun _ => hc⟩
    · refine ⟨fun h => ?_, fun h => absurd h hr⟩
      rw [hc] at h; cases h
  · rcases plan_many_transpose_call_cases nx ny howmany xblock yblock inp out comm flags
      with ⟨-, hc⟩ | ⟨-, hc⟩
    · exact Or.inl ⟨hc, by simp only [plan_many_transpose, hc, plan_call.value]⟩
    · exact Or.inr ⟨hc, by simp only [plan_many_transpose, hc, plan_call.value]⟩
  · intro hx hy hp
    have hbx := num_blocks_default_block_le (n := nx) (p := comm.n_pes) (by omega) (by omega)
    have hby := num_blocks_default_block_le (n := ny) (p := comm.n_pes) (by omega) (by omega)
    rcases plan_many_transpose_call_cases nx ny 1 0 0 inp out comm flags
      with ⟨hr, -⟩ | ⟨-, hc⟩
    · simp only [if_true] at hr
      omega
    · simp only [if_true] at hc
      exact ⟨hc, by
        simp only [plan_transpose, plan_many_transpose, FFTW_MPI_DEFAULT_BLOCK, hc,
          plan_call.value]⟩

/-- C7 (witness): a 12 x 8 transpose over five processes reaches the planner
with blocks 3 and 2. -/
theorem plan_many_transpose_outcome_witness :
    (1 : Int) ≤ 12 ∧ (1 : Int) ≤ 8 ∧ (1 : Int) ≤ 5 ∧
    plan_transpose_call 12 8 0 0 ⟨0, 5⟩ 0
        = .mkapiplan FFTW_FORWARD 0 (.mpi_transpose 12 8 1 0 0 3 2 ⟨0, 5⟩ 0) ∧
    (plan_transpose env_no_radix ⟨false, ⟨false, []⟩⟩ 12 8 0 0 ⟨0, 5⟩ 0).2 = 1 :=
  ⟨by decide, by decide, by decide,
   (plan_many_transpose_outcome env_no_radix ⟨false, ⟨false, []⟩⟩ 12 8 1 0 0 0 0 ⟨0, 5⟩ 0).2.2
     (by decide) (by decide) (by decide)⟩

/-! ## Rank 1: what happens when no radix is found -/

/-- C10 (counterexample): `nx = 17` on four processes, sign forward, no
flags, `howmany = 1`, with a radix selector that returns the failure sentinel
`0`: the size query on process 0 returns the ordinary size `5` with the
non-empty local extent `[0, 5)` of the default block distribution. -/
theorem no_radix_still_reports_default_size :
    (env_no_radix.choose_radix ((default_sz 1 [⟨17, 0, 0⟩] 4).dim 0) 4 0 FFTW_FORWARD).r = 0 ∧
    default_sz 1 [⟨17, 0, 0⟩] 4 = ⟨[⟨17, 5, 5⟩]⟩ ∧
    local_size_guru env_no_radix 1 [⟨17, 0, 0⟩] 1 ⟨0, 4⟩ FFTW_FORWARD 0
      = some { ret := 5, local_n_in := [5], local_start_in := [0],
               local_n_out := [5], local_start_out := [0] } := by
  decide

/-- C10 (amended): a rank-1 size query that reaches radix selection
(`howmany < n_pes` or flags set, sign forward or backward) and for which the
radix selector returns `0` returns the size of the default block
distribution, `max(1, prod local_n_in, prod local_n_out) * howmany`, with the
local extents `local_size` gives for the canonical distribution. -/
theorem no_radix_falls_back_to_default (env : Env) (dims0 : List mpi_ddim) (howmany : Int)
    (comm : MPI_Comm) (sign : Int) (flags : Nat)
    (hreach : ¬ (howmany ≥ comm.n_pes ∧ flags = 0))
    (hsign : sign = FFTW_FORWARD ∨ sign = FFTW_BACKWARD)
    (hfail : (env.choose_radix ((default_sz 1 dims0 comm.n_pes).dim 0) comm.n_pes flags sign).r
      = 0) :
    local_size_guru env 1 dims0 howmany comm sign flags
      = some
          { ret := imax 1 (imax
                (prod 1 (local_size comm.my_pe (default_sz 1 dims0 comm.n_pes) IB).1)
                (prod 1 (local_size comm.my_pe (default_sz 1 dims0 comm.n_pes) OB).1)) * howmany,
            local_n_in := (local_size comm.my_pe (default_sz 1 dims0 comm.n_pes) IB).1,
            local_start_in := (local_size comm.my_pe (default_sz 1 dims0 comm.n_pes) IB).2,
            local_n_out := (local_size comm.my_pe (default_sz 1 dims0 comm.n_pes) OB).1,
            local_start_out := (local_size comm.my_pe (default_sz 1 dims0 comm.n_pes) OB).2 } := by
  have hc : guru_candidates env 1 howmany comm.my_pe comm.n_pes sign flags
      { sz := default_sz 1 dims0 comm.n_pes, N := 1, local_n_in := [], local_start_in := [] }
      = some { sz := default_sz 1 dims0 comm.n_pes, N := 1, local_n_in := [],
               local_start_in := [] } := by
    have h1 : ¬ ((1 : Int) > 1 ∧
        is_block1d (default_sz 1 dims0 comm.n_pes) IB = true ∧
        is_block1d (default_sz 1 dims0 comm.n_pes) OB = true) := by omega
    simp only [guru_candidates, h1, hreach, hsign, if_true, if_false, guru_rank1_radix, hfail,
      ne_eq, not_true_eq_false]
  simp only [local_size_guru, hc, one_ne_zero, if_false]

/-- C10 (witness): seventeen elements over four processes, sign forward, no
flags, on the last process. -/
theorem no_radix_falls_back_to_default_witness :
    ¬ ((1 : Int) ≥ 4 ∧ (0 : Nat) = 0) ∧
    (FFTW_FORWARD = FFTW_FORWARD ∨ FFTW_FORWARD = FFTW_BACKWARD) ∧
    local_size_guru env_no_radix 1 [⟨17, 0, 0⟩] 1 ⟨3, 4⟩ FFTW_FORWARD 0
      = some { ret := 2, local_n_in := [2], local_start_in := [15],
               local_n_out := [2], local_start_out := [15] } :=
  ⟨by decide, by decide,
   no_radix_falls_back_to_default env_no_radix [⟨17, 0, 0⟩] 1 ⟨3, 4⟩ FFTW_FORWARD 0
     (by decide) (by decide) (by decide)⟩

/-! ## The loop for the transposed intermediate restores the distribution -/

/-- The loop `dft-rank-geq2-transposed` hands the distribution back as it
found it. -/
theorem geq2_transposed_sz (my_pe n_pes rnk : Int) (st : guru_state) :
    (geq2_transposed my_pe n_pes rnk st).sz = st.sz := by
  obtain ⟨⟨l⟩, N, a, b⟩ := st
  unfold geq2_transposed
  split
  · rcases l with _ | ⟨x, _ | ⟨y, l⟩⟩ <;>
      simp [geq2_transposed_body, dtensor.set_dim, dtensor.dim]
  · split
    · rcases l with _ | ⟨x, _ | ⟨y, l⟩⟩ <;>
        simp [geq2_transposed_body, dtensor.set_dim, dtensor.dim]
    · rfl

theorem guru_geq2_sz (my_pe n_pes rnk howmany : Int) (st : guru_state) :
    (guru_geq2 my_pe n_pes rnk howmany st).sz = st.sz := by
  simp only [guru_geq2, geq2_transposed_sz]

/-! ## Tiling of the global index space -/

theorem foldl_mul_eq (f : ddim → Int) (l : List ddim) (a : Int) :
    l.foldl (fun ntot d => ntot * f d) a = a * (l.map f).prod := by
  induction l generalizing a with
  | nil => simp
  | cons d l ih => simp [ih, mul_assoc]

theorem num_blocks_total_eq_prod (sz : dtensor) (k : block_kind) :
    num_blocks_total sz k = (sz.dims.map (fun d => num_blocks_kind d k)).prod := by
  simp [num_blocks_total, foldl_mul_eq]

theorem num_blocks_total_cons (d : ddim) (l : List ddim) (k : block_kind) :
    num_blocks_total ⟨d :: l⟩ k = num_blocks_kind d k * num_blocks_total ⟨l⟩ k := by
  simp [num_blocks_total_eq_prod]

theorem num_blocks_total_reverse (l : List ddim) (k : block_kind) :
    num_blocks_total ⟨l.reverse⟩ k = num_blocks_total ⟨l⟩ k := by
  simp only [num_blocks_total_eq_prod, List.map_reverse, List.prod_reverse]

theorem num_blocks_total_pos (l : List ddim) (k : block_kind)
    (hl : ∀ d ∈ l, 1 ≤ d.n ∧ 1 ≤ d.b k) : 0 < num_blocks_total ⟨l⟩ k := by
  induction l with
  | nil => simp [num_blocks_total]
  | cons d l ih =>
    rw [num_blocks_total_cons]
    have h1 := hl d (List.mem_cons_self d l)
    have h2 : 0 < num_blocks_kind d k := num_blocks_pos (by omega) (by omega)
    exact Int.mul_pos h2 (ih (fun e he => hl e (List.mem_cons_of_mem d he)))

theorem block_coords_loop_length (k : block_kind) (l : List ddim) (pe : Int) :
    (block_coords_loop k l pe).length = l.length := by
  induction l generalizing pe with
  | nil => rfl
  | cons d l ih => simp [block_coords_loop, ih]

theorem zip_zipWith_same {α β γ δ : Type} (f : α → β → γ) (g : α → β → δ) (l : List α)
    (cs : List β) :
    List.zip (List.zipWith f l cs) (List.zipWith g l cs)
      = List.zipWith (fun a c => (f a c, g a c)) l cs := by
  induction l generalizing cs with
  | nil => simp
  | cons a l ih =>
    cases cs with
    | nil => simp
    | cons c cs => simp [ih]

/-- The block of index `c` along one dimension contains `xi` exactly when
`c` is the quotient of `xi` by the block size. -/
theorem in_block_iff {n b xi : Int} (c : Int) (hb : 1 ≤ b) (hxn : xi < n) :
    (c * b ≤ xi ∧ xi < c * b + block n b c) ↔ c = xi / b := by
  have key := Int.ediv_emod_unique (a := xi) (b := b) (r := xi - c * b) (q := c) (by omega)
  have hcomm : b * c = c * b := mul_comm b c
  constructor
  · rintro ⟨h1, h2⟩
    have hblk : block n b c ≤ b := by
      unfold block; simp only; split
      · omega
      · split <;> omega
    exact ((key.2 ⟨by omega, by omega, by omega⟩).1).symm
  · intro hc
    have hmod := Int.emod_nonneg xi (show b ≠ 0 by omega)
    have hmod2 := Int.emod_lt_of_pos xi (show 0 < b by omega)
    have hdiv := Int.ediv_add_emod xi b
    rw [← hc, hcomm] at hdiv
    refine ⟨by omega, ?_⟩
    unfold block; simp only
    split
    · omega
    · split <;> omega

/-- In loop order (last dimension first): among the process indices below
the total block count, exactly one has a box that contains the index tuple
`y`. -/
theorem loop_box_unique (k : block_kind) (l : List ddim) (y : List Int)
    (hl : ∀ d ∈ l, 1 ≤ d.n ∧ 1 ≤ d.b k)
    (hy : List.Forall₂ (fun (d : ddim) (xi : Int) => 0 ≤ xi ∧ xi < d.n) l y) :
    ∃ pe0, 0 ≤ pe0 ∧ pe0 < num_blocks_total ⟨l⟩ k ∧
      ∀ pe, 0 ≤ pe → pe < num_blocks_total ⟨l⟩ k →
        (List.Forall₂ (fun (xi : Int) (p : Int × Int) => p.2 ≤ xi ∧ xi < p.2 + p.1) y
          (List.zipWith (fun d c => (block d.n (d.b k) c, c * d.b k)) l
            (block_coords_loop k l pe))
          ↔ pe = pe0) := by
  induction hy with
  | nil =>
    refine ⟨0, le_refl _, by simp [num_blocks_total], ?_⟩
    intro pe h0 h1
    simp only [num_blocks_total, List.foldl_nil] at h1
    simp only [block_coords_loop, List.zipWith_nil_right, List.Forall₂.nil, true_iff]
    omega
  | @cons d xi l y hd _ ih =>
    have hdl := hl d (List.mem_cons_self d l)
    obtain ⟨pe1, h10, h11, h1u⟩ := ih (fun e he => hl e (List.mem_cons_of_mem d he))
    have hnb : 0 < num_blocks_kind d k := num_blocks_pos (by omega) (by omega)
    have hcov : d.n ≤ num_blocks_kind d k * d.b k :=
      (num_blocks_le_iff (num_blocks_kind d k) (by omega) (by omega)).1 (le_refl _)
    have hc0 : 0 ≤ xi / d.b k := Int.ediv_nonneg hd.1 (by omega)
    have hc1 : xi / d.b k < num_blocks_kind d k :=
      Int.ediv_lt_of_lt_mul (by omega) (by omega)
    have hmul : num_blocks_kind d k * pe1
        ≤ num_blocks_kind d k * (num_blocks_total ⟨l⟩ k - 1) :=
      Int.mul_le_mul_of_nonneg_left (by omega) (by omega)
    have hexp : num_blocks_kind d k * (num_blocks_total ⟨l⟩ k - 1)
        = num_blocks_kind d k * num_blocks_total ⟨l⟩ k - num_blocks_kind d k := by ring
    have hnn : 0 ≤ num_blocks_kind d k * pe1 := Int.mul_nonneg (by omega) h10
    refine ⟨xi / d.b k + num_blocks_kind d k * pe1, by omega, ?_, ?_⟩
    · rw [num_blocks_total_cons]; omega
    · intro pe h0 h1
      rw [num_blocks_total_cons] at h1
      have hq0 : 0 ≤ pe / num_blocks_kind d k := Int.ediv_nonneg h0 (by omega)
      have hq1 : pe / num_blocks_kind d k < num_blocks_total ⟨l⟩ k :=
        Int.ediv_lt_of_lt_mul hnb (by rw [mul_comm]; exact h1)
      simp only [block_coords_loop, List.zipWith_cons_cons, List.forall₂_cons,
        cmod_eq_emod h0 (Int.le_of_lt hnb), cdiv_eq_ediv h0 (Int.le_of_lt hnb)]
      rw [h1u _ hq0 hq1, in_block_iff _ hdl.2 hd.2]
      have key := Int.ediv_emod_unique (a := pe) (b := num_blocks_kind d k)
        (r := xi / d.b k) (q := pe1) hnb
      constructor
      · rintro ⟨h2, h3⟩
        have := (key.1 ⟨h3, h2⟩).1
        omega
      · intro h
        have := key.2 ⟨by omega, hc0, hc1⟩
        exact ⟨this.2, this.1⟩

/-- The first `j` blocks of a dimension hold `min(n, j * b)` elements. -/
theorem sum_block_range (n b : Int) (hn : 0 ≤ n) (hb : 1 ≤ b) (j : Nat) :
    ∑ i ∈ Finset.range j, block n b (i : Int) = min n (j * b) := by
  induction j with
  | zero => simp; omega
  | succ j ih =>
    rw [Finset.sum_range_succ, ih]
    have h1 : ((j + 1 : Nat) : Int) * b = (j : Int) * b + b := by push_cast; ring
    have h2 : 0 ≤ (j : Int) * b := Int.mul_nonneg (by omega) (by omega)
    rw [h1]
    unfold block; simp only
    split
    · omega
    · split <;> omega

/-- The blocks of one dimension sum to its extent. -/
theorem sum_block_num_blocks (n b : Int) (hn : 1 ≤ n) (hb : 1 ≤ b) :
    ∑ i ∈ Finset.range (num_blocks n b).toNat, block n b (i : Int) = n := by
  rw [sum_block_range n b (by omega) hb]
  have hpos := num_blocks_pos (n := n) (b := b) (by omega) (by omega)
  have hcov : n ≤ num_blocks n b * b :=
    (num_blocks_le_iff (num_blocks n b) (by omega) (by omega)).1 (le_refl _)
  rw [Int.toNat_of_nonneg (by omega)]
  omega

/-- A sum over a mixed-radix index splits into the product of the sums over
its two digits. -/
theorem sum_range_mul_mixed (g G : Int → Int) (a : Nat) (ha : 0 < a) (m : Nat) :
    ∑ i ∈ Finset.range (a * m), g ((i : Int) % (a : Int)) * G ((i : Int) / (a : Int))
      = (∑ r ∈ Finset.range a, g (r : Int)) * (∑ q ∈ Finset.range m, G (q : Int)) := by
  induction m with
  | zero => simp
  | succ m ih =>
    rw [Nat.mul_succ, Finset.sum_range_add, ih, Finset.sum_range_succ, mul_add]
    congr 1
    rw [Finset.sum_mul]
    apply Finset.sum_congr rfl
    intro j hj
    have hj1 : j < a := Finset.mem_range.1 hj
    have e1 : ((a * m + j : Nat) : Int) % (a : Int) = (j : Int) := by
      have : (a * m + j) % a = j := by
        rw [Nat.mul_add_mod]; exact Nat.mod_eq_of_lt hj1
      exact_mod_cast this
    have e2 : ((a * m + j : Nat) : Int) / (a : Int) = (m : Int) := by
      have : (a * m + j) / a = m := by
        rw [Nat.mul_add_div ha, Nat.div_eq_of_lt hj1, Nat.add_zero]
      exact_mod_cast this
    rw [e1, e2]

/-- In loop order: the local element counts of the processes below the total
block count sum to the product of the extents. -/
theorem loop_sum_prod (k : block_kind) (l : List ddim)
    (hl : ∀ d ∈ l, 1 ≤ d.n ∧ 1 ≤ d.b k) :
    ∑ p ∈ Finset.range (num_blocks_total ⟨l⟩ k).toNat,
        (List.zipWith (fun d c => block d.n (d.b k) c) l
          (block_coords_loop k l (p : Int))).prod
      = (l.map (fun d => d.n)).prod := by
  induction l with
  | nil => simp [num_blocks_total, block_coords_loop]
  | cons d l ih =>
    have hdl := hl d (List.mem_cons_self d l)
    have hl1 : ∀ e ∈ l, 1 ≤ e.n ∧ 1 ≤ e.b k := fun e he => hl e (List.mem_cons_of_mem d he)
    have hnb : 0 < num_blocks_kind d k := num_blocks_pos (by omega) (by omega)
    have hNB : 0 < num_blocks_total ⟨l⟩ k := num_blocks_total_pos l k hl1
    obtain ⟨a, ha⟩ := Int.eq_ofNat_of_zero_le (Int.le_of_lt hnb)
    obtain ⟨m, hm⟩ := Int.eq_ofNat_of_zero_le (Int.le_of_lt hNB)
    have ha0 : 0 < a := by omega
    have hsum := sum_range_mul_mixed (fun c => block d.n (d.b k) c)
      (fun q => (List.zipWith (fun d c => block d.n (d.b k) c) l
          (block_coords_loop k l q)).prod) a ha0 m
    have hb1 := sum_block_num_blocks d.n (d.b k) hdl.1 hdl.2
    have hnk : num_blocks d.n (d.b k) = (a : Int) := ha
    rw [hnk, Int.toNat_natCast] at hb1
    rw [hm, Int.toNat_natCast] at ih
    rw [num_blocks_total_cons, ha, hm, ← Int.natCast_mul, Int.toNat_natCast]
    simp only [List.map_cons, List.prod_cons]
    rw [← ih hl1, ← hb1, ← hsum]
    apply Finset.sum_congr rfl
    intro p _
    have hp0 : (0 : Int) ≤ (p : Int) := by omega
    simp only [block_coords_loop, List.zipWith_cons_cons, List.prod_cons, ha,
      cmod_eq_emod hp0 (by omega : (0 : Int) ≤ (a : Int)),
      cdiv_eq_ediv hp0 (by omega : (0 : Int) ≤ (a : Int))]

theorem local_size_idle (my_pe : Int) (sz : dtensor) (k : block_kind)
    (h : num_blocks_total sz k ≤ my_pe) :
    local_size my_pe sz k = (sz.dims.map (fun _ => 0), sz.dims.map (fun _ => 0)) := by
  unfold local_size
  rw [if_pos (by omega)]

theorem zipWith_block_coords (γ : Type) (h : ddim → Int → γ) (sz : dtensor) (k : block_kind)
    (pe : Int) :
    List.zipWith h sz.dims (block_coords sz k pe)
      = (List.zipWith h sz.dims.reverse (block_coords_loop k sz.dims.reverse pe)).reverse := by
  unfold block_coords
  rw [List.reverse_zipWith (by rw [block_coords_loop_length]), List.reverse_reverse]

theorem local_size_busy (my_pe : Int) (sz : dtensor) (k : block_kind)
    (h : my_pe < num_blocks_total sz k) :
    local_size my_pe sz k
      = ((List.zipWith (fun d c => block d.n (d.b k) c) sz.dims.reverse
            (block_coords_loop k sz.dims.reverse my_pe)).reverse,
         (List.zipWith (fun d c => c * d.b k) sz.dims.reverse
            (block_coords_loop k sz.dims.reverse my_pe)).reverse) := by
  unfold local_size
  rw [if_neg (by omega)]
  simp only [zipWith_block_coords]

theorem prod_eq_list_prod (n : Nat) (L : List Int) (h : L.length = n) :
    prod (n : Int) L = L.prod := by
  unfold prod
  rw [Int.toNat_natCast, ← h, List.take_length, List.prod_eq_foldl]

theorem index_in_box_busy (x : List Int) (my_pe : Int) (sz : dtensor) (k : block_kind)
    (h : my_pe < num_blocks_total sz k) :
    index_in_box x (local_size my_pe sz k) ↔
      List.Forall₂ (fun (xi : Int) (p : Int × Int) => p.2 ≤ xi ∧ xi < p.2 + p.1) x.reverse
        (List.zipWith (fun d c => (block d.n (d.b k) c, c * d.b k)) sz.dims.reverse
          (block_coords_loop k sz.dims.reverse my_pe)) := by
  unfold index_in_box local_size
  rw [if_neg (by omega)]
  simp only
  rw [zip_zipWith_same, zipWith_block_coords]
  conv_lhs => rw [← List.reverse_reverse x]
  exact List.forall₂_reverse_iff

theorem index_not_in_idle_box (x : List Int) (my_pe : Int) (sz : dtensor) (k : block_kind)
    (hrank : sz.dims ≠ []) (h : num_blocks_total sz k ≤ my_pe) :
    ¬ index_in_box x (local_size my_pe sz k) := by
  unfold index_in_box
  rw [local_size_idle my_pe sz k h]
  obtain ⟨l⟩ := sz
  cases l with
  | nil => exact absurd rfl hrank
  | cons d l =>
    intro hbox
    cases x with
    | nil => simp at hbox
    | cons x0 x =>
      simp only [List.map_cons, List.zip_cons_cons, List.forall₂_cons] at hbox
      omega

/-- The local element counts of all `n_pes` processes sum to the product of
the extents. -/
theorem sum_local_prod (sz : dtensor) (k : block_kind) (n_pes : Int)
    (hrank : sz.dims ≠ []) (hsz : ∀ d ∈ sz.dims, 1 ≤ d.n ∧ 1 ≤ d.b k)
    (hnp : num_blocks_total sz k ≤ n_pes) :
    ∑ p ∈ Finset.range n_pes.toNat, prod sz.rnk (local_size (p : Int) sz k).1
      = (sz.dims.map (fun d => d.n)).prod := by
  have hrev : ∀ d ∈ sz.dims.reverse, 1 ≤ d.n ∧ 1 ≤ d.b k :=
    fun d hd => hsz d (List.mem_reverse.1 hd)
  have hNB : 0 < num_blocks_total sz k := num_blocks_total_pos sz.dims k hsz
  have hNBrev : num_blocks_total ⟨sz.dims.reverse⟩ k = num_blocks_total sz k :=
    num_blocks_total_reverse sz.dims k
  have hsplit : n_pes.toNat
      = (num_blocks_total sz k).toNat + (n_pes.toNat - (num_blocks_total sz k).toNat) := by
    omega
  rw [hsplit, Finset.sum_range_add]
  have hidle : ∑ x ∈ Finset.range (n_pes.toNat - (num_blocks_total sz k).toNat),
      prod sz.rnk (local_size (((num_blocks_total sz k).toNat + x : Nat) : Int) sz k).1 = 0 := by
    apply Finset.sum_eq_zero
    intro p _
    rw [local_size_idle _ sz k (by push_cast; omega)]
    simp only [dtensor.rnk]
    rw [prod_eq_list_prod _ _ (by simp)]
    obtain ⟨l⟩ := sz
    cases l with
    | nil => exact absurd rfl hrank
    | cons d l => simp
  rw [hidle, add_zero]
  have hloop := loop_sum_prod k sz.dims.reverse hrev
  rw [hNBrev, List.map_reverse, List.prod_reverse] at hloop
  rw [← hloop]
  apply Finset.sum_congr rfl
  intro p hp
  have hp1 : (p : Int) < num_blocks_total sz k := by
    have := Finset.mem_range.1 hp
    omega
  rw [local_size_busy _ sz k hp1]
  simp only [dtensor.rnk]
  rw [prod_eq_list_prod _ _ (by simp [block_coords_loop_length]), List.prod_reverse]

/-- C4: for every distribution with extents `n_i ≥ 1` and block sizes
`b_i ≥ 1` whose total block count for kind `k` is at most `n_pes`, the boxes
computed by `local_size` for `my_pe = 0 .. n_pes-1` tile the global index
space: every global index tuple lies in the box of exactly one process, a
process with `my_pe ≥ num_blocks_total` gets all-zero extents, and the local
element counts of all processes sum to the product of the extents; along one
dimension the block sizes `block n b 0 .. block n b (num_blocks n b - 1)` sum
to `n`.  The distribution has at least one dimension, as every distribution
that `local_size` is called with has: `local_size_guru` returns for
`rnk == 0` before its first call, and its other argument `sz2` has two
dimensions. -/
theorem local_size_tiles (sz : dtensor) (k : block_kind) (n_pes : Int)
    (hrank : sz.dims ≠ []) (hsz : ∀ d ∈ sz.dims, 1 ≤ d.n ∧ 1 ≤ d.b k)
    (hnp : num_blocks_total sz k ≤ n_pes) :
    (∀ x, index_in_range sz x →
      ∃! my_pe : Int, (0 ≤ my_pe ∧ my_pe < n_pes) ∧ index_in_box x (local_size my_pe sz k)) ∧
    (∀ my_pe, num_blocks_total sz k ≤ my_pe →
      local_size my_pe sz k = (sz.dims.map (fun _ => 0), sz.dims.map (fun _ => 0))) ∧
    ∑ p ∈ Finset.range n_pes.toNat, prod sz.rnk (local_size (p : Int) sz k).1
      = (sz.dims.map (fun d => d.n)).prod ∧
    (∀ d ∈ sz.dims,
      ∑ i ∈ Finset.range (num_blocks d.n (d.b k)).toNat, block d.n (d.b k) (i : Int) = d.n) := by
  refine ⟨?_, fun my_pe h => local_size_idle my_pe sz k h,
    sum_local_prod sz k n_pes hrank hsz hnp,
    fun d hd => sum_block_num_blocks d.n (d.b k) (hsz d hd).1 (hsz d hd).2⟩
  intro x hx
  have hrev : ∀ d ∈ sz.dims.reverse, 1 ≤ d.n ∧ 1 ≤ d.b k :=
    fun d hd => hsz d (List.mem_reverse.1 hd)
  have hNBrev : num_blocks_total ⟨sz.dims.reverse⟩ k = num_blocks_total sz k :=
    num_blocks_total_reverse sz.dims k
  obtain ⟨pe0, h0, h1, hu⟩ := loop_box_unique k sz.dims.reverse x.reverse hrev
    (List.forall₂_reverse_iff.2 hx)
  rw [hNBrev] at h1 hu
  refine ⟨pe0, ⟨⟨h0, by omega⟩, ?_⟩, ?_⟩
  · exact (index_in_box_busy x pe0 sz k h1).2 ((hu pe0 h0 h1).2 rfl)
  · rintro pe ⟨⟨hp0, -⟩, hbox⟩
    by_cases hidle : num_blocks_total sz k ≤ pe
    · exact absurd hbox (index_not_in_idle_box x pe sz k hrank hidle)
    · have hlt : pe < num_blocks_total sz k := by omega
      exact (hu pe hp0 hlt).1 ((index_in_box_busy x pe sz k hlt).1 hbox)

/-- C4 (witness): `nx = 12`, `ny = 8` on four processes; the canonical input
distribution has blocks of 3 rows, every process gets a box of 3 x 8, and the
four local element counts sum to 96. -/
theorem local_size_tiles_witness :
    default_sz 2 [⟨12, 0, 0⟩, ⟨8, 0, 0⟩] 4 = ⟨[⟨12, 3, 3⟩, ⟨8, 8, 8⟩]⟩ ∧
    (List.range 4).map (fun p => local_size (p : Int) ⟨[⟨12, 3, 3⟩, ⟨8, 8, 8⟩]⟩ IB)
      = [([3, 8], [0, 0]), ([3, 8], [3, 0]), ([3, 8], [6, 0]), ([3, 8], [9, 0])] ∧
    (⟨[⟨12, 3, 3⟩, ⟨8, 8, 8⟩]⟩ : dtensor).dims ≠ [] ∧
    (∀ d ∈ (⟨[⟨12, 3, 3⟩, ⟨8, 8, 8⟩]⟩ : dtensor).dims, 1 ≤ d.n ∧ 1 ≤ d.b IB) ∧
    num_blocks_total ⟨[⟨12, 3, 3⟩, ⟨8, 8, 8⟩]⟩ IB ≤ 4 ∧
    ∑ p ∈ Finset.range (4 : Int).toNat,
        prod (⟨[⟨12, 3, 3⟩, ⟨8, 8, 8⟩]⟩ : dtensor).rnk
          (local_size (p : Int) ⟨[⟨12, 3, 3⟩, ⟨8, 8, 8⟩]⟩ IB).1
      = 96 :=
  ⟨by decide, by decide, by decide, by decide, by decide,
   (local_size_tiles ⟨[⟨12, 3, 3⟩, ⟨8, 8, 8⟩]⟩ IB 4 (by decide) (by decide) (by decide)).2.2.1⟩

/-! ## The sign assertion and the convenience wrappers -/

/-- A rank-1 size query with sign `0` and no flags is rejected exactly when
`howmany < n_pes`. -/
theorem guru_sign_zero_rejected_iff (env : Env) (dims0 : List mpi_ddim) (howmany : Int)
    (comm : MPI_Comm) :
    local_size_guru env 1 dims0 howmany comm 0 0 = none ↔ howmany < comm.n_pes := by
  have h1 : ¬ ((1 : Int) > 1 ∧
      is_block1d (default_sz 1 dims0 comm.n_pes) IB = true ∧
      is_block1d (default_sz 1 dims0 comm.n_pes) OB = true) := by omega
  have hs : ¬ ((0 : Int) = FFTW_FORWARD ∨ (0 : Int) = FFTW_BACKWARD) := by decide
  unfold local_size_guru
  rw [if_neg one_ne_zero]
  simp only
  unfold guru_candidates
  rw [if_neg h1, if_pos rfl]
  by_cases hh : howmany ≥ comm.n_pes
  · rw [if_pos ⟨hh, rfl⟩]
    simp only [reduceCtorEq, false_iff]
    omega
  · have hcond : ¬ (howmany ≥ comm.n_pes ∧ (0 : Nat) = 0) := fun h => hh h.1
    rw [if_neg hcond, if_neg hs]
    simp only [true_iff]
    omega

/-- C20 (failing input): a one-dimensional query through the convenience
wrappers, eight elements on two processes with `howmany = 1`: the wrappers
pass sign `0`, which is neither forward nor backward, the call reaches the
sign assertion and fails it, for each of the four wrappers. -/
theorem wrappers_fail_sign_assertion :
    (0 : Int) ≠ FFTW_FORWARD ∧ (0 : Int) ≠ FFTW_BACKWARD ∧
    local_size_many_transposed env_no_radix 1 [8] 1 0 0 ⟨0, 2⟩ = none ∧
    local_size_many env_no_radix 1 [8] 1 0 ⟨0, 2⟩ = none ∧
    mpi_local_size env_no_radix 1 [8] ⟨0, 2⟩ = none ∧
    local_size_transposed env_no_radix 1 [8] ⟨0, 2⟩ = none := by
  decide

/-- With `rnk = 1` the convenience wrappers pass sign `0` and no flags, so
the call fails the sign assertion exactly when `howmany < n_pes`; when
`howmany ≥ n_pes` the many-vectors branch is taken and the assertion is not
reached.  The wrappers without a `howmany` argument pass `howmany = 1`: they
fail the assertion on more than one process. -/
theorem wrappers_rank1_rejected_iff (env : Env) (n : List Int) (howmany xblock yblock : Int)
    (comm : MPI_Comm) :
    (local_size_many_transposed env 1 n howmany xblock yblock comm = none ↔
      howmany < comm.n_pes) ∧
    (local_size_many env 1 n howmany xblock comm = none ↔ howmany < comm.n_pes) ∧
    (mpi_local_size env 1 n comm = none ↔ 1 < comm.n_pes) ∧
    (local_size_transposed env 1 n comm = none ↔ 1 < comm.n_pes) := by
  have key : ∀ (hm xb yb : Int),
      (local_size_many_transposed env 1 n hm xb yb comm = none ↔ hm < comm.n_pes) := by
    intro hm xb yb
    have hg := guru_sign_zero_rejected_iff env (many_transposed_dims 1 n xb yb) hm comm
    unfold local_size_many_transposed
    rw [if_neg one_ne_zero]
    simp only
    cases hc : local_size_guru env 1 (many_transposed_dims 1 n xb yb) hm comm 0 0 with
    | none => simp only [true_iff]; exact hg.1 hc
    | some r =>
      have hne : ¬ hm < comm.n_pes := fun h => by
        have := hg.2 h
        rw [hc] at this
        cases this
      simp only [hne, iff_false]
      split <;> simp
  exact ⟨key _ _ _, key _ _ _, key _ _ _, key _ _ _⟩

/-! ## Initialisation and teardown -/

/-- C13: over the state (flag `mpi_inited`, planner cost hook, registered
solvers): a second `init` changes nothing (`init; init = init`), so from a
cleared flag the hook is installed and the standard solvers are registered
exactly once; an `init` with the flag set changes nothing; `cleanup` always
leaves the flag cleared; and an `init` after `cleanup` installs the hook and
registers the standard solvers again. -/
theorem init_idempotent (env : Env) (st : mpi_state) :
    init env (init env st) = init env st ∧
    (st.mpi_inited = true → init env st = st) ∧
    (st.mpi_inited = false →
      init env (init env st)
        = { mpi_inited := true,
            plnr := env.conf_standard { st.plnr with cost_hook := true } }) ∧
    (cleanup env st).mpi_inited = false ∧
    init env (cleanup env st)
      = { mpi_inited := true,
          plnr := env.conf_standard { env.cleanup st.plnr with cost_hook := true } } := by
  refine ⟨?_, ?_, ?_, rfl, ?_⟩
  · cases h : st.mpi_inited <;> simp [init, h]
  · intro h; simp [init, h]
  · intro h; simp [init, h]
  · simp [init, cleanup]

/-- C13 (witness): from the cleared state, two calls of `init` register the
standard solvers of the example environment once; after `cleanup` a further
`init` registers them again. -/
theorem init_idempotent_witness :
    (⟨false, ⟨false, []⟩⟩ : mpi_state).mpi_inited = false ∧
    init env_no_radix (init env_no_radix ⟨false, ⟨false, []⟩⟩) = ⟨true, ⟨true, [0]⟩⟩ ∧
    init env_no_radix (cleanup env_no_radix ⟨true, ⟨true, [0]⟩⟩) = ⟨true, ⟨true, [0]⟩⟩ :=
  ⟨rfl, (init_idempotent env_no_radix ⟨false, ⟨false, []⟩⟩).2.2.1 rfl,
   (init_idempotent env_no_radix ⟨true, ⟨true, [0]⟩⟩).2.2.2.2⟩

/-! ## The cost hook -/

theorem MPI_Allreduce_set_self (op : MPI_Op) (ts : List ℚ) (i : Nat) (t : ℚ)
    (h : ts[i]? = some t) : MPI_Allreduce op (ts.set i t) = MPI_Allreduce op ts := by
  have : ts.set i t = ts := by
    apply List.ext_getElem?
    intro j
    by_cases hj : i = j
    · subst hj
      rw [List.getElem?_set_self' , h]
      simp [h]
    · rw [List.getElem?_set_ne hj]
  rw [this]

/-- C12: for a problem whose kind is neither `PROBLEM_MPI_DFT` nor
`PROBLEM_MPI_TRANSPOSE` the cost hook returns `t` unchanged without a
collective call; for a problem of one of those two kinds it returns the
all-reduce of `t` over the problem's communicator, with summation exactly
when `k = COST_SUM` and maximum for every other `k`; with the all-reduce
modelled as the sum or maximum of all processes' `t`, every process of the
group obtains the same value. -/
theorem cost_hook_agrees (group_t : List ℚ) (t : ℚ) (k : Int) (kind : Nat)
    (sz : dtensor) (vn nx ny : Int) (inp out : Nat) (block tblock : Int)
    (comm : MPI_Comm) (sign : Int) (flags : Nat) :
    (cost_hook_call (.serial kind) t k = .unchanged t ∧
      cost_hook group_t (.serial kind) t k = t) ∧
    (cost_hook_call (.mpi (.mpi_dft sz vn inp out comm sign flags)) t k
        = .allreduce (if k = COST_SUM then .MPI_SUM else .MPI_MAX) comm t ∧
      cost_hook_call (.mpi (.mpi_transpose nx ny vn inp out block tblock comm flags)) t k
        = .allreduce (if k = COST_SUM then .MPI_SUM else .MPI_MAX) comm t) ∧
    (∀ (i j : Nat) (ti tj : ℚ) (n_pes : Int), group_t[i]? = some ti → group_t[j]? = some tj →
      cost_hook group_t (.mpi (.mpi_dft sz vn inp out ⟨i, n_pes⟩ sign flags)) ti k
        = cost_hook group_t (.mpi (.mpi_dft sz vn inp out ⟨j, n_pes⟩ sign flags)) tj k ∧
      cost_hook group_t
          (.mpi (.mpi_transpose nx ny vn inp out block tblock ⟨i, n_pes⟩ flags)) ti k
        = cost_hook group_t
          (.mpi (.mpi_transpose nx ny vn inp out block tblock ⟨j, n_pes⟩ flags)) tj k ∧
      cost_hook group_t (.mpi (.mpi_dft sz vn inp out ⟨i, n_pes⟩ sign flags)) ti k
        = MPI_Allreduce (if k = COST_SUM then .MPI_SUM else .MPI_MAX) group_t ∧
      cost_hook group_t
          (.mpi (.mpi_transpose nx ny vn inp out block tblock ⟨i, n_pes⟩ flags)) ti k
        = MPI_Allreduce (if k = COST_SUM then .MPI_SUM else .MPI_MAX) group_t) := by
  refine ⟨⟨rfl, rfl⟩, ⟨rfl, rfl⟩, ?_⟩
  intro i j ti tj n_pes hi hj
  have e1 : ∀ (m : Nat) (tm : ℚ), group_t[m]? = some tm →
      cost_hook group_t (.mpi (.mpi_dft sz vn inp out ⟨m, n_pes⟩ sign flags)) tm k
        = MPI_Allreduce (if k = COST_SUM then .MPI_SUM else .MPI_MAX) group_t := by
    intro m tm hm
    simp only [cost_hook, cost_hook_call, Int.toNat_natCast]
    exact MPI_Allreduce_set_self _ _ _ _ hm
  have e2 : ∀ (m : Nat) (tm : ℚ), group_t[m]? = some tm →
      cost_hook group_t
          (.mpi (.mpi_transpose nx ny vn inp out block tblock ⟨m, n_pes⟩ flags)) tm k
        = MPI_Allreduce (if k = COST_SUM then .MPI_SUM else .MPI_MAX) group_t := by
    intro m tm hm
    simp only [cost_hook, cost_hook_call, Int.toNat_natCast]
    exact MPI_Allreduce_set_self _ _ _ _ hm
  exact ⟨by rw [e1 i ti hi, e1 j tj hj], by rw [e2 i ti hi, e2 j tj hj], e1 i ti hi, e2 i ti hi⟩

/-- C12 (witness): three processes with costs 3, 5 and 4; under `COST_SUM`
processes 0 and 2 both obtain 12, under `COST_MAX` both obtain 5. -/
theorem cost_hook_agrees_witness :
    ([3, 5, 4] : List ℚ)[0]? = some 3 ∧ ([3, 5, 4] : List ℚ)[2]? = some 4 ∧
    cost_hook [3, 5, 4] (.mpi (.mpi_dft ⟨[]⟩ 1 0 0 ⟨0, 3⟩ FFTW_FORWARD 0)) 3 COST_SUM
      = cost_hook [3, 5, 4] (.mpi (.mpi_dft ⟨[]⟩ 1 0 0 ⟨2, 3⟩ FFTW_FORWARD 0)) 4 COST_SUM ∧
    MPI_Allreduce .MPI_SUM [3, 5, 4] = 12 ∧ MPI_Allreduce .MPI_MAX [3, 5, 4] = 5 :=
  ⟨rfl, rfl,
   ((cost_hook_agrees [3, 5, 4] 3 COST_SUM 0 ⟨[]⟩ 1 1 1 0 0 1 1 ⟨0, 3⟩ FFTW_FORWARD 0).2.2
     0 2 3 4 3 rfl rfl).1,
   by norm_num [MPI_Allreduce], by norm_num [MPI_Allreduce]⟩

/-! ## Rank 2 and above: the reported extents -/

/-- For rank 2 and above the candidate computations succeed and leave the
distribution unchanged. -/
theorem guru_candidates_geq2 (env : Env) (rnk howmany my_pe n_pes sign : Int) (flags : Nat)
    (st : guru_state) (hr : 2 ≤ rnk) :
    ∃ st1, guru_candidates env rnk howmany my_pe n_pes sign flags st = some st1 ∧
      st1.sz = st.sz ∧
      st1.N = (if is_block1d st.sz IB = true ∧ is_block1d st.sz OB = true
                then (guru_geq2 my_pe n_pes rnk howmany st).N else st.N) := by
  unfold guru_candidates
  by_cases hb : is_block1d st.sz IB = true ∧ is_block1d st.sz OB = true
  · have hc : rnk > 1 ∧ is_block1d st.sz IB = true ∧ is_block1d st.sz OB = true :=
      ⟨by omega, hb⟩
    rw [if_pos hc, if_pos hb]
    exact ⟨_, rfl, guru_geq2_sz _ _ _ _ _, rfl⟩
  · have hc : ¬ (rnk > 1 ∧ is_block1d st.sz IB = true ∧ is_block1d st.sz OB = true) :=
      fun h => hb h.2
    have h1 : ¬ rnk = 1 := by omega
    rw [if_neg hc, if_neg h1, if_neg hb]
    exact ⟨_, rfl, rfl, rfl⟩

/-- C18: for rank 2 and above the local input and output extents that the
size query reports are exactly `local_size` applied to the canonical
distribution `default_sz rnk dims0 n_pes`, the distribution that
`plan_guru_dft` hands to the planner for the same arguments: the loop for the
transposed intermediate hands the distribution back unchanged, and what it
wrote into `local_n_in` and `local_start_in` is overwritten. -/
theorem reported_extents_are_canonical (env : Env) (rnk : Int) (dims0 : List mpi_ddim)
    (howmany : Int) (inp out : Nat) (comm : MPI_Comm) (sign : Int) (flags : Nat)
    (hr : 2 ≤ rnk) (_hh : 1 ≤ howmany) :
    (∃ r, local_size_guru env rnk dims0 howmany comm sign flags = some r ∧
      (r.local_n_in, r.local_start_in)
        = local_size comm.my_pe (default_sz rnk dims0 comm.n_pes) IB ∧
      (r.local_n_out, r.local_start_out)
        = local_size comm.my_pe (default_sz rnk dims0 comm.n_pes) OB) ∧
    (plan_guru_dft_call rnk dims0 howmany inp out comm sign flags = .absent ∨
     plan_guru_dft_call rnk dims0 howmany inp out comm sign flags
       = .mkapiplan sign flags
           (.mpi_dft (default_sz rnk dims0 comm.n_pes) howmany inp out comm sign
             (flags >>> 28))) ∧
    (∀ st : guru_state, (geq2_transposed comm.my_pe comm.n_pes rnk st).sz = st.sz) := by
  refine ⟨?_, ?_, fun st => geq2_transposed_sz _ _ _ st⟩
  · obtain ⟨st1, h1, hsz, -⟩ := guru_candidates_geq2 env rnk howmany comm.my_pe comm.n_pes
      sign flags
      { sz := default_sz rnk dims0 comm.n_pes, N := 1, local_n_in := [], local_start_in := [] }
      hr
    have hr0 : rnk ≠ 0 := by omega
    simp only [local_size_guru, if_neg hr0, h1, hsz]
    exact ⟨_, rfl, rfl, rfl⟩
  · rcases plan_guru_dft_call_cases rnk dims0 howmany inp out comm sign flags
      with ⟨-, hc⟩ | ⟨-, hc⟩
    · exact Or.inl hc
    · exact Or.inr hc

/-- C18 (witness): a 12 x 8 request on the third of four processes. -/
theorem reported_extents_are_canonical_witness :
    (2 : Int) ≤ 2 ∧ (1 : Int) ≤ 1 ∧
    ∃ r, local_size_guru env_no_radix 2 [⟨12, 0, 0⟩, ⟨8, 0, 0⟩] 1 ⟨2, 4⟩ FFTW_FORWARD 0 = some r ∧
      (r.local_n_in, r.local_start_in)
        = local_size 2 (default_sz 2 [⟨12, 0, 0⟩, ⟨8, 0, 0⟩] 4) IB ∧
      (r.local_n_out, r.local_start_out)
        = local_size 2 (default_sz 2 [⟨12, 0, 0⟩, ⟨8, 0, 0⟩] 4) OB :=
  ⟨by decide, by decide,
   (reported_extents_are_canonical env_no_radix 2 [⟨12, 0, 0⟩, ⟨8, 0, 0⟩] 1 0 0 ⟨2, 4⟩
     FFTW_FORWARD 0 (by decide) (by decide)).1⟩

/-! ## Invariants of the canonical distribution -/

theorem forall₂_trans3 {α β γ : Type} {R : α → β → Prop} {S : β → γ → Prop}
    {T : α → γ → Prop} (h : ∀ a b c, R a b → S b c → T a c) :
    ∀ {l1 : List α} {l2 : List β} {l3 : List γ},
      List.Forall₂ R l1 l2 → List.Forall₂ S l2 l3 → List.Forall₂ T l1 l3
  | _, _, _, .nil, .nil => .nil
  | _, _, _, .cons h1 t1, .cons h2 t2 => .cons (h _ _ _ h1 h2) (forall₂_trans3 h t1 t2)

theorem forall₂_mem_right {α β : Type} {R : α → β → Prop} {l1 : List α} {l2 : List β}
    (h : List.Forall₂ R l1 l2) : ∀ b ∈ l2, ∃ a ∈ l1, R a b := by
  induction h with
  | nil => intro b hb; cases hb
  | cons hab _ ih =>
    intro b hb
    rcases List.mem_cons.1 hb with rfl | hb
    · exact ⟨_, List.mem_cons_self _ _, hab⟩
    · obtain ⟨a, ha, hr⟩ := ih b hb
      exact ⟨a, List.mem_cons_of_mem _ ha, hr⟩

/-- A fill pass for kind `k` keeps every extent and every block size of the
other kind; a block size of kind `k` is kept or becomes a default block for a
process budget above 1. -/
theorem default_sz_fill_rel (k : block_kind) (n_pes : Int) (ds0 ds : List ddim) (nb np : Int) :
    List.Forall₂
      (fun e e1 => e1.n = e.n ∧ (∀ k1, k1 ≠ k → e1.b k1 = e.b k1) ∧
        (e1.b k = e.b k ∨ ∃ p : Int, 1 < p ∧ e1.b k = default_block e.n p))
      ds (default_sz_fill k n_pes ds0 ds nb np) := by
  have hrefl : ∀ l : List ddim, List.Forall₂
      (fun e e1 => e1.n = e.n ∧ (∀ k1, k1 ≠ k → e1.b k1 = e.b k1) ∧
        (e1.b k = e.b k ∨ ∃ p : Int, 1 < p ∧ e1.b k = default_block e.n p)) l l :=
    fun l => List.forall₂_same.2 (fun _ _ => ⟨rfl, fun _ _ => rfl, Or.inl rfl⟩)
  induction ds0 generalizing ds nb np with
  | nil => unfold default_sz_fill; exact hrefl ds
  | cons d0 ds0 ih =>
    cases ds with
    | nil => unfold default_sz_fill; exact hrefl []
    | cons d ds =>
      unfold default_sz_fill
      split
      · rename_i hnp
        split
        · refine List.Forall₂.cons ⟨set_b_n _ _ _, fun k1 hk => set_b_other _ _ _ _ hk, ?_⟩
            (ih _ _ _)
          exact Or.inr ⟨np, by omega, set_b_same _ _ _⟩
        · exact List.Forall₂.cons ⟨rfl, fun _ _ => rfl, Or.inl rfl⟩ (ih _ _ _)
      · exact hrefl _

/-- A fill pass keeps the property that every dimension has a positive
extent and both block sizes in `[1, n]`. -/
theorem fill_keeps_range (k : block_kind) (n_pes : Int) (ds0 ds : List ddim) (nb np : Int)
    (h : ∀ e ∈ ds, 1 ≤ e.n ∧ ∀ k1, 1 ≤ e.b k1 ∧ e.b k1 ≤ e.n) :
    ∀ e ∈ default_sz_fill k n_pes ds0 ds nb np, 1 ≤ e.n ∧ ∀ k1, 1 ≤ e.b k1 ∧ e.b k1 ≤ e.n := by
  intro e1 he1
  obtain ⟨e, he, hn, ho, hk⟩ :=
    forall₂_mem_right (default_sz_fill_rel k n_pes ds0 ds nb np) e1 he1
  have hgood := h e he
  refine ⟨by omega, fun k1 => ?_⟩
  by_cases hk1 : k1 = k
  · subst hk1
    rcases hk with hk | ⟨p, hp, hk⟩
    · rw [hk, hn]; exact hgood.2 k1
    · rw [hk, hn]
      exact ⟨default_block_pos (by omega) (by omega), default_block_le_self (by omega) (by omega)⟩
  · rw [ho k1 hk1, hn]; exact hgood.2 k1

theorem default_sz_fill_extents (k : block_kind) (n_pes : Int) (ds0 ds : List ddim)
    (nb np : Int) :
    (default_sz_fill k n_pes ds0 ds nb np).map (fun d => d.n) = ds.map (fun d => d.n) := by
  have hrel := default_sz_fill_rel k n_pes ds0 ds nb np
  generalize default_sz_fill k n_pes ds0 ds nb np = ds1 at hrel
  induction hrel with
  | nil => rfl
  | cons hab _ ih => simp only [List.map_cons, hab.1, ih]

theorem default_sz_blocks_extents (rnk : Int) (dims0 : List mpi_ddim) (n_pes : Int) :
    (default_sz_blocks rnk dims0 n_pes).dims.map (fun d => d.n)
      = (dims0.take rnk.toNat).map (fun d => d.n) := by
  simp only [default_sz_blocks, default_sz_kind, default_sz_fill_extents]
  simp only [default_sz_start, List.map_map]
  rfl

theorem default_sz_extents (rnk : Int) (dims0 : List mpi_ddim) (n_pes : Int) :
    (default_sz rnk dims0 n_pes).dims.map (fun d => d.n)
      = (dims0.take rnk.toNat).map (fun d => d.n) := by
  rw [← default_sz_blocks_extents rnk dims0 n_pes]
  simp [default_sz, dtensor_canonical]

theorem default_sz_start_range (rnk : Int) (dims0 : List mpi_ddim)
    (h : ∀ d ∈ dims0.take rnk.toNat,
      1 ≤ d.n ∧ 0 ≤ d.ib ∧ d.ib ≤ d.n ∧ 0 ≤ d.ob ∧ d.ob ≤ d.n) :
    ∀ e ∈ (default_sz_start rnk dims0).dims, 1 ≤ e.n ∧ ∀ k1, 1 ≤ e.b k1 ∧ e.b k1 ≤ e.n := by
  intro e he
  simp only [default_sz_start, List.mem_map] at he
  obtain ⟨d, hd, rfl⟩ := he
  have hd1 := h d hd
  refine ⟨hd1.1, fun k1 => ?_⟩
  cases k1
  · simp only [ddim.b]; split <;> omega
  · simp only [ddim.b]; split <;> omega

theorem default_sz_blocks_range (rnk : Int) (dims0 : List mpi_ddim) (n_pes : Int)
    (h : ∀ d ∈ dims0.take rnk.toNat,
      1 ≤ d.n ∧ 0 ≤ d.ib ∧ d.ib ≤ d.n ∧ 0 ≤ d.ob ∧ d.ob ≤ d.n) :
    ∀ e ∈ (default_sz_blocks rnk dims0 n_pes).dims,
      1 ≤ e.n ∧ ∀ k1, 1 ≤ e.b k1 ∧ e.b k1 ≤ e.n := by
  simp only [default_sz_blocks, default_sz_kind]
  exact fill_keeps_range _ _ _ _ _ _
    (fill_keeps_range _ _ _ _ _ _ (default_sz_start_range rnk dims0 h))

/-- C15: for every request with all `n_i ≥ 1`, hints in `[0, n_i]` and
`n_pes ≥ 1`, the canonical distribution keeps every extent unchanged and has
every block size, of both kinds, in `[1, n_i]`. -/
theorem default_sz_blocks_resolved (rnk : Int) (dims0 : List mpi_ddim) (n_pes : Int)
    (h : ∀ d ∈ dims0.take rnk.toNat,
      1 ≤ d.n ∧ 0 ≤ d.ib ∧ d.ib ≤ d.n ∧ 0 ≤ d.ob ∧ d.ob ≤ d.n)
    (_hp : 1 ≤ n_pes) :
    (default_sz rnk dims0 n_pes).dims.map (fun d => d.n)
      = (dims0.take rnk.toNat).map (fun d => d.n) ∧
    ∀ d ∈ (default_sz rnk dims0 n_pes).dims, ∀ k, 1 ≤ d.b k ∧ d.b k ≤ d.n := by
  refine ⟨default_sz_extents rnk dims0 n_pes, ?_⟩
  intro d hd k
  simp only [default_sz, dtensor_canonical, List.mem_map] at hd
  obtain ⟨e, he, rfl⟩ := hd
  have hgood := default_sz_blocks_range rnk dims0 n_pes h e he
  have hk := hgood.2 k
  cases k
  · simp only [ddim.b] at hk ⊢; split <;> omega
  · simp only [ddim.b] at hk ⊢; split <;> omega

/-- C15 (witness): a 12 x 8 request with an output hint on five processes. -/
theorem default_sz_blocks_resolved_witness :
    (∀ d ∈ ([⟨12, 0, 0⟩, ⟨8, 0, 2⟩] : List mpi_ddim).take (2 : Int).toNat,
      1 ≤ d.n ∧ 0 ≤ d.ib ∧ d.ib ≤ d.n ∧ 0 ≤ d.ob ∧ d.ob ≤ d.n) ∧
    (1 : Int) ≤ 5 ∧
    default_sz 2 [⟨12, 0, 0⟩, ⟨8, 0, 2⟩] 5 = ⟨[⟨12, 3, 12⟩, ⟨8, 8, 2⟩]⟩ ∧
    ∀ d ∈ (default_sz 2 [⟨12, 0, 0⟩, ⟨8, 0, 2⟩] 5).dims, ∀ k, 1 ≤ d.b k ∧ d.b k ≤ d.n :=
  ⟨by decide, by decide, by decide,
   (default_sz_blocks_resolved 2 [⟨12, 0, 0⟩, ⟨8, 0, 2⟩] 5 (by decide) (by decide)).2⟩

/-! ## Feasibility of the canonical distribution -/

theorem num_blocks_total_congr (k : block_kind) {ds ds1 : List ddim}
    (h : List.Forall₂ (fun e e1 => e1.n = e.n ∧ e1.b k = e.b k) ds ds1) :
    num_blocks_total ⟨ds1⟩ k = num_blocks_total ⟨ds⟩ k := by
  induction h with
  | nil => rfl
  | cons hab _ ih =>
    rw [num_blocks_total_cons, num_blocks_total_cons, ih]
    simp only [num_blocks_kind, hab.1, hab.2]

theorem default_sz_fill_unchanged (k : block_kind) (n_pes : Int) (ds0 ds : List ddim)
    (nb np : Int) (h : np ≤ 1) : default_sz_fill k n_pes ds0 ds nb np = ds := by
  cases ds0 with
  | nil => simp [default_sz_fill]
  | cons d0 ds0 =>
    cases ds with
    | nil => simp [default_sz_fill]
    | cons d ds =>
      unfold default_sz_fill
      rw [if_neg (by omega)]

/-- A fill pass for kind `k` that starts within the process count stays
within it: `q` is the block count of the dimensions already passed. -/
theorem default_sz_fill_total_le (k : block_kind) (n_pes : Int) (hp : 0 ≤ n_pes)
    {ds0 ds : List ddim}
    (hS : List.Forall₂
      (fun h e => 1 ≤ e.n ∧ 1 ≤ e.b k ∧ (h.b k = 0 → e.b k = e.n)) ds0 ds) :
    ∀ q nb np : Int, 0 < q → 0 < nb → nb = q * num_blocks_total ⟨ds⟩ k → nb ≤ n_pes →
      np * nb ≤ n_pes →
      q * num_blocks_total ⟨default_sz_fill k n_pes ds0 ds nb np⟩ k ≤ n_pes := by
  induction hS with
  | nil =>
    intro q nb np _ _ hnb hle _
    simp only [default_sz_fill]
    rw [← hnb]; exact hle
  | @cons h e ds0 ds hhe _ ih =>
    intro q nb np hq hnbpos hnb hle hnp
    unfold default_sz_fill
    by_cases hgt : np > 1
    · rw [if_pos hgt]
      by_cases hz : h.b k = 0
      · rw [if_pos hz]
        simp only
        have hone : num_blocks_kind e k = 1 := by
          unfold num_blocks_kind
          rw [hhe.2.2 hz]
          exact (num_blocks_eq_one_iff (by omega) (by omega)).2 (le_refl _)
        rw [num_blocks_total_cons, hone, one_mul] at hnb
        have hl1 : num_blocks e.n (default_block e.n np) ≤ np :=
          num_blocks_default_block_le (by omega) (by omega)
        have hl0 : 0 < num_blocks e.n (default_block e.n np) :=
          num_blocks_pos (by omega) (default_block_pos (by omega) (by omega))
        rw [num_blocks_total_cons, num_blocks_kind, set_b_n, set_b_same, ← mul_assoc]
        have hnb1pos : 0 < nb * num_blocks e.n (default_block e.n np) := Int.mul_pos hnbpos hl0
        have hnb1le : nb * num_blocks e.n (default_block e.n np) ≤ n_pes := by
          have : nb * num_blocks e.n (default_block e.n np) ≤ nb * np :=
            Int.mul_le_mul_of_nonneg_left hl1 (by omega)
          have hc : nb * np = np * nb := mul_comm _ _
          omega
        refine ih _ _ _ (Int.mul_pos hq hl0) hnb1pos ?_ hnb1le ?_
        · rw [hnb]; ring
        · rw [cdiv_eq_ediv hp (by omega)]
          exact Int.ediv_mul_le _ (by omega)
      · rw [if_neg hz]
        have hl0 : 0 < num_blocks_kind e k := num_blocks_pos (by omega) (by omega)
        rw [num_blocks_total_cons] at hnb
        rw [num_blocks_total_cons, ← mul_assoc]
        refine ih _ _ _ (Int.mul_pos hq hl0) hnbpos ?_ hle hnp
        rw [hnb]; ring
    · rw [if_neg hgt, ← hnb]
      exact hle

/-- A pass of `default_sz` for kind `k` ends within the process count exactly
when it starts within it. -/
theorem default_sz_kind_total (k : block_kind) (n_pes : Int) (hp : 1 ≤ n_pes)
    (sz0 sz : dtensor)
    (hS : List.Forall₂
      (fun h e => 1 ≤ e.n ∧ 1 ≤ e.b k ∧ (h.b k = 0 → e.b k = e.n)) sz0.dims sz.dims) :
    num_blocks_total (default_sz_kind k n_pes sz0 sz) k ≤ n_pes ↔
      num_blocks_total sz k ≤ n_pes := by
  have hpos : 0 < num_blocks_total sz k := by
    apply num_blocks_total_pos sz.dims k
    intro e he
    obtain ⟨h, _, hr⟩ := forall₂_mem_right hS e he
    exact ⟨hr.1, hr.2.1⟩
  unfold default_sz_kind
  simp only
  by_cases hle : num_blocks_total sz k ≤ n_pes
  · simp only [hle, iff_true]
    have := default_sz_fill_total_le k n_pes (by omega) hS 1 (num_blocks_total sz k)
      (cdiv n_pes (num_blocks_total sz k)) (by omega) hpos (by simp) hle
      (by
        rw [cdiv_eq_ediv (by omega) (by omega)]
        exact Int.ediv_mul_le _ (by omega))
    rw [one_mul] at this
    exact this
  · have hz : cdiv n_pes (num_blocks_total sz k) = 0 := by
      rw [cdiv_eq_ediv (by omega) (by omega)]
      exact Int.ediv_eq_zero_of_lt (by omega) (by omega)
    rw [hz, default_sz_fill_unchanged _ _ _ _ _ _ (by omega)]

theorem dtensor_canonical_total (sz : dtensor) (k : block_kind)
    (h : ∀ d ∈ sz.dims, 1 ≤ d.n) :
    num_blocks_total (dtensor_canonical sz) k = num_blocks_total sz k := by
  rw [num_blocks_total_eq_prod, num_blocks_total_eq_prod]
  simp only [dtensor_canonical, List.map_map]
  congr 1
  apply List.map_congr_left
  intro d hd
  have hn := h d hd
  have hone : num_blocks d.n d.n = 1 := (num_blocks_eq_one_iff (by omega) (by omega)).2 (le_refl _)
  cases k
  · simp only [Function.comp, num_blocks_kind, ddim.b]
    split
    · rename_i hc; rw [hone, hc]
    · rfl
  · simp only [Function.comp, num_blocks_kind, ddim.b]
    split
    · rename_i hc; rw [hone, hc]
    · rfl

/-- The block count of the first loop of `default_sz`: the specified hints
alone, every unspecified dimension counted as one block. -/
theorem default_sz_start_total (rnk : Int) (dims0 : List mpi_ddim) (k : block_kind)
    (h : ∀ d ∈ dims0.take rnk.toNat, 1 ≤ d.n) :
    num_blocks_total (default_sz_start rnk dims0) k
      = ((dims0.take rnk.toNat).map
          (fun d => if d.hint k = 0 then 1 else num_blocks d.n (d.hint k))).prod := by
  rw [num_blocks_total_eq_prod]
  simp only [default_sz_start, List.map_map]
  congr 1
  apply List.map_congr_left
  intro d hd
  have hn := h d hd
  have hone : num_blocks d.n d.n = 1 := (num_blocks_eq_one_iff (by omega) (by omega)).2 (le_refl _)
  cases k
  · simp only [Function.comp, num_blocks_kind, ddim.b, mpi_ddim.hint]
    by_cases hz : d.ib = 0
    · simp [hz, hone]
    · simp [hz]
  · simp only [Function.comp, num_blocks_kind, ddim.b, mpi_ddim.hint]
    by_cases hz : d.ob = 0
    · simp [hz, hone]
    · simp [hz]

theorem default_sz_start_rel (rnk : Int) (dims0 : List mpi_ddim) (k : block_kind)
    (h : ∀ d ∈ dims0.take rnk.toNat,
      1 ≤ d.n ∧ 0 ≤ d.ib ∧ d.ib ≤ d.n ∧ 0 ≤ d.ob ∧ d.ob ≤ d.n) :
    List.Forall₂ (fun h e => 1 ≤ e.n ∧ 1 ≤ e.b k ∧ (h.b k = 0 → e.b k = e.n))
      (mkdtensor_api rnk dims0).dims (default_sz_start rnk dims0).dims := by
  simp only [mkdtensor_api, default_sz_start, List.forall₂_map_left_iff,
    List.forall₂_map_right_iff]
  apply List.forall₂_same.2
  intro d hd
  have hv := h d hd
  cases k
  · simp only [ddim.b]
    refine ⟨hv.1, ?_, fun hz => by simp [hz]⟩
    split <;> omega
  · simp only [ddim.b]
    refine ⟨hv.1, ?_, fun hz => by simp [hz]⟩
    split <;> omega

/-- In the canonical distribution the block count of kind `k` is within the
process count exactly when the block count after the first loop is. -/
theorem default_sz_total_iff (rnk : Int) (dims0 : List mpi_ddim) (n_pes : Int) (k : block_kind)
    (h : ∀ d ∈ dims0.take rnk.toNat,
      1 ≤ d.n ∧ 0 ≤ d.ib ∧ d.ib ≤ d.n ∧ 0 ≤ d.ob ∧ d.ob ≤ d.n)
    (hp : 1 ≤ n_pes) :
    num_blocks_total (default_sz rnk dims0 n_pes) k ≤ n_pes ↔
      num_blocks_total (default_sz_start rnk dims0) k ≤ n_pes := by
  have hcan : num_blocks_total (default_sz rnk dims0 n_pes) k
      = num_blocks_total (default_sz_blocks rnk dims0 n_pes) k :=
    dtensor_canonical_total _ k
      (fun d hd => (default_sz_blocks_range rnk dims0 n_pes h d hd).1)
  rw [hcan]
  have hrelIB := default_sz_fill_rel IB n_pes (mkdtensor_api rnk dims0).dims
    (default_sz_start rnk dims0).dims (num_blocks_total (default_sz_start rnk dims0) IB)
    (cdiv n_pes (num_blocks_total (default_sz_start rnk dims0) IB))
  cases k
  · have hOB := default_sz_fill_rel OB n_pes (mkdtensor_api rnk dims0).dims
      (default_sz_kind IB n_pes (mkdtensor_api rnk dims0) (default_sz_start rnk dims0)).dims
      (num_blocks_total (default_sz_kind IB n_pes (mkdtensor_api rnk dims0)
        (default_sz_start rnk dims0)) OB)
      (cdiv n_pes (num_blocks_total (default_sz_kind IB n_pes (mkdtensor_api rnk dims0)
        (default_sz_start rnk dims0)) OB))
    have hc : num_blocks_total (default_sz_blocks rnk dims0 n_pes) IB
        = num_blocks_total (default_sz_kind IB n_pes (mkdtensor_api rnk dims0)
            (default_sz_start rnk dims0)) IB :=
      num_blocks_total_congr IB (hOB.imp (fun _ _ hr => ⟨hr.1, hr.2.1 IB (by decide)⟩))
    rw [hc]
    exact default_sz_kind_total IB n_pes hp _ _ (default_sz_start_rel rnk dims0 IB h)
  · have hS : List.Forall₂ (fun h e => 1 ≤ e.n ∧ 1 ≤ e.b OB ∧ (h.b OB = 0 → e.b OB = e.n))
        (mkdtensor_api rnk dims0).dims
        (default_sz_kind IB n_pes (mkdtensor_api rnk dims0) (default_sz_start rnk dims0)).dims :=
      forall₂_trans3
        (fun a b c (hab : 1 ≤ b.n ∧ 1 ≤ b.b OB ∧ (a.b OB = 0 → b.b OB = b.n))
          (hbc : c.n = b.n ∧ (∀ k1, k1 ≠ IB → c.b k1 = b.b k1) ∧
            (c.b IB = b.b IB ∨ ∃ p : Int, 1 < p ∧ c.b IB = default_block b.n p)) => by
          have e := hbc.2.1 OB (by decide)
          exact ⟨by omega, by omega, fun hz => by rw [e, hbc.1]; exact hab.2.2 hz⟩)
        (default_sz_start_rel rnk dims0 OB h) hrelIB
    have hc : num_blocks_total (default_sz_kind IB n_pes (mkdtensor_api rnk dims0)
          (default_sz_start rnk dims0)) OB
        = num_blocks_total (default_sz_start rnk dims0) OB :=
      num_blocks_total_congr OB (hrelIB.imp (fun _ _ hr => ⟨hr.1, hr.2.1 OB (by decide)⟩))
    rw [← hc]
    exact default_sz_kind_total OB n_pes hp _ _ hS

/-- C17: for a request with `n_i ≥ 1`, hints in `[0, n_i]` and `n_pes ≥ 1`, and
each block kind `k`, the canonical distribution needs at most `n_pes` blocks
exactly when the specified (non-zero) hints alone, with every unspecified
dimension counted as one block, need at most `n_pes` blocks.  When all hints
of kind `k` are zero the block count is at most `n_pes`, and `plan_guru_dft`
does not reject a request with all hints zero. -/
theorem default_sz_feasible_iff (rnk : Int) (dims0 : List mpi_ddim) (n_pes : Int)
    (k : block_kind)
    (h : ∀ d ∈ dims0.take rnk.toNat,
      1 ≤ d.n ∧ 0 ≤ d.ib ∧ d.ib ≤ d.n ∧ 0 ≤ d.ob ∧ d.ob ≤ d.n)
    (hp : 1 ≤ n_pes) :
    (num_blocks_total (default_sz rnk dims0 n_pes) k ≤ n_pes ↔
      ((dims0.take rnk.toNat).map
        (fun d => if d.hint k = 0 then 1 else num_blocks d.n (d.hint k))).prod ≤ n_pes) ∧
    ((∀ d ∈ dims0.take rnk.toNat, d.hint k = 0) →
      num_blocks_total (default_sz rnk dims0 n_pes) k ≤ n_pes) ∧
    (∀ (howmany my_pe sign : Int) (inp out flags : Nat), 0 ≤ howmany → 1 ≤ rnk →
      (∀ d ∈ dims0.take rnk.toNat, d.ib = 0 ∧ d.ob = 0) →
      plan_guru_dft_call rnk dims0 howmany inp out ⟨my_pe, n_pes⟩ sign flags
        = .mkapiplan sign flags
            (.mpi_dft (default_sz rnk dims0 n_pes) howmany inp out ⟨my_pe, n_pes⟩ sign
              (flags >>> 28))) := by
  have hn : ∀ d ∈ dims0.take rnk.toNat, 1 ≤ d.n := fun d hd => (h d hd).1
  have hall : ∀ k1 : block_kind, (∀ d ∈ dims0.take rnk.toNat, d.hint k1 = 0) →
      num_blocks_total (default_sz rnk dims0 n_pes) k1 ≤ n_pes := by
    intro k1 hz
    rw [default_sz_total_iff rnk dims0 n_pes k1 h hp, default_sz_start_total rnk dims0 k1 hn]
    have : (dims0.take rnk.toNat).map
        (fun d => if d.hint k1 = 0 then 1 else num_blocks d.n (d.hint k1))
        = (dims0.take rnk.toNat).map (fun _ => (1 : Int)) :=
      List.map_congr_left (fun d hd => by simp [hz d hd])
    rw [this]
    simp only [List.map_const', List.prod_replicate, one_pow]
    exact hp
  refine ⟨?_, hall k, ?_⟩
  · rw [default_sz_total_iff rnk dims0 n_pes k h hp, default_sz_start_total rnk dims0 k hn]
  · intro howmany my_pe sign inp out flags hh hr hz
    rcases plan_guru_dft_call_cases rnk dims0 howmany inp out ⟨my_pe, n_pes⟩ sign flags
      with ⟨hrej, -⟩ | ⟨-, hc⟩
    · exfalso
      have hIB := hall IB (fun d hd => (hz d hd).1)
      have hOB := hall OB (fun d hd => (hz d hd).2)
      rcases hrej with h1 | h1 | ⟨d, hd, h1⟩ | h1 | h1
      · omega
      · omega
      · have := h d hd
        omega
      · simp only at h1; omega
      · simp only at h1; omega
    · exact hc

/-- C17 (witness): a 12 x 8 request over four processes whose input hint 2
for the first dimension alone needs six blocks: the canonical distribution
is infeasible on the input side; without hints it is feasible. -/
theorem default_sz_feasible_iff_witness :
    (∀ d ∈ ([⟨12, 2, 0⟩, ⟨8, 0, 0⟩] : List mpi_ddim).take (2 : Int).toNat,
      1 ≤ d.n ∧ 0 ≤ d.ib ∧ d.ib ≤ d.n ∧ 0 ≤ d.ob ∧ d.ob ≤ d.n) ∧
    (1 : Int) ≤ 4 ∧
    (num_blocks_total (default_sz 2 [⟨12, 2, 0⟩, ⟨8, 0, 0⟩] 4) IB ≤ 4 ↔
      (([⟨12, 2, 0⟩, ⟨8, 0, 0⟩] : List mpi_ddim).take (2 : Int).toNat |>.map
        (fun d => if d.hint IB = 0 then 1 else num_blocks d.n (d.hint IB))).prod ≤ 4) ∧
    num_blocks_total (default_sz 2 [⟨12, 2, 0⟩, ⟨8, 0, 0⟩] 4) IB = 6 ∧
    num_blocks_total (default_sz 2 [⟨12, 0, 0⟩, ⟨8, 0, 0⟩] 4) IB = 4 :=
  ⟨by decide, by decide,
   (default_sz_feasible_iff 2 [⟨12, 2, 0⟩, ⟨8, 0, 0⟩] 4 IB (by decide) (by decide)).1,
   by decide, by decide⟩

/-! ## Division by `howmany` -/

theorem guru_geq2_checked_eq (my_pe n_pes rnk howmany : Int) (st : guru_state)
    (h : howmany ≠ 0) :
    guru_geq2_checked my_pe n_pes rnk howmany st = some (guru_geq2 my_pe n_pes rnk howmany st) := by
  simp only [guru_geq2_checked, cdiv_checked, if_neg h, guru_geq2]

/-- C19 (failing input): a 4 x 4 request with `howmany = 0` on two processes
passes the validation of `plan_guru_dft`; its canonical distribution is a
one-dimensional block split on both sides, so the size query takes the
branch that divides by `howmany`, and that division is a division by zero. -/
theorem howmany_zero_divides_by_zero :
    plan_guru_dft_call 2 [⟨4, 0, 0⟩, ⟨4, 0, 0⟩] 0 0 0 ⟨0, 2⟩ FFTW_FORWARD 0
      = .mkapiplan FFTW_FORWARD 0
          (.mpi_dft ⟨[⟨4, 2, 2⟩, ⟨4, 4, 4⟩]⟩ 0 0 0 ⟨0, 2⟩ FFTW_FORWARD 0) ∧
    default_sz 2 [⟨4, 0, 0⟩, ⟨4, 0, 0⟩] 2 = ⟨[⟨4, 2, 2⟩, ⟨4, 4, 4⟩]⟩ ∧
    is_block1d ⟨[⟨4, 2, 2⟩, ⟨4, 4, 4⟩]⟩ IB = true ∧
    is_block1d ⟨[⟨4, 2, 2⟩, ⟨4, 4, 4⟩]⟩ OB = true ∧
    guru_candidates env_no_radix 2 0 0 2 FFTW_FORWARD 0 ⟨⟨[⟨4, 2, 2⟩, ⟨4, 4, 4⟩]⟩, 1, [], []⟩
      = some (guru_geq2 0 2 2 0 ⟨⟨[⟨4, 2, 2⟩, ⟨4, 4, 4⟩]⟩, 1, [], []⟩) ∧
    cdiv_checked (4 * block 0 (default_block 0 2) 0 + 0 - 1) 0 = none ∧
    guru_geq2_checked 0 2 2 0 ⟨⟨[⟨4, 2, 2⟩, ⟨4, 4, 4⟩]⟩, 1, [], []⟩ = none := by
  decide

/-! ## The size for one-dimensional block distributions -/

theorem imax_eq_max (a b : Int) : imax a b = max a b := by
  unfold imax; split <;> omega

/-- Rounding up: `(x + h - 1) / h` in C is the ceiling of `x / h` for
`x ≥ 0` and `h ≥ 1`. -/
theorem cdiv_eq_ceil (x h : Int) (hx : 0 ≤ x) (hh : 1 ≤ h) :
    cdiv (x + h - 1) h = ⌈(x : ℚ) / (h : ℚ)⌉ := by
  rw [cdiv_eq_ediv (by omega) (by omega)]
  symm
  rw [Int.ceil_eq_iff]
  have hpos : (0 : ℚ) < (h : ℚ) := by exact_mod_cast (by omega : (0 : Int) < h)
  have h1 := Int.ediv_mul_le (x + h - 1) (show h ≠ 0 by omega)
  have h2 := Int.lt_ediv_add_one_mul_self (x + h - 1) (show 0 < h by omega)
  have h3 : ((x + h - 1) / h + 1) * h = (x + h - 1) / h * h + h := by ring
  constructor
  · rw [lt_div_iff₀ hpos]
    have : ((x + h - 1) / h - 1) * h < x := by
      have h4 : ((x + h - 1) / h - 1) * h = (x + h - 1) / h * h - h := by ring
      omega
    exact_mod_cast this
  · rw [div_le_iff₀ hpos]
    have : x ≤ (x + h - 1) / h * h := by omega
    exact_mod_cast this

/-- Whatever the sign of `x`, `h` times the C quotient `(x + h - 1) / h` is at
least `x` for `h ≥ 1`. -/
theorem le_cdiv_mul (x h : Int) (hh : 1 ≤ h) : x ≤ cdiv (x + h - 1) h * h := by
  by_cases hx : 0 ≤ x + h - 1
  · rw [cdiv_eq_ediv hx (by omega)]
    have h2 := Int.lt_ediv_add_one_mul_self (x + h - 1) (show 0 < h by omega)
    have h3 : ((x + h - 1) / h + 1) * h = (x + h - 1) / h * h + h := by ring
    omega
  · have hneg : x + h - 1 = -(-(x + h - 1)) := by ring
    unfold cdiv
    rw [hneg, Int.neg_tdiv, Int.tdiv_eq_ediv (by omega) (by omega)]
    have h1 := Int.ediv_mul_le (-(x + h - 1)) (show h ≠ 0 by omega)
    have h4 : -(-(x + h - 1) / h) * h = -(-(x + h - 1) / h * h) := by ring
    omega

/-- The running size after the loop for the transposed intermediate, started
from `N = 1`. -/
theorem geq2_transposed_N_eq (my_pe n_pes rnk : Int) (sz : dtensor) (a b : List Int) :
    (geq2_transposed my_pe n_pes rnk ⟨sz, 1, a, b⟩).N
      = max 1
          (if geq2_transposed_test sz 0 = true then
            prod rnk (local_size my_pe
              ((sz.set_dim 0 ((sz.dim 0).set_b IB (default_block (sz.dim 0).n n_pes))).set_dim 1
                (((sz.set_dim 0 ((sz.dim 0).set_b IB (default_block (sz.dim 0).n n_pes))).dim
                    1).set_b IB
                  ((sz.set_dim 0 ((sz.dim 0).set_b IB (default_block (sz.dim 0).n n_pes))).dim
                    1).n)) IB).1
          else if geq2_transposed_test sz 1 = true then
            prod rnk (local_size my_pe
              ((sz.set_dim 1 ((sz.dim 1).set_b IB (default_block (sz.dim 1).n n_pes))).set_dim 0
                (((sz.set_dim 1 ((sz.dim 1).set_b IB (default_block (sz.dim 1).n n_pes))).dim
                    0).set_b IB
                  ((sz.set_dim 1 ((sz.dim 1).set_b IB (default_block (sz.dim 1).n n_pes))).dim
                    0).n)) IB).1
          else 1) := by
  unfold geq2_transposed
  simp only
  by_cases h0 : geq2_transposed_test sz 0 = true
  · rw [if_pos h0, if_pos h0]
    simp only [geq2_transposed_body, imax_eq_max]
  · rw [if_neg h0, if_neg h0]
    by_cases h1 : geq2_transposed_test sz 1 = true
    · rw [if_pos h1, if_pos h1]
      simp only [geq2_transposed_body, imax_eq_max]
    · rw [if_neg h1, if_neg h1]
      simp

/-! ## The distributions of the convenience wrappers -/

theorem many_transposed_dims_eq (n0 n1 : Int) (rest : List Int) (xblock yblock : Int) :
    many_transposed_dims ((rest.length : Int) + 2) (n0 :: n1 :: rest) xblock yblock
      = if yblock < n1 then
          ⟨n0, xblock, n0⟩ :: ⟨n1, n1, yblock⟩ :: rest.map (fun ni => ⟨ni, ni, ni⟩)
        else
          ⟨n0, xblock, xblock⟩ :: ⟨n1, n1, n1⟩ :: rest.map (fun ni => ⟨ni, ni, ni⟩) := by
  have hr : ((rest.length : Int) + 2).toNat = rest.length + 2 := by omega
  have hgt : (rest.length : Int) + 2 > 1 := by omega
  unfold many_transposed_dims simple_dims
  rw [hr]
  simp only [hgt, if_true, List.take_succ_cons, List.take_length, List.map_cons,
    List.getD_cons_succ, List.getD_cons_zero]
  split <;> rfl

theorem default_sz_fill_all_nonzero (k : block_kind) (n_pes : Int) (ds0 ds : List ddim)
    (nb np : Int) (h : ∀ d ∈ ds0, d.b k ≠ 0) : default_sz_fill k n_pes ds0 ds nb np = ds := by
  induction ds0 generalizing ds nb np with
  | nil => simp [default_sz_fill]
  | cons d0 ds0 ih =>
    cases ds with
    | nil => simp [default_sz_fill]
    | cons d ds =>
      unfold default_sz_fill
      have h0 : d0.b k ≠ 0 := h d0 (List.mem_cons_self _ _)
      rw [if_neg h0, ih ds nb np (fun e he => h e (List.mem_cons_of_mem _ he))]
      split <;> rfl

theorem default_block_one (n : Int) : default_block n 1 = n := by
  unfold default_block cdiv
  rw [Int.tdiv_one]; omega

theorem cdiv_one (a : Int) : cdiv a 1 = a := by
  unfold cdiv; exact Int.tdiv_one a

theorem cmod_one (a : Int) : cmod a 1 = 0 := by
  unfold cmod; exact Int.tmod_one a

/-- A pass of `default_sz` over a distribution still held in one block,
whose only unspecified dimension is the first. -/
theorem default_sz_kind_first (k : block_kind) (n_pes : Int) (hp : 1 ≤ n_pes)
    (h0 e0 : ddim) (hs es : List ddim) (hz : h0.b k = 0) (hnz : ∀ d ∈ hs, d.b k ≠ 0)
    (hone : num_blocks_total ⟨e0 :: es⟩ k = 1) (he : e0.b k = e0.n) :
    default_sz_kind k n_pes ⟨h0 :: hs⟩ ⟨e0 :: es⟩
      = ⟨e0.set_b k (default_block e0.n n_pes) :: es⟩ := by
  unfold default_sz_kind
  simp only [hone, cdiv_one]
  unfold default_sz_fill
  by_cases hgt : n_pes > 1
  · rw [if_pos hgt, if_pos hz]
    simp only
    rw [default_sz_fill_all_nonzero _ _ _ _ _ _ hnz]
  · have h1 : n_pes = 1 := by omega
    rw [if_neg hgt, h1, default_block_one]
    obtain ⟨a, b, c⟩ := e0
    cases k <;> simp only [ddim.b] at he <;> subst he <;> rfl

/-- The same when the only unspecified dimension is the second. -/
theorem default_sz_kind_second (k : block_kind) (n_pes : Int) (hp : 1 ≤ n_pes)
    (h0 h1 e0 e1 : ddim) (hs es : List ddim) (hnz0 : h0.b k ≠ 0) (hz : h1.b k = 0)
    (hnz : ∀ d ∈ hs, d.b k ≠ 0)
    (hone : num_blocks_total ⟨e0 :: e1 :: es⟩ k = 1) (he : e1.b k = e1.n) :
    default_sz_kind k n_pes ⟨h0 :: h1 :: hs⟩ ⟨e0 :: e1 :: es⟩
      = ⟨e0 :: e1.set_b k (default_block e1.n n_pes) :: es⟩ := by
  unfold default_sz_kind
  simp only [hone, cdiv_one]
  unfold default_sz_fill
  by_cases hgt : n_pes > 1
  · rw [if_pos hgt, if_neg hnz0]
    unfold default_sz_fill
    rw [if_pos hgt, if_pos hz]
    simp only
    rw [default_sz_fill_all_nonzero _ _ _ _ _ _ hnz]
  · have h1 : n_pes = 1 := by omega
    rw [if_neg hgt, h1, default_block_one]
    obtain ⟨a, b, c⟩ := e1
    cases k <;> simp only [ddim.b] at he <;> subst he <;> rfl

theorem default_sz_kind_none (k : block_kind) (n_pes : Int) (sz0 sz : dtensor)
    (hnz : ∀ d ∈ sz0.dims, d.b k ≠ 0) : default_sz_kind k n_pes sz0 sz = sz := by
  unfold default_sz_kind
  simp only
  rw [default_sz_fill_all_nonzero _ _ _ _ _ _ hnz]

/-- A distribution whose block sizes of kind `k` are the positive extents is
held in one block. -/
theorem num_blocks_total_whole (k : block_kind) (l : List ddim)
    (h : ∀ d ∈ l, 1 ≤ d.n ∧ d.b k = d.n) : num_blocks_total ⟨l⟩ k = 1 := by
  induction l with
  | nil => rfl
  | cons d l ih =>
    have hd := h d (List.mem_cons_self _ _)
    rw [num_blocks_total_cons, ih (fun e he => h e (List.mem_cons_of_mem _ he)),
      num_blocks_kind, hd.2, (num_blocks_eq_one_iff (by omega) (by omega)).2 (le_refl _)]
    rfl

theorem whole_tail_mem (rest : List Int) (hrest : ∀ x ∈ rest, 1 ≤ x) (k : block_kind) :
    ∀ d ∈ rest.map (fun ni => (⟨ni, ni, ni⟩ : ddim)), 1 ≤ d.n ∧ d.b k = d.n ∧ d.b k ≠ 0 := by
  intro d hd
  obtain ⟨x, hx, rfl⟩ := List.mem_map.1 hd
  have := hrest x hx
  cases k <;> exact ⟨this, rfl, by show x ≠ 0; omega⟩

theorem canonical_default_block (n p : Int) (hn : 1 ≤ n) (hp : 1 ≤ p) :
    (if num_blocks n (default_block n p) = 1 then n else default_block n p)
      = default_block n p := by
  split
  · rename_i h
    have h1 := (num_blocks_eq_one_iff (by omega) (default_block_pos (by omega) (by omega))).1 h
    have h2 := default_block_le_self (n := n) (p := p) (by omega) (by omega)
    omega
  · rfl

theorem mkdtensor_api_cons2 (a b : mpi_ddim) (rest : List Int) :
    mkdtensor_api ((rest.length : Int) + 2)
        (a :: b :: rest.map (fun ni => (⟨ni, ni, ni⟩ : mpi_ddim)))
      = ⟨⟨a.n, a.ib, a.ob⟩ :: ⟨b.n, b.ib, b.ob⟩ :: rest.map (fun ni => (⟨ni, ni, ni⟩ : ddim))⟩ := by
  have hr : ((rest.length : Int) + 2).toNat = rest.length + 2 := by omega
  unfold mkdtensor_api
  rw [hr]
  have hl : (rest.map (fun ni => (⟨ni, ni, ni⟩ : mpi_ddim))).length = rest.length := by simp
  simp only [List.take_succ_cons, List.map_cons, ← hl, List.take_length, List.map_map]
  rfl

theorem default_sz_start_cons2 (a b : mpi_ddim) (rest : List Int) :
    default_sz_start ((rest.length : Int) + 2)
        (a :: b :: rest.map (fun ni => (⟨ni, ni, ni⟩ : mpi_ddim)))
      = ⟨⟨a.n, if a.ib ≠ 0 then a.ib else a.n, if a.ob ≠ 0 then a.ob else a.n⟩ ::
          ⟨b.n, if b.ib ≠ 0 then b.ib else b.n, if b.ob ≠ 0 then b.ob else b.n⟩ ::
          rest.map (fun ni => (⟨ni, ni, ni⟩ : ddim))⟩ := by
  have hr : ((rest.length : Int) + 2).toNat = rest.length + 2 := by omega
  unfold default_sz_start
  rw [hr]
  have hl : (rest.map (fun ni => (⟨ni, ni, ni⟩ : mpi_ddim))).length = rest.length := by simp
  simp only [List.take_succ_cons, List.map_cons, ← hl, List.take_length, List.map_map]
  congr 3
  apply List.map_congr_left
  intro x _
  simp

theorem dtensor_canonical_cons2 (a b : ddim) (rest : List Int) :
    dtensor_canonical ⟨a :: b :: rest.map (fun ni => (⟨ni, ni, ni⟩ : ddim))⟩
      = ⟨⟨a.n, if num_blocks a.n a.bIB = 1 then a.n else a.bIB,
             if num_blocks a.n a.bOB = 1 then a.n else a.bOB⟩ ::
          ⟨b.n, if num_blocks b.n b.bIB = 1 then b.n else b.bIB,
             if num_blocks b.n b.bOB = 1 then b.n else b.bOB⟩ ::
          rest.map (fun ni => (⟨ni, ni, ni⟩ : ddim))⟩ := by
  unfold dtensor_canonical
  simp only [List.map_cons, List.map_map, ddim.b]
  congr 3
  apply List.map_congr_left
  intro x _
  simp

theorem whole_list_total (k : block_kind) (n0 n1 : Int) (rest : List Int) (a b : ddim)
    (h0 : 1 ≤ n0) (h1 : 1 ≤ n1) (hrest : ∀ x ∈ rest, 1 ≤ x)
    (ha : a.n = n0 ∧ a.b k = n0) (hb : b.n = n1 ∧ b.b k = n1) :
    num_blocks_total ⟨a :: b :: rest.map (fun ni => (⟨ni, ni, ni⟩ : ddim))⟩ k = 1 := by
  apply num_blocks_total_whole
  intro d hd
  rcases List.mem_cons.1 hd with rfl | hd
  · exact ⟨by omega, by omega⟩
  · rcases List.mem_cons.1 hd with rfl | hd
    · exact ⟨by omega, by omega⟩
    · have := whole_tail_mem rest hrest k d hd
      exact ⟨this.1, this.2.1⟩

/-- The canonical distribution of the transposed wrappers (`xblock = 0`,
`yblock = 0`): the input is split along dimension 0 only, the output along
dimension 1 only. -/
theorem default_sz_transposed (n0 n1 : Int) (rest : List Int) (n_pes : Int)
    (h0 : 1 ≤ n0) (h1 : 1 ≤ n1) (hrest : ∀ x ∈ rest, 1 ≤ x) (hp : 1 ≤ n_pes) :
    default_sz ((rest.length : Int) + 2)
        (⟨n0, 0, n0⟩ :: ⟨n1, n1, 0⟩ :: rest.map (fun ni => (⟨ni, ni, ni⟩ : mpi_ddim))) n_pes
      = ⟨⟨n0, default_block n0 n_pes, n0⟩ :: ⟨n1, n1, default_block n1 n_pes⟩ ::
          rest.map (fun ni => (⟨ni, ni, ni⟩ : ddim))⟩ := by
  have hn0 : n0 ≠ 0 := by omega
  have hn1 : n1 ≠ 0 := by omega
  have hone0 : num_blocks n0 n0 = 1 := (num_blocks_eq_one_iff (by omega) (by omega)).2 (le_refl _)
  have hone1 : num_blocks n1 n1 = 1 := (num_blocks_eq_one_iff (by omega) (by omega)).2 (le_refl _)
  unfold default_sz default_sz_blocks
  simp only
  rw [mkdtensor_api_cons2, default_sz_start_cons2]
  simp only [ne_eq, not_true_eq_false, if_false, hn0, hn1, not_false_eq_true, if_true]
  have hIB : default_sz_kind IB n_pes
        ⟨⟨n0, 0, n0⟩ :: ⟨n1, n1, 0⟩ :: rest.map (fun ni => (⟨ni, ni, ni⟩ : ddim))⟩
        ⟨⟨n0, n0, n0⟩ :: ⟨n1, n1, n1⟩ :: rest.map (fun ni => (⟨ni, ni, ni⟩ : ddim))⟩
      = ⟨⟨n0, default_block n0 n_pes, n0⟩ :: ⟨n1, n1, n1⟩ ::
          rest.map (fun ni => (⟨ni, ni, ni⟩ : ddim))⟩ :=
    default_sz_kind_first IB n_pes hp ⟨n0, 0, n0⟩ ⟨n0, n0, n0⟩
      (⟨n1, n1, 0⟩ :: rest.map (fun ni => (⟨ni, ni, ni⟩ : ddim)))
      (⟨n1, n1, n1⟩ :: rest.map (fun ni => (⟨ni, ni, ni⟩ : ddim))) rfl
      (by
        intro d hd
        rcases List.mem_cons.1 hd with rfl | hd
        · exact hn1
        · exact (whole_tail_mem rest hrest IB d hd).2.2)
      (whole_list_total IB n0 n1 rest ⟨n0, n0, n0⟩ ⟨n1, n1, n1⟩ h0 h1 hrest ⟨rfl, rfl⟩
        ⟨rfl, rfl⟩) rfl
  have hOB : default_sz_kind OB n_pes
        ⟨⟨n0, 0, n0⟩ :: ⟨n1, n1, 0⟩ :: rest.map (fun ni => (⟨ni, ni, ni⟩ : ddim))⟩
        ⟨⟨n0, default_block n0 n_pes, n0⟩ :: ⟨n1, n1, n1⟩ ::
          rest.map (fun ni => (⟨ni, ni, ni⟩ : ddim))⟩
      = ⟨⟨n0, default_block n0 n_pes, n0⟩ :: ⟨n1, n1, default_block n1 n_pes⟩ ::
          rest.map (fun ni => (⟨ni, ni, ni⟩ : ddim))⟩ :=
    default_sz_kind_second OB n_pes hp ⟨n0, 0, n0⟩ ⟨n1, n1, 0⟩
      ⟨n0, default_block n0 n_pes, n0⟩ ⟨n1, n1, n1⟩
      (rest.map (fun ni => (⟨ni, ni, ni⟩ : ddim)))
      (rest.map (fun ni => (⟨ni, ni, ni⟩ : ddim))) hn0 rfl
      (fun d hd => (whole_tail_mem rest hrest OB d hd).2.2)
      (whole_list_total OB n0 n1 rest ⟨n0, default_block n0 n_pes, n0⟩ ⟨n1, n1, n1⟩ h0 h1 hrest
        ⟨rfl, rfl⟩ ⟨rfl, rfl⟩) rfl
  rw [hIB, hOB, dtensor_canonical_cons2]
  simp only [hone0, hone1, if_true, canonical_default_block n0 n_pes h0 hp,
    canonical_default_block n1 n_pes h1 hp]

/-- The canonical distribution of the wrappers without transposition
(`yblock ≥ n[1]`): input and output are both split along dimension 0, with the
same block. -/
theorem default_sz_untransposed (n0 n1 : Int) (rest : List Int) (n_pes xblock : Int)
    (h0 : 1 ≤ n0) (h1 : 1 ≤ n1) (hrest : ∀ x ∈ rest, 1 ≤ x) (hp : 1 ≤ n_pes) :
    default_sz ((rest.length : Int) + 2)
        (⟨n0, xblock, xblock⟩ :: ⟨n1, n1, n1⟩ :: rest.map (fun ni => (⟨ni, ni, ni⟩ : mpi_ddim)))
        n_pes
      = ⟨⟨n0,
            if xblock = 0 then default_block n0 n_pes
              else if num_blocks n0 xblock = 1 then n0 else xblock,
            if xblock = 0 then default_block n0 n_pes
              else if num_blocks n0 xblock = 1 then n0 else xblock⟩ ::
          ⟨n1, n1, n1⟩ :: rest.map (fun ni => (⟨ni, ni, ni⟩ : ddim))⟩ := by
  have hn0 : n0 ≠ 0 := by omega
  have hn1 : n1 ≠ 0 := by omega
  have hone0 : num_blocks n0 n0 = 1 := (num_blocks_eq_one_iff (by omega) (by omega)).2 (le_refl _)
  have hone1 : num_blocks n1 n1 = 1 := (num_blocks_eq_one_iff (by omega) (by omega)).2 (le_refl _)
  have htail : ∀ k : block_kind,
      ∀ d ∈ (⟨n1, n1, n1⟩ : ddim) :: rest.map (fun ni => (⟨ni, ni, ni⟩ : ddim)), d.b k ≠ 0 := by
    intro k d hd
    rcases List.mem_cons.1 hd with rfl | hd
    · cases k <;> exact hn1
    · exact (whole_tail_mem rest hrest k d hd).2.2
  unfold default_sz default_sz_blocks
  simp only
  rw [mkdtensor_api_cons2, default_sz_start_cons2]
  by_cases hx : xblock = 0
  · subst hx
    simp only [ne_eq, not_true_eq_false, if_false, hn1, not_false_eq_true, if_true]
    have hIB : default_sz_kind IB n_pes
          ⟨⟨n0, 0, 0⟩ :: ⟨n1, n1, n1⟩ :: rest.map (fun ni => (⟨ni, ni, ni⟩ : ddim))⟩
          ⟨⟨n0, n0, n0⟩ :: ⟨n1, n1, n1⟩ :: rest.map (fun ni => (⟨ni, ni, ni⟩ : ddim))⟩
        = ⟨⟨n0, default_block n0 n_pes, n0⟩ :: ⟨n1, n1, n1⟩ ::
            rest.map (fun ni => (⟨ni, ni, ni⟩ : ddim))⟩ :=
      default_sz_kind_first IB n_pes hp ⟨n0, 0, 0⟩ ⟨n0, n0, n0⟩
        (⟨n1, n1, n1⟩ :: rest.map (fun ni => (⟨ni, ni, ni⟩ : ddim)))
        (⟨n1, n1, n1⟩ :: rest.map (fun ni => (⟨ni, ni, ni⟩ : ddim))) rfl (htail IB)
        (whole_list_total IB n0 n1 rest ⟨n0, n0, n0⟩ ⟨n1, n1, n1⟩ h0 h1 hrest ⟨rfl, rfl⟩
          ⟨rfl, rfl⟩) rfl
    have hOB : default_sz_kind OB n_pes
          ⟨⟨n0, 0, 0⟩ :: ⟨n1, n1, n1⟩ :: rest.map (fun ni => (⟨ni, ni, ni⟩ : ddim))⟩
          ⟨⟨n0, default_block n0 n_pes, n0⟩ :: ⟨n1, n1, n1⟩ ::
            rest.map (fun ni => (⟨ni, ni, ni⟩ : ddim))⟩
        = ⟨⟨n0, default_block n0 n_pes, default_block n0 n_pes⟩ :: ⟨n1, n1, n1⟩ ::
            rest.map (fun ni => (⟨ni, ni, ni⟩ : ddim))⟩ :=
      default_sz_kind_first OB n_pes hp ⟨n0, 0, 0⟩ ⟨n0, default_block n0 n_pes, n0⟩
        (⟨n1, n1, n1⟩ :: rest.map (fun ni => (⟨ni, ni, ni⟩ : ddim)))
        (⟨n1, n1, n1⟩ :: rest.map (fun ni => (⟨ni, ni, ni⟩ : ddim))) rfl (htail OB)
        (whole_list_total OB n0 n1 rest ⟨n0, default_block n0 n_pes, n0⟩ ⟨n1, n1, n1⟩ h0 h1
          hrest ⟨rfl, rfl⟩ ⟨rfl, rfl⟩) rfl
    rw [hIB, hOB, dtensor_canonical_cons2]
    simp only [hone1, if_true, canonical_default_block n0 n_pes h0 hp]
  · simp only [ne_eq, hx, hn1, not_false_eq_true, if_true, if_false]
    rw [default_sz_kind_none IB, default_sz_kind_none OB, dtensor_canonical_cons2]
    · simp only [hone1, if_true]
    · intro d hd
      rcases List.mem_cons.1 hd with rfl | hd
      · exact hx
      · exact htail OB d hd
    · intro d hd
      rcases List.mem_cons.1 hd with rfl | hd
      · exact hx
      · exact htail IB d hd

theorem num_blocks_total_single (k : block_kind) (l : List ddim)
    (h : ∀ d ∈ l, num_blocks_kind d k = 1) : num_blocks_total ⟨l⟩ k = 1 := by
  induction l with
  | nil => rfl
  | cons d l ih =>
    rw [num_blocks_total_cons, ih (fun e he => h e (List.mem_cons_of_mem _ he)),
      h d (List.mem_cons_self _ _)]
    rfl

theorem block_coords_loop_single (k : block_kind) (l1 l2 : List ddim) (pe : Int)
    (h : ∀ d ∈ l1, num_blocks_kind d k = 1) :
    block_coords_loop k (l1 ++ l2) pe
      = List.replicate l1.length 0 ++ block_coords_loop k l2 pe := by
  induction l1 with
  | nil => simp
  | cons d l1 ih =>
    have ih1 := ih (fun e he => h e (List.mem_cons_of_mem _ he))
    show cmod pe (num_blocks_kind d k) ::
        block_coords_loop k (l1 ++ l2) (cdiv pe (num_blocks_kind d k)) = _
    rw [h d (List.mem_cons_self _ _), cmod_one, cdiv_one, ih1]
    rfl

/-- Block coordinates when every dimension after the first two is held in one
block. -/
theorem block_coords_two (k : block_kind) (d0 d1 : ddim) (tail : List ddim) (pe : Int)
    (h : ∀ d ∈ tail, num_blocks_kind d k = 1) :
    block_coords ⟨d0 :: d1 :: tail⟩ k pe
      = cmod (cdiv pe (num_blocks_kind d1 k)) (num_blocks_kind d0 k) ::
          cmod pe (num_blocks_kind d1 k) :: List.replicate tail.length 0 := by
  unfold block_coords
  have hrev : (d0 :: d1 :: tail).reverse = tail.reverse ++ [d1, d0] := by simp
  simp only [hrev]
  rw [block_coords_loop_single k tail.reverse [d1, d0] pe
    (fun d hd => h d (List.mem_reverse.1 hd))]
  simp [block_coords_loop]

theorem block_eq_zero_iff (n b pe : Int) (hn : 1 ≤ n) (hb : 1 ≤ b) :
    block n b pe = 0 ↔ num_blocks n b ≤ pe := by
  rw [num_blocks_le_iff pe (by omega) (by omega)]
  unfold block
  simp only
  constructor
  · intro h
    split at h
    · omega
    · split at h <;> omega
  · intro h
    rw [if_pos (by omega)]

/-- Local extent and offset along dimension 0 when the distribution is split
along dimension 0 only. -/
theorem local_size_split0 (k : block_kind) (d0 d1 : ddim) (tail : List ddim) (pe : Int)
    (hpe : 0 ≤ pe) (hd0 : 1 ≤ d0.n ∧ 1 ≤ d0.b k) (h1 : num_blocks_kind d1 k = 1)
    (h : ∀ d ∈ tail, num_blocks_kind d k = 1) :
    (local_size pe ⟨d0 :: d1 :: tail⟩ k).1.getD 0 0 = block d0.n (d0.b k) pe ∧
    (local_size pe ⟨d0 :: d1 :: tail⟩ k).2.getD 0 0
      = (if block d0.n (d0.b k) pe = 0 then 0 else pe * d0.b k) := by
  have hnbt : num_blocks_total ⟨d0 :: d1 :: tail⟩ k = num_blocks d0.n (d0.b k) := by
    rw [num_blocks_total_cons, num_blocks_total_cons, h1, num_blocks_total_single k tail h]
    simp [num_blocks_kind]
  have hz := block_eq_zero_iff d0.n (d0.b k) pe hd0.1 hd0.2
  unfold local_size
  rw [hnbt]
  by_cases hidle : pe ≥ num_blocks d0.n (d0.b k)
  · rw [if_pos hidle]
    have hb0 : block d0.n (d0.b k) pe = 0 := hz.2 hidle
    simp [hb0]
  · rw [if_neg hidle]
    have hb0 : block d0.n (d0.b k) pe ≠ 0 := fun hb => hidle (hz.1 hb)
    have hpos : 0 < num_blocks d0.n (d0.b k) := num_blocks_pos (by omega) (by omega)
    have hc0 : cmod (cdiv pe (num_blocks_kind d1 k)) (num_blocks_kind d0 k) = pe := by
      rw [h1, cdiv_one, cmod_eq_emod hpe (by unfold num_blocks_kind; omega)]
      exact Int.emod_eq_of_lt hpe (by unfold num_blocks_kind; omega)
    simp only [block_coords_two k d0 d1 tail pe h, hc0, List.zipWith_cons_cons,
      List.getD_cons_zero, if_neg hb0, and_self]

/-- Local extent and offset along dimension 1 when the distribution is split
along dimension 1 only. -/
theorem local_size_split1 (k : block_kind) (d0 d1 : ddim) (tail : List ddim) (pe : Int)
    (hpe : 0 ≤ pe) (hd1 : 1 ≤ d1.n ∧ 1 ≤ d1.b k) (h0 : num_blocks_kind d0 k = 1)
    (h : ∀ d ∈ tail, num_blocks_kind d k = 1) :
    (local_size pe ⟨d0 :: d1 :: tail⟩ k).1.getD 1 0 = block d1.n (d1.b k) pe ∧
    (local_size pe ⟨d0 :: d1 :: tail⟩ k).2.getD 1 0
      = (if block d1.n (d1.b k) pe = 0 then 0 else pe * d1.b k) := by
  have hnbt : num_blocks_total ⟨d0 :: d1 :: tail⟩ k = num_blocks d1.n (d1.b k) := by
    rw [num_blocks_total_cons, num_blocks_total_cons, h0, num_blocks_total_single k tail h]
    simp [num_blocks_kind]
  have hz := block_eq_zero_iff d1.n (d1.b k) pe hd1.1 hd1.2
  unfold local_size
  rw [hnbt]
  by_cases hidle : pe ≥ num_blocks d1.n (d1.b k)
  · rw [if_pos hidle]
    have hb0 : block d1.n (d1.b k) pe = 0 := hz.2 hidle
    simp [hb0]
  · rw [if_neg hidle]
    have hb0 : block d1.n (d1.b k) pe ≠ 0 := fun hb => hidle (hz.1 hb)
    have hpos : 0 < num_blocks d1.n (d1.b k) := num_blocks_pos (by omega) (by omega)
    have hc1 : cmod pe (num_blocks_kind d1 k) = pe := by
      rw [cmod_eq_emod hpe (by unfold num_blocks_kind; omega)]
      exact Int.emod_eq_of_lt hpe (by unfold num_blocks_kind; omega)
    simp only [block_coords_two k d0 d1 tail pe h, hc1, List.zipWith_cons_cons,
      List.getD_cons_succ, List.getD_cons_zero, if_neg hb0, and_self]

theorem zipWith_congr_left {α β γ : Type} (f g : α → β → γ) (l : List α) (cs : List β)
    (h : ∀ a ∈ l, ∀ c, f a c = g a c) : List.zipWith f l cs = List.zipWith g l cs := by
  induction l generalizing cs with
  | nil => simp
  | cons a l ih =>
    cases cs with
    | nil => simp
    | cons c cs =>
      simp only [List.zipWith_cons_cons, h a (List.mem_cons_self _ _) c]
      rw [ih cs (fun b hb => h b (List.mem_cons_of_mem _ hb))]

theorem block_coords_loop_congr (k k1 : block_kind) (l : List ddim) (pe : Int)
    (h : ∀ d ∈ l, d.b k = d.b k1) : block_coords_loop k l pe = block_coords_loop k1 l pe := by
  induction l generalizing pe with
  | nil => rfl
  | cons d l ih =>
    show cmod pe (num_blocks_kind d k) :: block_coords_loop k l (cdiv pe (num_blocks_kind d k))
      = cmod pe (num_blocks_kind d k1) ::
          block_coords_loop k1 l (cdiv pe (num_blocks_kind d k1))
    have hd : num_blocks_kind d k = num_blocks_kind d k1 := by
      unfold num_blocks_kind; rw [h d (List.mem_cons_self _ _)]
    rw [hd, ih _ (fun e he => h e (List.mem_cons_of_mem _ he))]

/-- A distribution with the same block sizes on both sides gives every
process the same local extents on both sides. -/
theorem local_size_kind_congr (k k1 : block_kind) (sz : dtensor) (pe : Int)
    (h : ∀ d ∈ sz.dims, d.b k = d.b k1) : local_size pe sz k = local_size pe sz k1 := by
  have hnbt : num_blocks_total sz k = num_blocks_total sz k1 := by
    rw [num_blocks_total_eq_prod, num_blocks_total_eq_prod]
    congr 1
    apply List.map_congr_left
    intro d hd
    unfold num_blocks_kind; rw [h d hd]
  have hcoords : block_coords sz k pe = block_coords sz k1 pe := by
    unfold block_coords
    rw [block_coords_loop_congr k k1 _ pe (fun d hd => h d (List.mem_reverse.1 hd))]
  unfold local_size
  rw [hnbt, hcoords]
  split
  · rfl
  · simp only
    rw [zipWith_congr_left (fun d c => block d.n (d.b k) c) (fun d c => block d.n (d.b k1) c)
        sz.dims _ (fun d hd c => by simp only [h d hd]),
      zipWith_congr_left (fun d c => c * d.b k) (fun d c => c * d.b k1)
        sz.dims _ (fun d hd c => by simp only [h d hd])]

/-- For rank 2 and above the size query returns, and reports the local
extents of the canonical distribution. -/
theorem local_size_guru_geq2 (env : Env) (rnk : Int) (dims0 : List mpi_ddim)
    (howmany : Int) (comm : MPI_Comm) (sign : Int) (flags : Nat) (hr : 2 ≤ rnk) :
    ∃ r, local_size_guru env rnk dims0 howmany comm sign flags = some r ∧
      r.local_n_in = (local_size comm.my_pe (default_sz rnk dims0 comm.n_pes) IB).1 ∧
      r.local_start_in = (local_size comm.my_pe (default_sz rnk dims0 comm.n_pes) IB).2 ∧
      r.local_n_out = (local_size comm.my_pe (default_sz rnk dims0 comm.n_pes) OB).1 ∧
      r.local_start_out = (local_size comm.my_pe (default_sz rnk dims0 comm.n_pes) OB).2 := by
  obtain ⟨st1, h1, hsz, -⟩ := guru_candidates_geq2 env rnk howmany comm.my_pe comm.n_pes
    sign flags
    { sz := default_sz rnk dims0 comm.n_pes, N := 1, local_n_in := [], local_start_in := [] }
    hr
  have hr0 : rnk ≠ 0 := by omega
  simp only [local_size_guru, if_neg hr0, h1, hsz]
  exact ⟨_, rfl, rfl, rfl, rfl, rfl⟩

/-- What `local_size_many_transposed` reports for rank 2 and above, in terms
of the canonical distribution of the dimensions it builds. -/
theorem local_size_many_transposed_geq2 (env : Env) (rnk : Int) (n : List Int)
    (howmany xblock yblock : Int) (comm : MPI_Comm) (hr : 2 ≤ rnk) :
    ∃ q, local_size_many_transposed env rnk n howmany xblock yblock comm = some q ∧
      q.local_nx = (local_size comm.my_pe
        (default_sz rnk (many_transposed_dims rnk n xblock yblock) comm.n_pes) IB).1.getD 0 0 ∧
      q.local_x_start = (local_size comm.my_pe
        (default_sz rnk (many_transposed_dims rnk n xblock yblock) comm.n_pes) IB).2.getD 0 0 ∧
      q.local_ny = (local_size comm.my_pe
        (default_sz rnk (many_transposed_dims rnk n xblock yblock) comm.n_pes) OB).1.getD 1 0 ∧
      q.local_y_start = (local_size comm.my_pe
        (default_sz rnk (many_transposed_dims rnk n xblock yblock) comm.n_pes) OB).2.getD 1 0 := by
  obtain ⟨r, hr1, e1, e2, e3, e4⟩ := local_size_guru_geq2 env rnk
    (many_transposed_dims rnk n xblock yblock) howmany comm 0 0 hr
  have hr0 : rnk ≠ 0 := by omega
  have hgt : rnk > 1 := by omega
  simp only [local_size_many_transposed, if_neg hr0, hr1, if_pos hgt]
  exact ⟨_, rfl, by rw [e1], by rw [e2], by rw [e3], by rw [e4]⟩

/-- C14: for rank 2 and above, `n_i ≥ 1`, `howmany ≥ 1` and `n_pes ≥ 1`,
`local_size_many_transposed` with `xblock = yblock = 0` (and so
`local_size_transposed`, `local_size_2d_transposed`, `local_size_3d_transposed`)
splits the input along dimension 0 only and the output along dimension 1
only, with the default blocks, and reports on process `my_pe`
`local_nx = block n0 (default_block n0 n_pes) my_pe` with
`local_x_start = my_pe * default_block n0 n_pes` (0 if that block is empty),
and `local_ny = block n1 (default_block n1 n_pes) my_pe` with
`local_y_start = my_pe * default_block n1 n_pes` (0 if empty).  With
`yblock ≥ n[1]` (`local_size_many`, `local_size`, `local_size_2d`,
`local_size_3d`) the output is split along dimension 0 with the same block as
the input. -/
theorem wrappers_block_distribution (env : Env) (n0 n1 : Int) (rest : List Int)
    (howmany : Int) (comm : MPI_Comm)
    (h0 : 1 ≤ n0) (h1 : 1 ≤ n1) (hrest : ∀ x ∈ rest, 1 ≤ x) (_hh : 1 ≤ howmany)
    (hp : 1 ≤ comm.n_pes) (hpe : 0 ≤ comm.my_pe) :
    (default_sz ((rest.length : Int) + 2)
        (many_transposed_dims ((rest.length : Int) + 2) (n0 :: n1 :: rest) 0 0) comm.n_pes
      = ⟨⟨n0, default_block n0 comm.n_pes, n0⟩ :: ⟨n1, n1, default_block n1 comm.n_pes⟩ ::
          rest.map (fun ni => (⟨ni, ni, ni⟩ : ddim))⟩ ∧
     ∃ q, local_size_many_transposed env ((rest.length : Int) + 2) (n0 :: n1 :: rest)
          howmany 0 0 comm = some q ∧
       q.local_nx = block n0 (default_block n0 comm.n_pes) comm.my_pe ∧
       q.local_x_start = (if block n0 (default_block n0 comm.n_pes) comm.my_pe = 0 then 0
                          else comm.my_pe * default_block n0 comm.n_pes) ∧
       q.local_ny = block n1 (default_block n1 comm.n_pes) comm.my_pe ∧
       q.local_y_start = (if block n1 (default_block n1 comm.n_pes) comm.my_pe = 0 then 0
                          else comm.my_pe * default_block n1 comm.n_pes)) ∧
    (∀ xblock yblock : Int, n1 ≤ yblock →
      default_sz ((rest.length : Int) + 2)
          (many_transposed_dims ((rest.length : Int) + 2) (n0 :: n1 :: rest) xblock yblock)
          comm.n_pes
        = ⟨⟨n0,
              if xblock = 0 then default_block n0 comm.n_pes
                else if num_blocks n0 xblock = 1 then n0 else xblock,
              if xblock = 0 then default_block n0 comm.n_pes
                else if num_blocks n0 xblock = 1 then n0 else xblock⟩ ::
            ⟨n1, n1, n1⟩ :: rest.map (fun ni => (⟨ni, ni, ni⟩ : ddim))⟩ ∧
      local_size comm.my_pe (default_sz ((rest.length : Int) + 2)
          (many_transposed_dims ((rest.length : Int) + 2) (n0 :: n1 :: rest) xblock yblock)
          comm.n_pes) OB
        = local_size comm.my_pe (default_sz ((rest.length : Int) + 2)
          (many_transposed_dims ((rest.length : Int) + 2) (n0 :: n1 :: rest) xblock yblock)
          comm.n_pes) IB) ∧
    (∀ yblock : Int, n1 ≤ yblock →
      ∃ q, local_size_many_transposed env ((rest.length : Int) + 2) (n0 :: n1 :: rest)
          howmany 0 yblock comm = some q ∧
        q.local_nx = block n0 (default_block n0 comm.n_pes) comm.my_pe ∧
        q.local_x_start = (if block n0 (default_block n0 comm.n_pes) comm.my_pe = 0 then 0
                           else comm.my_pe * default_block n0 comm.n_pes)) ∧
    (local_size_transposed env ((rest.length : Int) + 2) (n0 :: n1 :: rest) comm
        = local_size_many_transposed env ((rest.length : Int) + 2) (n0 :: n1 :: rest) 1 0 0
            comm ∧
     local_size_many env ((rest.length : Int) + 2) (n0 :: n1 :: rest) howmany 0 comm
        = local_size_many_transposed env ((rest.length : Int) + 2) (n0 :: n1 :: rest)
            howmany 0 n1 comm ∧
     mpi_local_size env ((rest.length : Int) + 2) (n0 :: n1 :: rest) comm
        = local_size_many_transposed env ((rest.length : Int) + 2) (n0 :: n1 :: rest) 1 0 n1
            comm ∧
     local_size_2d_transposed env n0 n1 comm
        = local_size_many_transposed env 2 [n0, n1] 1 0 0 comm ∧
     local_size_2d env n0 n1 comm = local_size_many_transposed env 2 [n0, n1] 1 0 n1 comm ∧
     (∀ nz : Int,
       local_size_3d_transposed env n0 n1 nz comm
          = local_size_many_transposed env 3 [n0, n1, nz] 1 0 0 comm ∧
       local_size_3d env n0 n1 nz comm
          = local_size_many_transposed env 3 [n0, n1, nz] 1 0 n1 comm)) := by
  have hr : (2 : Int) ≤ (rest.length : Int) + 2 := by omega
  have hgt : (rest.length : Int) + 2 > 1 := by omega
  have hbx : 1 ≤ default_block n0 comm.n_pes := default_block_pos (by omega) (by omega)
  have hby : 1 ≤ default_block n1 comm.n_pes := default_block_pos (by omega) (by omega)
  have hone0 : num_blocks n0 n0 = 1 := (num_blocks_eq_one_iff (by omega) (by omega)).2 (le_refl _)
  have hone1 : num_blocks n1 n1 = 1 := (num_blocks_eq_one_iff (by omega) (by omega)).2 (le_refl _)
  have htail : ∀ k : block_kind,
      ∀ d ∈ rest.map (fun ni => (⟨ni, ni, ni⟩ : ddim)), num_blocks_kind d k = 1 := by
    intro k d hd
    have hw := whole_tail_mem rest hrest k d hd
    unfold num_blocks_kind
    rw [hw.2.1]
    exact (num_blocks_eq_one_iff (by omega) (by omega)).2 (le_refl _)
  have hA : default_sz ((rest.length : Int) + 2)
        (many_transposed_dims ((rest.length : Int) + 2) (n0 :: n1 :: rest) 0 0) comm.n_pes
      = ⟨⟨n0, default_block n0 comm.n_pes, n0⟩ :: ⟨n1, n1, default_block n1 comm.n_pes⟩ ::
          rest.map (fun ni => (⟨ni, ni, ni⟩ : ddim))⟩ := by
    rw [many_transposed_dims_eq, if_pos (by omega)]
    exact default_sz_transposed n0 n1 rest comm.n_pes h0 h1 hrest hp
  have hB : ∀ xblock yblock : Int, n1 ≤ yblock →
      default_sz ((rest.length : Int) + 2)
          (many_transposed_dims ((rest.length : Int) + 2) (n0 :: n1 :: rest) xblock yblock)
          comm.n_pes
        = ⟨⟨n0,
              if xblock = 0 then default_block n0 comm.n_pes
                else if num_blocks n0 xblock = 1 then n0 else xblock,
              if xblock = 0 then default_block n0 comm.n_pes
                else if num_blocks n0 xblock = 1 then n0 else xblock⟩ ::
            ⟨n1, n1, n1⟩ :: rest.map (fun ni => (⟨ni, ni, ni⟩ : ddim))⟩ := by
    intro xblock yblock hy
    rw [many_transposed_dims_eq, if_neg (by omega)]
    exact default_sz_untransposed n0 n1 rest comm.n_pes xblock h0 h1 hrest hp
  refine ⟨⟨hA, ?_⟩, ?_, ?_, ?_⟩
  · obtain ⟨q, hq, e1, e2, e3, e4⟩ := local_size_many_transposed_geq2 env
      ((rest.length : Int) + 2) (n0 :: n1 :: rest) howmany 0 0 comm hr
    rw [hA] at e1 e2 e3 e4
    have hin := local_size_split0 IB ⟨n0, default_block n0 comm.n_pes, n0⟩
      ⟨n1, n1, default_block n1 comm.n_pes⟩ _ comm.my_pe hpe ⟨h0, hbx⟩ hone1 (htail IB)
    have hout := local_size_split1 OB ⟨n0, default_block n0 comm.n_pes, n0⟩
      ⟨n1, n1, default_block n1 comm.n_pes⟩ _ comm.my_pe hpe ⟨h1, hby⟩ hone0 (htail OB)
    exact ⟨q, hq, by rw [e1]; exact hin.1, by rw [e2]; exact hin.2,
      by rw [e3]; exact hout.1, by rw [e4]; exact hout.2⟩
  · intro xblock yblock hy
    refine ⟨hB xblock yblock hy, ?_⟩
    rw [hB xblock yblock hy]
    apply local_size_kind_congr
    intro d hd
    rcases List.mem_cons.1 hd with rfl | hd
    · rfl
    · rcases List.mem_cons.1 hd with rfl | hd
      · rfl
      · obtain ⟨x, _, rfl⟩ := List.mem_map.1 hd
        rfl
  · intro yblock hy
    obtain ⟨q, hq, e1, e2, -, -⟩ := local_size_many_transposed_geq2 env
      ((rest.length : Int) + 2) (n0 :: n1 :: rest) howmany 0 yblock comm hr
    rw [hB 0 yblock hy] at e1 e2
    simp only [if_true] at e1 e2
    have hin := local_size_split0 IB
      ⟨n0, default_block n0 comm.n_pes, default_block n0 comm.n_pes⟩
      ⟨n1, n1, n1⟩ _ comm.my_pe hpe ⟨h0, hbx⟩ hone1 (htail IB)
    exact ⟨q, hq, by rw [e1]; exact hin.1, by rw [e2]; exact hin.2⟩
  · refine ⟨rfl, ?_, ?_, rfl, rfl, fun nz => ⟨rfl, rfl⟩⟩
    · simp only [local_size_many, if_pos hgt, List.getD_cons_succ, List.getD_cons_zero]
    · simp only [mpi_local_size, local_size_many, if_pos hgt, List.getD_cons_succ,
        List.getD_cons_zero, FFTW_MPI_DEFAULT_BLOCK]

/-- C14 (witness): a 12 x 8 array on the second of four processes: rows
`[3, 6)` on the input side, columns `[2, 4)` on the transposed output side. -/
theorem wrappers_block_distribution_witness :
    (1 : Int) ≤ 12 ∧ (1 : Int) ≤ 8 ∧ (∀ x ∈ ([] : List Int), 1 ≤ x) ∧ (1 : Int) ≤ 1 ∧
    (1 : Int) ≤ 4 ∧ (0 : Int) ≤ 1 ∧
    local_size_2d_transposed env_no_radix 12 8 ⟨1, 4⟩ = some ⟨24, 3, 3, 2, 2⟩ ∧
    local_size_2d env_no_radix 12 8 ⟨1, 4⟩ = some ⟨24, 3, 3, 8, 0⟩ ∧
    default_sz 2 (many_transposed_dims 2 [12, 8] 0 0) 4 = ⟨[⟨12, 3, 12⟩, ⟨8, 8, 2⟩]⟩ :=
  ⟨by decide, by decide, by decide, by decide, by decide, by decide, by decide, by decide,
   (wrappers_block_distribution env_no_radix 12 8 [] 1 ⟨1, 4⟩ (by decide) (by decide)
     (by decide) (by decide) (by decide) (by decide)).1.1⟩

/-! ## Arithmetic of `ptrdiff_t` -/

theorem wrap_of_in_range {x : Int} (h : in_range x) : wrap x = x := by
  unfold in_range PTRDIFF_MIN PTRDIFF_MAX at h
  unfold wrap
  omega

theorem wrap_in_range (x : Int) : in_range (wrap x) := by
  unfold in_range PTRDIFF_MIN PTRDIFF_MAX wrap
  omega

theorem wrap_emod (x : Int) : wrap x % 18446744073709551616 = x % 18446744073709551616 := by
  unfold wrap
  omega

theorem wrap_congr {x y : Int} (h : x % 18446744073709551616 = y % 18446744073709551616) :
    wrap x = wrap y := by
  unfold wrap
  omega

theorem wrap_mul_left (a b : Int) : wrap (wrap a * b) = wrap (a * b) := by
  apply wrap_congr
  rw [Int.mul_emod, wrap_emod, ← Int.mul_emod]

theorem wrap_add_left (a b : Int) : wrap (wrap a + b) = wrap (a + b) := by
  unfold wrap
  omega

theorem wrap_sub_left (a b : Int) : wrap (wrap a - b) = wrap (a - b) := by
  unfold wrap
  omega

theorem foldl_wrap_mul (l : List Int) (a : Int) :
    l.foldl (fun N x => wrap (N * x)) (wrap a) = wrap (l.foldl (fun N x => N * x) a) := by
  induction l generalizing a with
  | nil => rfl
  | cons x l ih => simp only [List.foldl_cons, wrap_mul_left, ih]

/-- The product computed in `ptrdiff_t` is the exact product, wrapped. -/
theorem prod_m_eq (rnk : Int) (l : List Int) : prod_m rnk l = wrap (prod rnk l) := by
  unfold prod_m prod
  have h1 : (1 : Int) = wrap 1 := by decide
  rw [← foldl_wrap_mul, ← h1]

theorem prod_m_of_in_range (rnk : Int) (l : List Int) (h : in_range (prod rnk l)) :
    prod_m rnk l = prod rnk l := by
  rw [prod_m_eq, wrap_of_in_range h]

theorem foldl_wrap_mul_n (l : List ddim) (a : Int) :
    l.foldl (fun a d => wrap (a * d.n)) (wrap a) = wrap (l.foldl (fun a d => a * d.n) a) := by
  induction l generalizing a with
  | nil => rfl
  | cons x l ih => simp only [List.foldl_cons, wrap_mul_left, ih]

theorem foldl_wrap_mul_n_of_in_range (l : List ddim) (a : Int) (ha : in_range a)
    (h : in_range (l.foldl (fun a d => a * d.n) a)) :
    l.foldl (fun a d => wrap (a * d.n)) a = l.foldl (fun a d => a * d.n) a := by
  have h1 := foldl_wrap_mul_n l a
  rw [wrap_of_in_range ha, wrap_of_in_range h] at h1
  exact h1

/-! ## The divisions of `default_sz` -/

theorem default_sz_fill_m_eq (k : block_kind) (n_pes : Int) (ds0 ds : List ddim) (nb np : Int)
    (hnb : 0 < nb) (h : ∀ e ∈ ds, 1 ≤ e.n) :
    default_sz_fill_m k n_pes ds0 ds nb np = some (default_sz_fill k n_pes ds0 ds nb np) := by
  induction ds0 generalizing ds nb np with
  | nil => cases ds <;> rfl
  | cons d0 ds0 ih =>
    cases ds with
    | nil => rfl
    | cons d ds =>
      have hd : 1 ≤ d.n := h d (List.mem_cons_self d ds)
      have hds : ∀ e ∈ ds, 1 ≤ e.n := fun e he => h e (List.mem_cons_of_mem d he)
      unfold default_sz_fill_m default_sz_fill
      by_cases hnp : np > 1
      · rw [if_pos hnp, if_pos hnp]
        by_cases h0 : d0.b k = 0
        · rw [if_pos h0, if_pos h0]
          have hpos : 0 < nb * num_blocks (d.set_b k (default_block d.n np)).n
              ((d.set_b k (default_block d.n np)).b k) := by
            rw [set_b_n, set_b_same]
            exact Int.mul_pos hnb
              (num_blocks_pos (by omega) (default_block_pos (by omega) (by omega)))
          simp only [cdiv_checked, if_neg (ne_of_gt hpos), ih ds _ _ hpos hds, Option.map_some']
        · rw [if_neg h0, if_neg h0, ih ds _ _ hnb hds]
          rfl
      · rw [if_neg hnp, if_neg hnp]

/-- For a request of the data model (`n_i ≥ 1`, hints in `[0, n_i]`) no
division of `default_sz` is a division by zero. -/
theorem default_sz_m_eq (rnk : Int) (dims0 : List mpi_ddim) (n_pes : Int)
    (h : ∀ d ∈ dims0.take rnk.toNat,
      1 ≤ d.n ∧ 0 ≤ d.ib ∧ d.ib ≤ d.n ∧ 0 ≤ d.ob ∧ d.ob ≤ d.n) :
    default_sz_m rnk dims0 n_pes = some (default_sz rnk dims0 n_pes) := by
  have h0 := default_sz_start_range rnk dims0 h
  have h1 : ∀ e ∈ (default_sz_kind IB n_pes (mkdtensor_api rnk dims0)
      (default_sz_start rnk dims0)).dims, 1 ≤ e.n ∧ ∀ k1, 1 ≤ e.b k1 ∧ e.b k1 ≤ e.n :=
    fill_keeps_range IB n_pes (mkdtensor_api rnk dims0).dims
      (default_sz_start rnk dims0).dims (num_blocks_total (default_sz_start rnk dims0) IB)
      (cdiv n_pes (num_blocks_total (default_sz_start rnk dims0) IB)) h0
  have hp0 : 0 < num_blocks_total (default_sz_start rnk dims0) IB :=
    num_blocks_total_pos _ IB (fun d hd => ⟨(h0 d hd).1, ((h0 d hd).2 IB).1⟩)
  have hp1 : 0 < num_blocks_total (default_sz_kind IB n_pes (mkdtensor_api rnk dims0)
      (default_sz_start rnk dims0)) OB :=
    num_blocks_total_pos _ OB (fun d hd => ⟨(h1 d hd).1, ((h1 d hd).2 OB).1⟩)
  have e1 : default_sz_kind_m IB n_pes (mkdtensor_api rnk dims0) (default_sz_start rnk dims0)
      = some (default_sz_kind IB n_pes (mkdtensor_api rnk dims0) (default_sz_start rnk dims0)) := by
    simp only [default_sz_kind_m, default_sz_kind, cdiv_checked, if_neg (ne_of_gt hp0),
      default_sz_fill_m_eq IB n_pes _ _ _ _ hp0 (fun e he => (h0 e he).1), Option.map_some']
  have e2 : default_sz_kind_m OB n_pes (mkdtensor_api rnk dims0)
      (default_sz_kind IB n_pes (mkdtensor_api rnk dims0) (default_sz_start rnk dims0))
      = some (default_sz_kind OB n_pes (mkdtensor_api rnk dims0)
          (default_sz_kind IB n_pes (mkdtensor_api rnk dims0) (default_sz_start rnk dims0))) := by
    simp only [default_sz_kind_m, cdiv_checked, if_neg (ne_of_gt hp1),
      default_sz_fill_m_eq OB n_pes (mkdtensor_api rnk dims0).dims
        (default_sz_kind IB n_pes (mkdtensor_api rnk dims0) (default_sz_start rnk dims0)).dims
        _ _ hp1 (fun e he => (h1 e he).1), Option.map_some']
    rfl
  simp only [default_sz_m, e1, e2]
  rfl

/-- A request outside the data model: with extent `0` and a hint `5` the
block count is `0` and `np = n_pes / nb` divides by zero. -/
theorem default_sz_m_zero_extent :
    num_blocks_total (default_sz_start 1 [⟨0, 5, 0⟩]) IB = 0 ∧
    default_sz_m 1 [⟨0, 5, 0⟩] 2 = none ∧
    local_size_guru_m env_no_radix 1 [⟨0, 5, 0⟩] 1 ⟨0, 2⟩ FFTW_FORWARD 0
      = .division_by_zero := by
  decide

/-! ## The size query in `ptrdiff_t`: positivity and lower bounds -/

theorem geq2_transposed_m_N (my_pe n_pes rnk : Int) (st : guru_state) :
    st.N ≤ (geq2_transposed_m my_pe n_pes rnk st).N := by
  unfold geq2_transposed_m
  split
  · exact le_imax_left _ _
  · split
    · exact le_imax_left _ _
    · exact le_refl _

theorem geq2_transposed_m_sz (my_pe n_pes rnk : Int) (st : guru_state) :
    (geq2_transposed_m my_pe n_pes rnk st).sz = st.sz := by
  obtain ⟨⟨l⟩, N, a, b⟩ := st
  unfold geq2_transposed_m
  split
  · rcases l with _ | ⟨x, _ | ⟨y, l⟩⟩ <;>
      simp [geq2_transposed_body_m, dtensor.set_dim, dtensor.dim]
  · split
    · rcases l with _ | ⟨x, _ | ⟨y, l⟩⟩ <;>
        simp [geq2_transposed_body_m, dtensor.set_dim, dtensor.dim]
    · rfl

/-- With `howmany ≠ 0` the branch for one-dimensional block distributions
runs to its end, hands the distribution back unchanged and does not lower the
running size. -/
theorem guru_geq2_m_ok (my_pe n_pes rnk howmany : Int) (st : guru_state) (hh : howmany ≠ 0) :
    ∃ st1, guru_geq2_m my_pe n_pes rnk howmany st = .ok st1 ∧ st1.sz = st.sz ∧
      st.N ≤ st1.N := by
  simp only [guru_geq2_m, cdiv_checked, if_neg hh]
  refine ⟨_, rfl, geq2_transposed_m_sz _ _ _ _, ?_⟩
  exact le_trans (geq2_transposed_m_N my_pe n_pes rnk st)
    (le_trans (le_imax_left _ _) (le_imax_left _ _))

theorem guru_rank1_bigvec_m_ok (my_pe n_pes howmany : Int) (st : guru_state)
    (hh : howmany ≠ 0) :
    ∃ st1, guru_rank1_bigvec_m my_pe n_pes howmany st = .ok st1 ∧ st1.sz = st.sz ∧
      st.N ≤ st1.N := by
  simp only [guru_rank1_bigvec_m, cdiv_checked, if_neg hh]
  exact ⟨_, rfl, rfl, le_imax_left _ _⟩

theorem guru_rank1_radix_m_sz (env : Env) (n_pes sign : Int) (flags : Nat) (sz : dtensor)
    (N N1 : Int) (a b a1 b1 : List Int) :
    (guru_rank1_radix_m env n_pes sign flags ⟨sz, N, a, b⟩).sz
      = (guru_rank1_radix_m env n_pes sign flags ⟨sz, N1, a1, b1⟩).sz := by
  unfold guru_rank1_radix_m
  by_cases hr : (env.choose_radix (sz.dim 0) n_pes flags sign).r ≠ 0
  · by_cases h1 : flags &&& env.FFTW_MPI_SCRAMBLED_IN ≠ 0 <;>
    by_cases h2 : flags &&& env.FFTW_MPI_SCRAMBLED_OUT ≠ 0 <;>
    simp only [hr, h1, h2, if_true, if_false, not_false_eq_true, ne_eq, not_true_eq_false]
  · simp only [hr, if_false]

/-- C5 (counterexample): a 3 x 2 array on two processes with `howmany = 1`;
the size query returns `4` on process 0 and `3` on process 1. -/
theorem returned_size_differs_between_ranks :
    local_size_guru_m env_no_radix 2 [⟨3, 0, 0⟩, ⟨2, 0, 0⟩] 1 ⟨0, 2⟩ FFTW_FORWARD 0
      = .ok { ret := 4, local_n_in := [2, 2], local_start_in := [0, 0],
              local_n_out := [2, 2], local_start_out := [0, 0] } ∧
    local_size_guru_m env_no_radix 2 [⟨3, 0, 0⟩, ⟨2, 0, 0⟩] 1 ⟨1, 2⟩ FFTW_FORWARD 0
      = .ok { ret := 3, local_n_in := [1, 2], local_start_in := [2, 0],
              local_n_out := [1, 2], local_start_out := [2, 0] } := by
  decide

/-- How the candidate computations end (with a result, at the sign assertion,
or in a division by zero), and the distribution they leave behind, do not
depend on the process index. -/
theorem guru_candidates_m_common (env : Env) (rnk howmany n_pes sign : Int) (flags : Nat)
    (sz0 : dtensor) :
    (∀ my_pe N a b,
      guru_candidates_m env rnk howmany my_pe n_pes sign flags ⟨sz0, N, a, b⟩
        = .assertion_failed) ∨
    (∀ my_pe N a b,
      guru_candidates_m env rnk howmany my_pe n_pes sign flags ⟨sz0, N, a, b⟩
        = .division_by_zero) ∨
    ∃ sz, ∀ my_pe N a b, ∃ st,
      guru_candidates_m env rnk howmany my_pe n_pes sign flags ⟨sz0, N, a, b⟩ = .ok st ∧
      st.sz = sz := by
  unfold guru_candidates_m
  by_cases h1 : rnk > 1 ∧ is_block1d sz0 IB = true ∧ is_block1d sz0 OB = true
  · by_cases hh : howmany = 0
    · right; left
      intro my_pe N a b
      rw [if_pos h1]
      simp only [guru_geq2_m, cdiv_checked, hh, if_true]
    · right; right
      refine ⟨sz0, fun my_pe N a b => ?_⟩
      obtain ⟨st1, hst1, hsz, -⟩ := guru_geq2_m_ok my_pe n_pes rnk howmany ⟨sz0, N, a, b⟩ hh
      exact ⟨st1, by rw [if_pos h1]; exact hst1, hsz⟩
  · by_cases h2 : rnk = 1
    · by_cases h3 : howmany ≥ n_pes ∧ flags = 0
      · by_cases hh : howmany = 0
        · right; left
          intro my_pe N a b
          rw [if_neg h1, if_pos h2, if_pos h3]
          simp only [guru_rank1_bigvec_m, cdiv_checked, hh, if_true]
        · right; right
          refine ⟨sz0, fun my_pe N a b => ?_⟩
          obtain ⟨st1, hst1, hsz, -⟩ :=
            guru_rank1_bigvec_m_ok my_pe n_pes howmany ⟨sz0, N, a, b⟩ hh
          exact ⟨st1, by rw [if_neg h1, if_pos h2, if_pos h3]; exact hst1, hsz⟩
      · by_cases h4 : sign = FFTW_FORWARD ∨ sign = FFTW_BACKWARD
        · right; right
          refine ⟨(guru_rank1_radix_m env n_pes sign flags ⟨sz0, 1, [], []⟩).sz,
            fun my_pe N a b => ⟨guru_rank1_radix_m env n_pes sign flags ⟨sz0, N, a, b⟩, ?_,
              guru_rank1_radix_m_sz env n_pes sign flags sz0 N 1 a b [] []⟩⟩
          rw [if_neg h1, if_pos h2, if_neg h3, if_pos h4]
        · left
          intro my_pe N a b
          rw [if_neg h1, if_pos h2, if_neg h3, if_neg h4]
    · right; right
      refine ⟨sz0, fun my_pe N a b => ⟨⟨sz0, N, a, b⟩, ?_, rfl⟩⟩
      rw [if_neg h1, if_neg h2]

/-- C5 (amended): for a fixed valid request (extents `n_i ≥ 1`, hints in
`[0, n_i]`, `howmany ≥ 0`), sign, flags and process count `n_pes ≥ 1`, the
canonical distribution built by `default_sz` is the same for every process
index, and the size query ends in the same way on every process `my_pe` in
`[0, n_pes)`: it fails the sign assertion on every process, or it divides by
zero on every process, or there is one distribution, the same for every
process index, such that the query on each process `my_pe` returns and
reports exactly the local extents and offsets that `local_size` computes for
`my_pe` from that distribution.  (The returned size itself is the process's
own requirement.) -/
theorem size_query_common_distribution (env : Env) (rnk : Int) (dims0 : List mpi_ddim)
    (howmany n_pes sign : Int) (flags : Nat)
    (_hlen : rnk.toNat ≤ dims0.length)
    (hd : ∀ d ∈ dims0.take rnk.toNat,
      1 ≤ d.n ∧ 0 ≤ d.ib ∧ d.ib ≤ d.n ∧ 0 ≤ d.ob ∧ d.ob ≤ d.n)
    (_hh : 0 ≤ howmany) (_hp : 1 ≤ n_pes) :
    (∀ my_pe my_pe1 : Int,
      default_sz rnk dims0 (MPI_Comm.mk my_pe n_pes).n_pes
        = default_sz rnk dims0 (MPI_Comm.mk my_pe1 n_pes).n_pes) ∧
    ((∀ my_pe : Int, 0 ≤ my_pe → my_pe < n_pes →
      local_size_guru_m env rnk dims0 howmany ⟨my_pe, n_pes⟩ sign flags
        = .assertion_failed) ∨
    (∀ my_pe : Int, 0 ≤ my_pe → my_pe < n_pes →
      local_size_guru_m env rnk dims0 howmany ⟨my_pe, n_pes⟩ sign flags
        = .division_by_zero) ∨
    ∃ sz : dtensor, ∀ my_pe : Int, 0 ≤ my_pe → my_pe < n_pes → ∃ r,
      local_size_guru_m env rnk dims0 howmany ⟨my_pe, n_pes⟩ sign flags = .ok r ∧
      (r.local_n_in, r.local_start_in) = local_size my_pe sz IB ∧
      (r.local_n_out, r.local_start_out) = local_size my_pe sz OB) := by
  refine ⟨fun _ _ => rfl, ?_⟩
  by_cases hr : rnk = 0
  · right; right
    refine ⟨⟨[]⟩, fun my_pe _ _ =>
      ⟨{ ret := howmany, local_n_in := [], local_start_in := [],
         local_n_out := [], local_start_out := [] },
       by simp only [local_size_guru_m, hr, if_true], ?_, ?_⟩⟩ <;>
      simp [local_size, block_coords, block_coords_loop]
  · rcases guru_candidates_m_common env rnk howmany n_pes sign flags
        (default_sz rnk dims0 n_pes) with h | h | ⟨sz, h⟩
    · left
      intro my_pe _ _
      simp only [local_size_guru_m, hr, if_false, default_sz_m_eq rnk dims0 n_pes hd, h]
    · right; left
      intro my_pe _ _
      simp only [local_size_guru_m, hr, if_false, default_sz_m_eq rnk dims0 n_pes hd, h]
    · right; right
      refine ⟨sz, fun my_pe _ _ => ?_⟩
      obtain ⟨st, hst, hsz⟩ := h my_pe 1 [] []
      simp only [local_size_guru_m, hr, if_false, default_sz_m_eq rnk dims0 n_pes hd, hst, hsz]
      exact ⟨_, rfl, rfl, rfl⟩

/-- C5 (witness): the 3 x 2 array on two processes with `howmany = 1`: the
query returns on both processes, and both report the local extents of one
common distribution; with `howmany = 0` a 4 x 4 array divides by zero on both
processes. -/
theorem size_query_common_distribution_witness :
    (2 : Int).toNat ≤ ([⟨3, 0, 0⟩, ⟨2, 0, 0⟩] : List mpi_ddim).length ∧
    (∀ d ∈ ([⟨3, 0, 0⟩, ⟨2, 0, 0⟩] : List mpi_ddim).take (2 : Int).toNat,
      1 ≤ d.n ∧ 0 ≤ d.ib ∧ d.ib ≤ d.n ∧ 0 ≤ d.ob ∧ d.ob ≤ d.n) ∧
    (0 : Int) ≤ 1 ∧ (1 : Int) ≤ 2 ∧
    (∃ sz : dtensor, ∀ my_pe : Int, 0 ≤ my_pe → my_pe < 2 → ∃ r,
      local_size_guru_m env_no_radix 2 [⟨3, 0, 0⟩, ⟨2, 0, 0⟩] 1 ⟨my_pe, 2⟩ FFTW_FORWARD 0
        = .ok r ∧
      (r.local_n_in, r.local_start_in) = local_size my_pe sz IB ∧
      (r.local_n_out, r.local_start_out) = local_size my_pe sz OB) ∧
    local_size_guru_m env_no_radix 2 [⟨4, 0, 0⟩, ⟨4, 0, 0⟩] 0 ⟨0, 2⟩ FFTW_FORWARD 0
      = .division_by_zero ∧
    local_size_guru_m env_no_radix 2 [⟨4, 0, 0⟩, ⟨4, 0, 0⟩] 0 ⟨1, 2⟩ FFTW_FORWARD 0
      = .division_by_zero :=
  ⟨by decide, by decide, by omega, by omega,
   match (size_query_common_distribution env_no_radix 2 [⟨3, 0, 0⟩, ⟨2, 0, 0⟩] 1 2
      FFTW_FORWARD 0 (by decide) (by decide) (by omega) (by omega)).2 with
   | Or.inl h => absurd (h 0 (by decide) (by decide)) (by decide)
   | Or.inr (Or.inl h) => absurd (h 0 (by decide) (by decide)) (by decide)
   | Or.inr (Or.inr h) => h,
   by decide, by decide⟩

/-! ## The sign assertion and radix selection -/

/-- C11: in a rank-1 size query for a valid request with `howmany < n_pes` or
flags set, a sign that is neither forward nor backward makes the call fail
the sign assertion, whatever the radix selector is: no radix is selected and
no size is reported.  With sign forward or backward the call goes on to
radix selection: it asks the selector `choose_radix` for dimension 0 of the
canonical distribution, `n_pes`, the flags and the sign, and with its answer
`c` the candidate computations end in the state that the source prescribes:
the distribution and running size `1` unchanged if `c.r = 0`; otherwise, with
`m = n / c.r`, input block `rblock[IB] * m` if `SCRAMBLED_IN` is set, else
input block `r * mblock[IB]` and running size raised to `rblock[IB] * m`,
and output block `r * mblock[OB]` if `SCRAMBLED_OUT` is set, else output
block `rblock[OB] * m` and running size raised to `r * mblock[OB]`.  The
query then returns the size and the local extents of that state. -/
theorem rank1_sign_validated (env : Env) (dims0 : List mpi_ddim) (howmany : Int)
    (comm : MPI_Comm) (sign : Int) (flags : Nat)
    (_hlen : (1 : Int).toNat ≤ dims0.length)
    (hd : ∀ d ∈ dims0.take (1 : Int).toNat,
      1 ≤ d.n ∧ 0 ≤ d.ib ∧ d.ib ≤ d.n ∧ 0 ≤ d.ob ∧ d.ob ≤ d.n)
    (_hp : 1 ≤ comm.n_pes) (_hpe : 0 ≤ comm.my_pe ∧ comm.my_pe < comm.n_pes)
    (hreach : howmany < comm.n_pes ∨ flags ≠ 0) :
    (¬ (sign = FFTW_FORWARD ∨ sign = FFTW_BACKWARD) →
      guru_candidates_m env 1 howmany comm.my_pe comm.n_pes sign flags
          { sz := default_sz 1 dims0 comm.n_pes, N := 1, local_n_in := [], local_start_in := [] }
        = .assertion_failed ∧
      local_size_guru_m env 1 dims0 howmany comm sign flags = .assertion_failed) ∧
    ((sign = FFTW_FORWARD ∨ sign = FFTW_BACKWARD) →
      let sz := default_sz 1 dims0 comm.n_pes
      let c := env.choose_radix (sz.dim 0) comm.n_pes flags sign
      let m := cdiv (sz.dim 0).n c.r
      let s1 := sz.set_dim 0 ((sz.dim 0).set_b IB
        (if flags &&& env.FFTW_MPI_SCRAMBLED_IN ≠ 0 then wrap (c.rblock IB * m)
         else wrap (c.r * c.mblock IB)))
      let N1 := if flags &&& env.FFTW_MPI_SCRAMBLED_IN ≠ 0 then 1
        else imax 1 (wrap (c.rblock IB * m))
      let s2 := s1.set_dim 0 ((s1.dim 0).set_b OB
        (if flags &&& env.FFTW_MPI_SCRAMBLED_OUT ≠ 0 then wrap (c.r * c.mblock OB)
         else wrap (c.rblock OB * m)))
      let N2 := if flags &&& env.FFTW_MPI_SCRAMBLED_OUT ≠ 0 then N1
        else imax N1 (wrap (c.r * c.mblock OB))
      let st : guru_state :=
        if c.r ≠ 0 then { sz := s2, N := N2, local_n_in := [], local_start_in := [] }
        else { sz := sz, N := 1, local_n_in := [], local_start_in := [] }
      guru_candidates_m env 1 howmany comm.my_pe comm.n_pes sign flags
          { sz := sz, N := 1, local_n_in := [], local_start_in := [] }
        = .ok st ∧
      local_size_guru_m env 1 dims0 howmany comm sign flags
        = .ok { ret := wrap (guru_N_m 1 comm.my_pe st * howmany),
                local_n_in := (local_size comm.my_pe st.sz IB).1,
                local_start_in := (local_size comm.my_pe st.sz IB).2,
                local_n_out := (local_size comm.my_pe st.sz OB).1,
                local_start_out := (local_size comm.my_pe st.sz OB).2 }) := by
  have h1 : ¬ ((1 : Int) > 1 ∧
      is_block1d (default_sz 1 dims0 comm.n_pes) IB = true ∧
      is_block1d (default_sz 1 dims0 comm.n_pes) OB = true) := by omega
  have h2 : ¬ (howmany ≥ comm.n_pes ∧ flags = 0) := by
    rintro ⟨ha, hb⟩
    rcases hreach with h | h
    · omega
    · exact h hb
  constructor
  · intro hs
    have hc : guru_candidates_m env 1 howmany comm.my_pe comm.n_pes sign flags
        { sz := default_sz 1 dims0 comm.n_pes, N := 1, local_n_in := [], local_start_in := [] }
        = .assertion_failed := by
      simp only [guru_candidates_m, h1, h2, hs, if_true, if_false]
    exact ⟨hc, by
      simp only [local_size_guru_m, default_sz_m_eq 1 dims0 comm.n_pes hd, hc, one_ne_zero,
        if_false]⟩
  · intro hs
    intro sz c m s1 N1 s2 N2 st
    have hc : guru_candidates_m env 1 howmany comm.my_pe comm.n_pes sign flags
        { sz := sz, N := 1, local_n_in := [], local_start_in := [] } = .ok st := by
      simp only [guru_candidates_m, h1, h2, hs, if_true, if_false]
      congr 1
      simp only [guru_rank1_radix_m, st, N2, s2, N1, s1, m, c]
      by_cases hr : (env.choose_radix (sz.dim 0) comm.n_pes flags sign).r ≠ 0
      · by_cases h3 : flags &&& env.FFTW_MPI_SCRAMBLED_IN ≠ 0 <;>
        by_cases h4 : flags &&& env.FFTW_MPI_SCRAMBLED_OUT ≠ 0 <;>
        simp only [hr, h3, h4, if_true, if_false, not_false_eq_true, ne_eq, not_true_eq_false]
      · simp only [hr, if_false]
    refine ⟨hc, ?_⟩
    simp only [local_size_guru_m, one_ne_zero, if_false, default_sz_m_eq 1 dims0 comm.n_pes hd]
    rw [hc]

/-- C11 (witness): sixteen elements on the first of three processes, with a
selector that answers radix 4 with blocks `2` and `2`.  Sign `2` fails the
assertion.  With sign forward the selector is asked for dimension
`(16, 6, 6)`, its answer makes both block sizes `4 * 2 = 8` and raises the
running size to `8`, and the query returns `8` with local extent `8`; with a
selector that answers `0` the same query returns `6` with local extent `6`. -/
theorem rank1_sign_validated_witness :
    (1 : Int).toNat ≤ ([⟨16, 0, 0⟩] : List mpi_ddim).length ∧
    (∀ d ∈ ([⟨16, 0, 0⟩] : List mpi_ddim).take (1 : Int).toNat,
      1 ≤ d.n ∧ 0 ≤ d.ib ∧ d.ib ≤ d.n ∧ 0 ≤ d.ob ∧ d.ob ≤ d.n) ∧
    (1 : Int) ≤ 3 ∧ ((0 : Int) ≤ 0 ∧ (0 : Int) < 3) ∧
    ((1 : Int) < 3 ∨ (0 : Nat) ≠ 0) ∧
    ¬ ((2 : Int) = FFTW_FORWARD ∨ (2 : Int) = FFTW_BACKWARD) ∧
    local_size_guru_m env_radix4 1 [⟨16, 0, 0⟩] 1 ⟨0, 3⟩ 2 0 = .assertion_failed ∧
    default_sz 1 [⟨16, 0, 0⟩] 3 = ⟨[⟨16, 6, 6⟩]⟩ ∧
    env_radix4.choose_radix ⟨16, 6, 6⟩ 3 0 FFTW_FORWARD = ⟨4, 2, 2, 2, 2⟩ ∧
    guru_candidates_m env_radix4 1 1 0 3 FFTW_FORWARD 0
        { sz := default_sz 1 [⟨16, 0, 0⟩] 3, N := 1, local_n_in := [], local_start_in := [] }
      = .ok ⟨⟨[⟨16, 8, 8⟩]⟩, 8, [], []⟩ ∧
    local_size_guru_m env_radix4 1 [⟨16, 0, 0⟩] 1 ⟨0, 3⟩ FFTW_FORWARD 0
      = .ok ⟨8, [8], [0], [8], [0]⟩ ∧
    local_size_guru_m env_no_radix 1 [⟨16, 0, 0⟩] 1 ⟨0, 3⟩ FFTW_FORWARD 0
      = .ok ⟨6, [6], [0], [6], [0]⟩ :=
  ⟨by decide, by decide, by decide, by decide, by decide, by decide,
   ((rank1_sign_validated env_radix4 [⟨16, 0, 0⟩] 1 ⟨0, 3⟩ 2 0 (by decide) (by decide)
      (by decide) (by decide) (by decide)).1 (by decide)).2,
   by decide, by decide,
   (((rank1_sign_validated env_radix4 [⟨16, 0, 0⟩] 1 ⟨0, 3⟩ FFTW_FORWARD 0 (by decide)
      (by decide) (by decide) (by decide) (by decide)).2 (Or.inl rfl)).1).trans (by decide),
   (((rank1_sign_validated env_radix4 [⟨16, 0, 0⟩] 1 ⟨0, 3⟩ FFTW_FORWARD 0 (by decide)
      (by decide) (by decide) (by decide) (by decide)).2 (Or.inl rfl)).2).trans (by decide),
   by decide⟩

/-! ## One-dimensional block distributions in `ptrdiff_t` -/

/-- When the product for the transposed intermediate is a `ptrdiff_t`, the
loop `dft-rank-geq2-transposed` computes in `ptrdiff_t` what it computes over
the integers. -/
theorem geq2_transposed_m_eq (my_pe n_pes rnk : Int) (sz : dtensor) (a b : List Int)
    (hT : in_range
      (if geq2_transposed_test sz 0 = true then
        prod rnk (local_size my_pe
          ((sz.set_dim 0 ((sz.dim 0).set_b IB (default_block (sz.dim 0).n n_pes))).set_dim 1
            (((sz.set_dim 0 ((sz.dim 0).set_b IB (default_block (sz.dim 0).n n_pes))).dim
                1).set_b IB
              ((sz.set_dim 0 ((sz.dim 0).set_b IB (default_block (sz.dim 0).n n_pes))).dim
                1).n)) IB).1
      else if geq2_transposed_test sz 1 = true then
        prod rnk (local_size my_pe
          ((sz.set_dim 1 ((sz.dim 1).set_b IB (default_block (sz.dim 1).n n_pes))).set_dim 0
            (((sz.set_dim 1 ((sz.dim 1).set_b IB (default_block (sz.dim 1).n n_pes))).dim
                0).set_b IB
              ((sz.set_dim 1 ((sz.dim 1).set_b IB (default_block (sz.dim 1).n n_pes))).dim
                0).n)) IB).1
      else 1)) :
    geq2_transposed_m my_pe n_pes rnk ⟨sz, 1, a, b⟩
      = geq2_transposed my_pe n_pes rnk ⟨sz, 1, a, b⟩ := by
  unfold geq2_transposed_m geq2_transposed
  simp only
  by_cases h0 : geq2_transposed_test sz 0 = true
  · rw [if_pos h0] at hT
    rw [if_pos h0, if_pos h0]
    simp only [geq2_transposed_body_m, geq2_transposed_body]
    rw [prod_m_of_in_range _ _ hT]
  · rw [if_neg h0] at hT
    rw [if_neg h0, if_neg h0]
    by_cases h1 : geq2_transposed_test sz 1 = true
    · rw [if_pos h1] at hT
      rw [if_pos h1, if_pos h1]
      simp only [geq2_transposed_body_m, geq2_transposed_body]
      rw [prod_m_of_in_range _ _ hT]
    · rw [if_neg h1, if_neg h1]

/-- When `howmany ≠ 0` and the quantities that the branch for one-dimensional
block distributions forms are values of `ptrdiff_t`, the branch computes in
`ptrdiff_t` what it computes over the integers. -/
theorem guru_geq2_m_eq (my_pe n_pes rnk howmany : Int) (sz : dtensor)
    (hh : howmany ≠ 0) (hhr : in_range howmany)
    (hT : in_range
      (if geq2_transposed_test sz 0 = true then
        prod rnk (local_size my_pe
          ((sz.set_dim 0 ((sz.dim 0).set_b IB (default_block (sz.dim 0).n n_pes))).set_dim 1
            (((sz.set_dim 0 ((sz.dim 0).set_b IB (default_block (sz.dim 0).n n_pes))).dim
                1).set_b IB
              ((sz.set_dim 0 ((sz.dim 0).set_b IB (default_block (sz.dim 0).n n_pes))).dim
                1).n)) IB).1
      else if geq2_transposed_test sz 1 = true then
        prod rnk (local_size my_pe
          ((sz.set_dim 1 ((sz.dim 1).set_b IB (default_block (sz.dim 1).n n_pes))).set_dim 0
            (((sz.set_dim 1 ((sz.dim 1).set_b IB (default_block (sz.dim 1).n n_pes))).dim
                0).set_b IB
              ((sz.set_dim 1 ((sz.dim 1).set_b IB (default_block (sz.dim 1).n n_pes))).dim
                0).n)) IB).1
      else 1))
    (hA : in_range ((sz.dims.drop 1).foldl (fun a d => a * d.n) howmany))
    (hB : in_range ((sz.dims.drop 2).foldl (fun a d => a * d.n) (howmany * (sz.dim 0).n)))
    (hx1 : in_range ((sz.dim 0).n
      * block ((sz.dims.drop 1).foldl (fun a d => a * d.n) howmany)
          (default_block ((sz.dims.drop 1).foldl (fun a d => a * d.n) howmany) n_pes) my_pe
      + howmany - 1))
    (hx2 : in_range ((sz.dim 1).n
      * block ((sz.dims.drop 2).foldl (fun a d => a * d.n) (howmany * (sz.dim 0).n))
          (default_block ((sz.dims.drop 2).foldl (fun a d => a * d.n) (howmany * (sz.dim 0).n))
            n_pes) my_pe
      + howmany - 1)) :
    guru_geq2_m my_pe n_pes rnk howmany ⟨sz, 1, [], []⟩
      = .ok (guru_geq2 my_pe n_pes rnk howmany ⟨sz, 1, [], []⟩) := by
  have hBw : (sz.dims.drop 2).foldl (fun a d => wrap (a * d.n)) (wrap (howmany * (sz.dim 0).n))
      = (sz.dims.drop 2).foldl (fun a d => a * d.n) (howmany * (sz.dim 0).n) := by
    rw [foldl_wrap_mul_n, wrap_of_in_range hB]
  simp only [guru_geq2_m, guru_geq2, geq2_transposed_m_eq my_pe n_pes rnk sz [] [] hT,
    geq2_transposed_sz, cdiv_checked, if_neg hh,
    foldl_wrap_mul_n_of_in_range (sz.dims.drop 1) howmany hhr hA, hBw,
    wrap_sub_left, wrap_add_left, wrap_of_in_range hx1, wrap_of_in_range hx2]

/-- C16 (amended): for a valid request of rank 2 and above with
`howmany ≥ 1` whose canonical distribution is a one-dimensional block split
on both sides, let `T` be the transposed-intermediate candidate (for the
first `i` in `{0, 1}` whose dimension has one block on both sides, the
product of the local input extents when `dims[i]` gets the input block
`default_block n_i n_pes` and `dims[1-i]` the input block `n_{1-i}`; absent,
here 1, if there is no such `i`), `A = howmany * prod_{i≥1} n_i`,
`B = howmany * n_0 * prod_{i≥2} n_i`,
`x1 = n_0 * block A (default_block A n_pes) my_pe`,
`x2 = n_1 * block B (default_block B n_pes) my_pe`, `Pin` and `Pout` the
products of the local input and output extents of the canonical
distribution, and `N` the maximum of 1, `T`, the rounded-up quotients of `x1`
and of `x2` by `howmany`, `Pin` and `Pout`.  If `T`, `A`, `B`,
`x1 + howmany - 1`, `x2 + howmany - 1`, `Pin`, `Pout` and `N * howmany` are
values of `ptrdiff_t`, the size query returns `N * howmany`, which is at
least `x1` and at least `x2`, and reports the local extents of the canonical
distribution.  (The C quotient `(x + howmany - 1) / howmany` is the ceiling
of `x / howmany` for `x ≥ 0`.) -/
theorem block1d_size_formula (env : Env) (rnk : Int) (dims0 : List mpi_ddim)
    (howmany : Int) (comm : MPI_Comm) (sign : Int) (flags : Nat)
    (hr : 2 ≤ rnk) (_hlen : rnk.toNat ≤ dims0.length)
    (hd : ∀ d ∈ dims0.take rnk.toNat,
      1 ≤ d.n ∧ 0 ≤ d.ib ∧ d.ib ≤ d.n ∧ 0 ≤ d.ob ∧ d.ob ≤ d.n)
    (hh : 1 ≤ howmany) (_hp : 1 ≤ comm.n_pes)
    (_hpe : 0 ≤ comm.my_pe ∧ comm.my_pe < comm.n_pes)
    (hbi : is_block1d (default_sz rnk dims0 comm.n_pes) IB = true)
    (hbo : is_block1d (default_sz rnk dims0 comm.n_pes) OB = true) :
    let sz := default_sz rnk dims0 comm.n_pes
    let t0 := sz.set_dim 0 ((sz.dim 0).set_b IB (default_block (sz.dim 0).n comm.n_pes))
    let t1 := sz.set_dim 1 ((sz.dim 1).set_b IB (default_block (sz.dim 1).n comm.n_pes))
    let T :=
      if geq2_transposed_test sz 0 = true then
        prod rnk (local_size comm.my_pe (t0.set_dim 1 ((t0.dim 1).set_b IB (t0.dim 1).n)) IB).1
      else if geq2_transposed_test sz 1 = true then
        prod rnk (local_size comm.my_pe (t1.set_dim 0 ((t1.dim 0).set_b IB (t1.dim 0).n)) IB).1
      else 1
    let A := (sz.dims.drop 1).foldl (fun a d => a * d.n) howmany
    let B := (sz.dims.drop 2).foldl (fun a d => a * d.n) (howmany * (sz.dim 0).n)
    let x1 := (sz.dim 0).n * block A (default_block A comm.n_pes) comm.my_pe
    let x2 := (sz.dim 1).n * block B (default_block B comm.n_pes) comm.my_pe
    let Pin := prod rnk (local_size comm.my_pe sz IB).1
    let Pout := prod rnk (local_size comm.my_pe sz OB).1
    let N := max (max (max (max 1 T) (cdiv (x1 + howmany - 1) howmany))
                   (cdiv (x2 + howmany - 1) howmany)) (max Pin Pout)
    (in_range T → in_range A → in_range B → in_range (x1 + howmany - 1) →
      in_range (x2 + howmany - 1) → in_range Pin → in_range Pout → in_range (N * howmany) →
      ∃ r, local_size_guru_m env rnk dims0 howmany comm sign flags = .ok r ∧
        r.ret = N * howmany ∧ x1 ≤ r.ret ∧ x2 ≤ r.ret ∧
        (r.local_n_in, r.local_start_in) = local_size comm.my_pe sz IB ∧
        (r.local_n_out, r.local_start_out) = local_size comm.my_pe sz OB) ∧
    (∀ x : Int, 0 ≤ x → cdiv (x + howmany - 1) howmany = ⌈(x : ℚ) / (howmany : ℚ)⌉) := by
  intro sz t0 t1 T A B x1 x2 Pin Pout N
  refine ⟨?_, fun x hx => cdiv_eq_ceil x howmany hx hh⟩
  intro hT hA hB hx1 hx2 hPin hPout hN
  have hr0 : rnk ≠ 0 := by omega
  have hh0 : howmany ≠ 0 := by omega
  have hN1 : 1 ≤ N :=
    le_trans (le_trans (le_trans (le_max_left 1 T) (le_max_left _ _)) (le_max_left _ _))
      (le_max_left _ _)
  have hhr : in_range howmany := by
    have h1 : howmany ≤ N * howmany := by nlinarith
    unfold in_range PTRDIFF_MIN PTRDIFF_MAX at hN ⊢
    omega
  have hc : guru_candidates_m env rnk howmany comm.my_pe comm.n_pes sign flags
      { sz := sz, N := 1, local_n_in := [], local_start_in := [] }
      = .ok (guru_geq2 comm.my_pe comm.n_pes rnk howmany ⟨sz, 1, [], []⟩) := by
    unfold guru_candidates_m
    rw [if_pos ⟨by omega, hbi, hbo⟩]
    exact guru_geq2_m_eq comm.my_pe comm.n_pes rnk howmany sz hh0 hhr hT hA hB hx1 hx2
  have hNeq : guru_N_m rnk comm.my_pe (guru_geq2 comm.my_pe comm.n_pes rnk howmany
      ⟨sz, 1, [], []⟩) = N := by
    unfold guru_N_m
    rw [guru_geq2_sz, prod_m_of_in_range _ _ hPin, prod_m_of_in_range _ _ hPout]
    simp only [guru_geq2, imax_eq_max, geq2_transposed_sz, geq2_transposed_N_eq]
  have hret : local_size_guru_m env rnk dims0 howmany comm sign flags
      = .ok { ret := N * howmany,
              local_n_in := (local_size comm.my_pe sz IB).1,
              local_start_in := (local_size comm.my_pe sz IB).2,
              local_n_out := (local_size comm.my_pe sz OB).1,
              local_start_out := (local_size comm.my_pe sz OB).2 } := by
    simp only [local_size_guru_m, if_neg hr0, default_sz_m_eq rnk dims0 comm.n_pes hd]
    rw [hc]
    simp only [hNeq, guru_geq2_sz, wrap_of_in_range hN]
  refine ⟨_, hret, rfl, ?_, ?_, rfl, rfl⟩
  · have hc1 := le_cdiv_mul x1 howmany hh
    have hm : cdiv (x1 + howmany - 1) howmany ≤ N :=
      le_trans (le_trans (le_max_right _ _) (le_max_left _ _)) (le_max_left _ _)
    exact le_trans hc1 (Int.mul_le_mul_of_nonneg_right hm (by omega))
  · have hc2 := le_cdiv_mul x2 howmany hh
    have hm : cdiv (x2 + howmany - 1) howmany ≤ N :=
      le_trans (le_max_right _ _) (le_max_left _ _)
    exact le_trans hc2 (Int.mul_le_mul_of_nonneg_right hm (by omega))

/-- C16 (counterexample): a `2^32 x 2^32` array with `howmany = 1` on the
first of two processes.  The canonical distribution `[(2^32, 2^31, 2^31),
(2^32, 2^32, 2^32)]` is a one-dimensional block split on both sides; the
product of the local extents `2^31 x 2^32` and
`x1 = n_0 * block A (default_block A n_pes) my_pe` with `A = 2^32` are both
`2^63`, one more than the largest `ptrdiff_t`; the query returns `1`. -/
theorem block1d_size_wraps :
    default_sz 2 [⟨4294967296, 0, 0⟩, ⟨4294967296, 0, 0⟩] 2
      = ⟨[⟨4294967296, 2147483648, 2147483648⟩, ⟨4294967296, 4294967296, 4294967296⟩]⟩ ∧
    is_block1d (default_sz 2 [⟨4294967296, 0, 0⟩, ⟨4294967296, 0, 0⟩] 2) IB = true ∧
    is_block1d (default_sz 2 [⟨4294967296, 0, 0⟩, ⟨4294967296, 0, 0⟩] 2) OB = true ∧
    local_size_guru_m env_no_radix 2 [⟨4294967296, 0, 0⟩, ⟨4294967296, 0, 0⟩] 1 ⟨0, 2⟩
        FFTW_FORWARD 0
      = .ok { ret := 1, local_n_in := [2147483648, 4294967296], local_start_in := [0, 0],
              local_n_out := [2147483648, 4294967296], local_start_out := [0, 0] } ∧
    prod 2 [2147483648, 4294967296] = 9223372036854775808 ∧
    4294967296 * block (1 * 4294967296) (default_block (1 * 4294967296) 2) 0
      = 9223372036854775808 ∧
    ¬ in_range 9223372036854775808 := by
  decide

/-- C16 (witness): a 5 x 3 request with `howmany = 2` on the first of two
processes.  The transposed-intermediate candidate is `5 * 2 = 10`, both
`x1` and `x2` are 15 with rounded-up quotient 8, the local products are 9;
the per-vector size is 10 and the query returns 20. -/
theorem block1d_size_formula_witness :
    (2 : Int) ≤ 2 ∧ (2 : Int).toNat ≤ ([⟨5, 0, 0⟩, ⟨3, 0, 0⟩] : List mpi_ddim).length ∧
    (∀ d ∈ ([⟨5, 0, 0⟩, ⟨3, 0, 0⟩] : List mpi_ddim).take (2 : Int).toNat,
      1 ≤ d.n ∧ 0 ≤ d.ib ∧ d.ib ≤ d.n ∧ 0 ≤ d.ob ∧ d.ob ≤ d.n) ∧
    (1 : Int) ≤ 2 ∧ (1 : Int) ≤ 2 ∧ ((0 : Int) ≤ 0 ∧ (0 : Int) < 2) ∧
    is_block1d (default_sz 2 [⟨5, 0, 0⟩, ⟨3, 0, 0⟩] 2) IB = true ∧
    is_block1d (default_sz 2 [⟨5, 0, 0⟩, ⟨3, 0, 0⟩] 2) OB = true ∧
    default_sz 2 [⟨5, 0, 0⟩, ⟨3, 0, 0⟩] 2 = ⟨[⟨5, 3, 3⟩, ⟨3, 3, 3⟩]⟩ ∧
    prod 2 (local_size 0 ⟨[⟨5, 5, 3⟩, ⟨3, 2, 3⟩]⟩ IB).1 = 10 ∧
    5 * block (2 * 3) (default_block (2 * 3) 2) 0 = 15 ∧
    3 * block (2 * 5) (default_block (2 * 5) 2) 0 = 15 ∧
    cdiv (15 + 2 - 1) 2 = 8 ∧
    prod 2 (local_size 0 ⟨[⟨5, 3, 3⟩, ⟨3, 3, 3⟩]⟩ IB).1 = 9 ∧
    ∃ r, local_size_guru_m env_no_radix 2 [⟨5, 0, 0⟩, ⟨3, 0, 0⟩] 2 ⟨0, 2⟩ FFTW_FORWARD 0
        = .ok r ∧
      r.ret = 10 * 2 ∧ 15 ≤ r.ret ∧ r.local_n_in = [3, 3] ∧ r.local_n_out = [3, 3] :=
  ⟨by omega, by decide, by decide, by omega, by omega, by omega, by decide, by decide,
   by decide, by decide, by decide, by decide, by decide, by decide,
   match (block1d_size_formula env_no_radix 2 [⟨5, 0, 0⟩, ⟨3, 0, 0⟩] 2 ⟨0, 2⟩ FFTW_FORWARD 0
      (by omega) (by decide) (by decide) (by omega) (by decide) (by decide) (by decide)
      (by decide)).1 (by decide) (by decide) (by decide) (by decide) (by decide) (by decide)
      (by decide) (by decide) with
   | ⟨r, h, hret, hx1, _, hin, hout⟩ =>
     ⟨r, h, hret.trans (by decide), le_trans (by decide) hx1,
      (congrArg Prod.fst hin).trans (by decide), (congrArg Prod.fst hout).trans (by decide)⟩⟩

/-! ## Where the two arithmetics agree -/

/-- For a request of the data model of rank 2 and above with `howmany ≠ 0`
the size query in `ptrdiff_t` returns, and reports the local extents of the canonical distribution: the
same extents and offsets as the size query over the integers
(`local_size_guru_geq2`). -/
theorem local_size_guru_m_geq2 (env : Env) (rnk : Int) (dims0 : List mpi_ddim)
    (howmany : Int) (comm : MPI_Comm) (sign : Int) (flags : Nat) (hr : 2 ≤ rnk)
    (hd : ∀ d ∈ dims0.take rnk.toNat,
      1 ≤ d.n ∧ 0 ≤ d.ib ∧ d.ib ≤ d.n ∧ 0 ≤ d.ob ∧ d.ob ≤ d.n)
    (hh : howmany ≠ 0) :
    ∃ r, local_size_guru_m env rnk dims0 howmany comm sign flags = .ok r ∧
      r.local_n_in = (local_size comm.my_pe (default_sz rnk dims0 comm.n_pes) IB).1 ∧
      r.local_start_in = (local_size comm.my_pe (default_sz rnk dims0 comm.n_pes) IB).2 ∧
      r.local_n_out = (local_size comm.my_pe (default_sz rnk dims0 comm.n_pes) OB).1 ∧
      r.local_start_out = (local_size comm.my_pe (default_sz rnk dims0 comm.n_pes) OB).2 := by
  have hr0 : rnk ≠ 0 := by omega
  have hr1 : ¬ rnk = 1 := by omega
  have hc : ∃ st1, guru_candidates_m env rnk howmany comm.my_pe comm.n_pes sign flags
      { sz := default_sz rnk dims0 comm.n_pes, N := 1, local_n_in := [], local_start_in := [] }
      = .ok st1 ∧ st1.sz = default_sz rnk dims0 comm.n_pes := by
    unfold guru_candidates_m
    by_cases hb : rnk > 1 ∧ is_block1d (default_sz rnk dims0 comm.n_pes) IB = true ∧
        is_block1d (default_sz rnk dims0 comm.n_pes) OB = true
    · obtain ⟨st1, h1, hsz, -⟩ := guru_geq2_m_ok comm.my_pe comm.n_pes rnk howmany
        { sz := default_sz rnk dims0 comm.n_pes, N := 1, local_n_in := [],
          local_start_in := [] } hh
      rw [if_pos hb]
      exact ⟨st1, h1, hsz⟩
    · rw [if_neg hb, if_neg hr1]
      exact ⟨_, rfl, rfl⟩
  obtain ⟨st1, h1, hsz⟩ := hc
  simp only [local_size_guru_m, if_neg hr0, default_sz_m_eq rnk dims0 comm.n_pes hd, h1, hsz]
  exact ⟨_, rfl, rfl, rfl, rfl, rfl⟩

/-- For rank 0 the size query in `ptrdiff_t` returns `howmany` and writes no
local extent, as over the integers. -/
theorem local_size_guru_m_rank0 (env : Env) (dims0 : List mpi_ddim) (howmany : Int)
    (comm : MPI_Comm) (sign : Int) (flags : Nat) :
    local_size_guru_m env 0 dims0 howmany comm sign flags
      = .ok { ret := howmany, local_n_in := [], local_start_in := [],
              local_n_out := [], local_start_out := [] } := by
  simp [local_size_guru_m]

/-- A rank-1 size query in `ptrdiff_t` that reaches radix selection with sign
forward or backward and gets the answer `0` from the selector returns the
ordinary size `max(1, prod local_n_in, prod local_n_out) * howmany`, stored in
`ptrdiff_t`, with the local extents of the canonical distribution, as it does
over the integers. -/
theorem local_size_guru_m_no_radix (env : Env) (dims0 : List mpi_ddim) (howmany : Int)
    (comm : MPI_Comm) (sign : Int) (flags : Nat)
    (hd : ∀ d ∈ dims0.take (1 : Int).toNat,
      1 ≤ d.n ∧ 0 ≤ d.ib ∧ d.ib ≤ d.n ∧ 0 ≤ d.ob ∧ d.ob ≤ d.n)
    (hreach : howmany < comm.n_pes ∨ flags ≠ 0)
    (hs : sign = FFTW_FORWARD ∨ sign = FFTW_BACKWARD)
    (h0 : (env.choose_radix ((default_sz 1 dims0 comm.n_pes).dim 0) comm.n_pes flags
      sign).r = 0) :
    local_size_guru_m env 1 dims0 howmany comm sign flags
      = .ok { ret := wrap (imax 1
                (imax (prod_m 1 (local_size comm.my_pe (default_sz 1 dims0 comm.n_pes) IB).1)
                  (prod_m 1 (local_size comm.my_pe (default_sz 1 dims0 comm.n_pes) OB).1))
                * howmany),
              local_n_in := (local_size comm.my_pe (default_sz 1 dims0 comm.n_pes) IB).1,
              local_start_in := (local_size comm.my_pe (default_sz 1 dims0 comm.n_pes) IB).2,
              local_n_out := (local_size comm.my_pe (default_sz 1 dims0 comm.n_pes) OB).1,
              local_start_out := (local_size comm.my_pe (default_sz 1 dims0 comm.n_pes) OB).2 } := by
  have h1 : ¬ ((1 : Int) > 1 ∧
      is_block1d (default_sz 1 dims0 comm.n_pes) IB = true ∧
      is_block1d (default_sz 1 dims0 comm.n_pes) OB = true) := by omega
  have h2 : ¬ (howmany ≥ comm.n_pes ∧ flags = 0) := by
    rintro ⟨ha, hb⟩
    rcases hreach with h | h
    · omega
    · exact h hb
  have hc : guru_candidates_m env 1 howmany comm.my_pe comm.n_pes sign flags
      { sz := default_sz 1 dims0 comm.n_pes, N := 1, local_n_in := [], local_start_in := [] }
      = .ok { sz := default_sz 1 dims0 comm.n_pes, N := 1, local_n_in := [],
              local_start_in := [] } := by
    simp only [guru_candidates_m, h1, h2, hs, if_true, if_false, guru_rank1_radix_m, h0,
      ne_eq, not_true_eq_false]
  simp only [local_size_guru_m, one_ne_zero, if_false, default_sz_m_eq 1 dims0 comm.n_pes hd]
  rw [hc]
  rfl

end FFTW.MPI
